import Mathlib

/-!
Shallow embedding of the orbat portfolio-optimization core
(`src/include/orbat/core/*.hpp`, `src/include/orbat/optimizer/*.hpp`).

Numbers: the C++ code computes over `double`; the embedding idealizes
`double` as the real numbers `ℝ` (exact arithmetic, exact `sqrt`), keeping
every comparison, guard and control-flow branch of the source.  Fallible
C++ functions (those that `throw`) are embedded as `Except String`-valued
functions; a `try { ... } catch` block in the source becomes a `match` on
the `Except` value.
-/

namespace Orbat

noncomputable section

/-- `EPSILON` from `core/constants.hpp`: `1e-15`. -/
def EPSILON : ℝ := 1 / 10 ^ 15

/-- `core::Vector` (`core/vector.hpp`): an ordered sequence of reals.
The underlying `std::vector<double>` is embedded as `List ℝ`. -/
abbrev Vec := List ℝ

namespace Vec

/-- `Vector::sum`: sum of all elements. -/
def sum (v : Vec) : ℝ := v.foldr (fun a b => a + b) 0

/-- `Vector::dot`: dot product.  The source raises on unequal sizes; every
call site embedded below passes equal-sized vectors, so the embedding is the
total function on the equal-size domain (zip truncates otherwise). -/
def dot (a b : Vec) : ℝ := (List.zipWith (fun x y => x * y) a b).sum

/-- `Vector::operator*(double)`: element-wise scalar multiplication. -/
def smul (v : Vec) (c : ℝ) : Vec := v.map (fun x => x * c)

/-- `Vector::operator/(double)`: element-wise scalar division.  The source
raises when `|c| < EPSILON`; every embedded call site guards the divisor
first, so the embedding is the total division. -/
def sdiv (v : Vec) (c : ℝ) : Vec := v.map (fun x => x / c)

/-- `Vector::operator+`: element-wise addition (sizes equal at call sites). -/
def add (a b : Vec) : Vec := List.zipWith (fun x y => x + y) a b

end Vec

/-- `core::Matrix` (`core/matrix.hpp`): dense `rows × cols` matrix.  The
row-major `std::vector<double>` store is embedded as the entry function
`ℕ → ℕ → ℝ`; entries outside `rows × cols` are junk and are never read by
the embedded operations (the source asserts in-bounds access). -/
structure Mat where
  rows : ℕ
  cols : ℕ
  entry : ℕ → ℕ → ℝ

namespace Mat

/-- `Matrix::isSquare`. -/
def IsSquare (M : Mat) : Prop := M.rows = M.cols

/-- `Matrix::empty`. -/
def IsEmpty (M : Mat) : Prop := M.rows = 0 ∨ M.cols = 0

/-- `Matrix::transpose`. -/
def transpose (M : Mat) : Mat := ⟨M.cols, M.rows, fun i j => M.entry j i⟩

/-- `Matrix::operator*(Matrix)`: matrix product (inner dimensions match at
every embedded call site; the source raises otherwise). -/
def mul (M N : Mat) : Mat :=
  ⟨M.rows, N.cols, fun i j => ∑ k in Finset.range M.cols, M.entry i k * N.entry k j⟩

/-- `Matrix::operator*(Vector)`: matrix-vector product. -/
def mulVec (M : Mat) (v : Vec) : Vec :=
  (List.range M.rows).map (fun i => ∑ j in Finset.range M.cols, M.entry i j * v.getD j 0)

/-- `Matrix::operator*(double)`: scalar multiplication. -/
def smul (M : Mat) (c : ℝ) : Mat := ⟨M.rows, M.cols, fun i j => M.entry i j * c⟩

/-- `Matrix::operator+`: matrix addition (shapes agree at embedded call sites). -/
def add (M N : Mat) : Mat := ⟨M.rows, M.cols, fun i j => M.entry i j + N.entry i j⟩

/-- `Matrix::identity`. -/
def identity (n : ℕ) : Mat := ⟨n, n, fun i j => if i = j then 1 else 0⟩

end Mat

/-- The entries of the lower-triangular Cholesky factor built by
`Matrix::cholesky`: for `i = j`, `L(j,j) = sqrt(A(j,j) - Σ_{k<j} L(j,k)²)`;
for `j < i`, `L(i,j) = (A(i,j) - Σ_{k<j} L(i,k)·L(j,k)) / L(j,j)`; the
matrix is zero above the diagonal.  The C++ double loop fills entries in
an order compatible with this recursion, so the fixed point below is the
matrix the loop produces. -/
noncomputable def cholEntry (A : ℕ → ℕ → ℝ) : ℕ → ℕ → ℝ
  | i, j =>
    if i = j then
      Real.sqrt (A j j - (Finset.range j).attach.sum
        (fun k => cholEntry A j k.1 * cholEntry A j k.1))
    else if j < i then
      (A i j - (Finset.range j).attach.sum
        (fun k => cholEntry A i k.1 * cholEntry A j k.1)) / cholEntry A j j
    else 0
termination_by i j => (j, i)
decreasing_by
  · exact Prod.Lex.left _ _ (Finset.mem_range.mp k.2)
  · exact Prod.Lex.left _ _ (Finset.mem_range.mp k.2)
  · exact Prod.Lex.left _ _ (Finset.mem_range.mp k.2)
  · exact Prod.Lex.right _ (by omega)

/-- The radicand `A(j,j) - Σ_{k<j} L(j,k)²` whose square root is `L(j,j)`;
`Matrix::cholesky` throws when it is `≤ 0`. -/
noncomputable def cholRadicand (A : ℕ → ℕ → ℝ) (j : ℕ) : ℝ :=
  A j j - ∑ k in Finset.range j, cholEntry A j k * cholEntry A j k

/-- `Matrix::cholesky` succeeds on an `n × n` input iff every diagonal
radicand encountered by the loop is strictly positive. -/
def CholOk (A : ℕ → ℕ → ℝ) (n : ℕ) : Prop := ∀ j < n, 0 < cholRadicand A j

open Classical in
/-- `Matrix::cholesky` (`matrix.hpp:413`): requires a square input, throws
`"Matrix is not positive-definite"` when a radicand is non-positive, and
otherwise returns the lower-triangular factor. -/
noncomputable def Mat.cholesky (M : Mat) : Except String Mat :=
  if M.rows = M.cols then
    if CholOk M.entry M.rows then
      .ok ⟨M.rows, M.rows, cholEntry M.entry⟩
    else .error "Matrix is not positive-definite"
  else .error "Cholesky decomposition requires a square matrix"

/-- Solution entries of `Matrix::solveLower` (forward substitution):
`x(i) = (b(i) - Σ_{j<i} L(i,j)·x(j)) / L(i,i)`. -/
noncomputable def forwardSub (L : ℕ → ℕ → ℝ) (b : ℕ → ℝ) : ℕ → ℝ
  | i =>
    (b i - (Finset.range i).attach.sum (fun j => L i j.1 * forwardSub L b j.1)) / L i i
termination_by i => i
decreasing_by
  · exact Finset.mem_range.mp j.2

/-- Solution entries of `Matrix::solveUpper` (backward substitution over an
`n × n` system): `x(i) = (b(i) - Σ_{i<j<n} U(i,j)·x(j)) / U(i,i)`. -/
noncomputable def backwardSub (n : ℕ) (U : ℕ → ℕ → ℝ) (b : ℕ → ℝ) : ℕ → ℝ
  | i =>
    (b i - (Finset.Ico (i + 1) n).attach.sum
      (fun j => U i j.1 * backwardSub n U b j.1)) / U i i
termination_by i => n - i
decreasing_by
  · have hj := Finset.mem_Ico.mp j.2
    omega

/-- The pivot checks of `Matrix::solveLower` / `Matrix::solveUpper`: both
throw `"Matrix is singular (zero diagonal element)"` when some diagonal
magnitude is below `EPSILON`.  For the Cholesky factor `L` used by
`Matrix::inverse`, `L` and `Lᵀ` share the same diagonal, so one predicate
covers the `2n` triangular solves. -/
def PivotsOk (L : ℕ → ℕ → ℝ) (n : ℕ) : Prop := ∀ i < n, EPSILON ≤ |L i i|

/-- Column `c` of the inverse built by `Matrix::inverse`: solve
`L·y = e_c` by forward substitution, then `Lᵀ·x = y` by backward
substitution; `x` is column `c`. -/
noncomputable def invColEntry (n : ℕ) (L : ℕ → ℕ → ℝ) (c : ℕ) : ℕ → ℝ :=
  backwardSub n (fun i j => L j i)
    (forwardSub L (fun r => if r = c then 1 else 0))

/-- The matrix assembled by `Matrix::inverse` on the success path. -/
noncomputable def Mat.invMat (M : Mat) : Mat :=
  ⟨M.rows, M.rows, fun r c => invColEntry M.rows (cholEntry M.entry) c r⟩

open Classical in
/-- `Matrix::inverse` (`matrix.hpp:530`): requires square, factors
`A = L·Lᵀ` via `cholesky()`, then for each unit basis vector `e_i` solves
`L·y = e_i` and `Lᵀ·x = y`, storing `x` as column `i`.  It propagates the
exceptions of `cholesky` and of the triangular solves' pivot checks. -/
noncomputable def Mat.inverse (M : Mat) : Except String Mat :=
  if M.rows = M.cols then
    if CholOk M.entry M.rows then
      if PivotsOk (cholEntry M.entry) M.rows then
        .ok M.invMat
      else .error "Matrix is singular (zero diagonal element)"
    else .error "Matrix is not positive-definite"
  else .error "Matrix inversion requires a square matrix"

/-- Symmetry of a matrix on the leading `n × n` block. -/
def Mat.SymmOn (M : Mat) (n : ℕ) : Prop :=
  ∀ i < n, ∀ j < n, M.entry i j = M.entry j i

/-- Positive-definiteness of the leading `n × n` block (the property the
spec calls "valid covariance matrix": symmetric with positive quadratic
form). -/
def Mat.PosDefOn (M : Mat) (n : ℕ) : Prop :=
  M.SymmOn n ∧
    ∀ v : Fin n → ℝ, v ≠ 0 →
      0 < ∑ i : Fin n, ∑ j : Fin n, v i * M.entry i.1 j.1 * v j

/-- The embedding of `Mat` (leading `n × n` block) into Mathlib's matrices,
used to transfer one-sided inverse facts. -/
def Mat.toFin (M : Mat) (n : ℕ) : Matrix (Fin n) (Fin n) ℝ :=
  Matrix.of fun i j => M.entry i.1 j.1

/-- The constraint variants of `optimizer/constraint.hpp`
(`FullyInvestedConstraint`, `LongOnlyConstraint`, `BoxConstraint` with
uniform or per-asset bounds), embedded as a closed sum type; the
run-time `dynamic_cast` dispatch of the source becomes a `match` on the
constructor. -/
inductive Constraint where
  | fullyInvested (tolerance : ℝ)
  | longOnly (tolerance : ℝ)
  | boxUniform (lower upper tolerance : ℝ)
  | boxPerAsset (lowerBounds upperBounds : List ℝ) (tolerance : ℝ)

namespace Constraint

/-- `isFeasible` of each constraint variant (`constraint.hpp:107,185,320`):
every variant reports `false` (not an error) on an empty weight vector. -/
def IsFeasible : Constraint → Vec → Prop
  | fullyInvested tol, w => w ≠ [] ∧ |Vec.sum w - 1| ≤ tol
  | longOnly tol, w => w ≠ [] ∧ ∀ i < w.length, ¬ w.getD i 0 < -tol
  | boxUniform lower upper tol, w =>
      w ≠ [] ∧ ∀ i < w.length,
        ¬ (w.getD i 0 < lower - tol ∨ upper + tol < w.getD i 0)
  | boxPerAsset lbs _ubs tol, w =>
      w ≠ [] ∧ w.length = lbs.length ∧ ∀ i < w.length,
        ¬ (w.getD i 0 < lbs.getD i 0 - tol ∨ _ubs.getD i 0 + tol < w.getD i 0)

/-- Variant test used by `ConstraintSet::hasInfeasibleCombination` via
`dynamic_cast<const FullyInvestedConstraint*>`. -/
def isFullyInvestedC : Constraint → Bool
  | fullyInvested _ => true
  | _ => false

/-- Variant test via `dynamic_cast<const LongOnlyConstraint*>`. -/
def isLongOnlyC : Constraint → Bool
  | longOnly _ => true
  | _ => false

/-- Variant test via `dynamic_cast<const BoxConstraint*>`. -/
def isBoxC : Constraint → Bool
  | boxUniform _ _ _ => true
  | boxPerAsset _ _ _ => true
  | _ => false

end Constraint

/-- `ConstraintSet` is an ordered collection of constraints. -/
abbrev ConstraintSet := List Constraint

/-- `ConstraintSet::isFeasible` (`constraint.hpp:505`): all members
feasible; an empty set reports feasible. -/
def ConstraintSet.IsFeasible (cs : ConstraintSet) (w : Vec) : Prop :=
  ∀ c ∈ cs, c.IsFeasible w

/-- The `boxConstraint` pointer left by the identification loop of
`hasInfeasibleCombination`: the loop overwrites it on every box variant,
so it ends up holding the last box constraint of the set. -/
def ConstraintSet.lastBox (cs : ConstraintSet) : Option Constraint :=
  cs.foldl (fun acc c => if c.isBoxC then some c else acc) none

/-- `ConstraintSet::hasInfeasibleCombination` (`constraint.hpp:533`) for a
positive asset count (`validate()` only calls it after the non-empty
check; the `numAssets == 0` throw is unreachable from the optimizer).
The per-asset bound sums run over the first `numAssets` entries, reached
only when the bound list has exactly `numAssets` entries. -/
def ConstraintSet.HasInfeasibleCombination (cs : ConstraintSet) (numAssets : ℕ) : Prop :=
  let hasFI := cs.any Constraint.isFullyInvestedC
  let hasLO := cs.any Constraint.isLongOnlyC
  match cs.lastBox with
  | some (.boxUniform lower upper _) =>
      (hasFI = true ∧
        (1 + EPSILON < lower * numAssets ∨ upper * numAssets < 1 - EPSILON)) ∨
      (hasLO = true ∧ upper < -EPSILON)
  | some (.boxPerAsset lbs ubs _) =>
      (hasFI = true ∧
        (lbs.length ≠ numAssets ∨
          1 + EPSILON < ∑ i in Finset.range numAssets, lbs.getD i 0 ∨
          (∑ i in Finset.range numAssets, ubs.getD i 0) < 1 - EPSILON)) ∨
      (hasLO = true ∧ ∃ u ∈ ubs, u < -EPSILON)
  | _ => False

/-- `MarkowitzResult` (`markowitz.hpp:29`). -/
structure MarkowitzResult where
  weights : Vec
  expectedReturn : ℝ
  risk : ℝ
  sharpeRatio : ℝ
  converged : Bool
  message : String

/-- `MarkowitzOptimizer` state: the inputs it copies at construction plus
the mutable tuning fields (`maxIterations_ = 1000`, `tolerance_ = 1e-8`
defaults). -/
structure MarkowitzOptimizer where
  expectedReturns : Vec
  covariance : Mat
  constraints : ConstraintSet
  maxIterations : ℕ
  tolerance : ℝ

namespace MarkowitzOptimizer

/-- The four portfolio-statistics lines repeated verbatim on every success
path of the optimizer (`expectedReturn = μᵀw`, `variance = wᵀΣw`,
`risk = sqrt(max(0, variance))`, `sharpeRatio = risk > EPSILON ?
expectedReturn/risk : 0`), packaged with `converged = true`. -/
def successResult (st : MarkowitzOptimizer) (w : Vec) (msg : String) : MarkowitzResult :=
  let expectedReturn := Vec.dot st.expectedReturns w
  let variance := Vec.dot w (st.covariance.mulVec w)
  let risk := Real.sqrt (max 0 variance)
  let sharpeRatio := if EPSILON < risk then expectedReturn / risk else 0
  ⟨w, expectedReturn, risk, sharpeRatio, true, msg⟩

/-- A non-convergence result (`{{}, 0.0, 0.0, 0.0, false, msg}`). -/
def failResult (msg : String) : MarkowitzResult := ⟨[], 0, 0, 0, false, msg⟩

open Classical in
/-- The body of one pass of the projection loop in `solveConstrainedQP`
(`markowitz.hpp:647`): clip negative weights to zero, then renormalize to
sum one, falling back to equal weights when the clipped sum is within
`EPSILON` of zero. -/
def qpStep (st : MarkowitzOptimizer) (w : Vec) : Vec :=
  let n := st.expectedReturns.length
  let wClipped := w.map (fun x => if x < 0 then 0 else x)
  let s := Vec.sum wClipped
  if EPSILON < |s| then Vec.sdiv wClipped s
  else List.replicate n ((1 : ℝ) / n)

open Classical in
/-- The projection loop of `solveConstrainedQP`: run `qpStep`, stop as
soon as the constraint set reports feasibility, give up after the
iteration budget (`fuel`, initially `maxIterations`) is exhausted. -/
def qpIterate (st : MarkowitzOptimizer) : ℕ → Vec → Vec
  | 0, w => w
  | fuel + 1, w =>
    let wNorm := st.qpStep w
    if ConstraintSet.IsFeasible st.constraints wNorm then wNorm
    else qpIterate st fuel wNorm

/-- `MarkowitzOptimizer::solveConstrainedQP` (`markowitz.hpp:641`): run the
projection loop (at most `maxIterations` passes), then attach portfolio
statistics; it reports `converged = true` unconditionally.  The `lambda`
parameter is `[[maybe_unused]]` in the source. -/
def solveConstrainedQP (st : MarkowitzOptimizer) (initialWeights : Vec)
    (lambda : ℝ) : MarkowitzResult :=
  let _ := lambda
  let weights := qpIterate st st.maxIterations initialWeights
  st.successResult weights "Constrained portfolio computed"

/-- `MarkowitzOptimizer::solveConstrainedQPWithTarget` (`markowitz.hpp:687`):
delegates to `solveConstrainedQP` with `lambda = 0`. -/
def solveConstrainedQPWithTarget (st : MarkowitzOptimizer) (initialWeights : Vec)
    (targetReturn : ℝ) : MarkowitzResult :=
  let _ := targetReturn
  st.solveConstrainedQP initialWeights 0

open Classical in
/-- `MarkowitzOptimizer::minimumVariance` (`markowitz.hpp:338`): the
`try { ... } catch` body becomes a `match` on `inverse()`; exceptions of
the inner vector algebra cannot fire because the divisor is guarded and
every dimension matches. -/
def minimumVariance (st : MarkowitzOptimizer) : MarkowitzResult :=
  let n := st.expectedReturns.length
  match st.covariance.inverse with
  | .error e => failResult ("Optimization failed: " ++ e)
  | .ok covInv =>
    let ones : Vec := List.replicate n 1
    let covInvOnes := covInv.mulVec ones
    let denominator := Vec.dot ones covInvOnes
    if |denominator| < EPSILON then failResult "Singular covariance matrix"
    else
      let weights := Vec.sdiv covInvOnes denominator
      if st.constraints ≠ [] ∧ ¬ ConstraintSet.IsFeasible st.constraints weights then
        st.solveConstrainedQP weights 0
      else
        st.successResult weights "Minimum variance portfolio computed"

open Classical in
/-- `MarkowitzOptimizer::optimize` (`markowitz.hpp:405`): throws
(`Except.error`) on `lambda < 0`, delegates to `minimumVariance` for
`lambda < EPSILON`, and otherwise solves the closed form
`w = λ·Σ⁻¹μ + γ·Σ⁻¹1` with `γ = (1 - λ·1ᵀΣ⁻¹μ) / (1ᵀΣ⁻¹1)`. -/
def optimize (st : MarkowitzOptimizer) (lambda : ℝ) : Except String MarkowitzResult :=
  if lambda < 0 then .error "Risk aversion parameter must be non-negative"
  else if lambda < EPSILON then .ok st.minimumVariance
  else
    let n := st.expectedReturns.length
    .ok (match st.covariance.inverse with
    | .error e => failResult ("Optimization failed: " ++ e)
    | .ok covInv =>
      let ones : Vec := List.replicate n 1
      let mu := st.expectedReturns
      let covInvMu := covInv.mulVec mu
      let covInvOnes := covInv.mulVec ones
      let onesCovInvMu := Vec.dot ones covInvMu
      let onesCovInvOnes := Vec.dot ones covInvOnes
      if |onesCovInvOnes| < EPSILON then failResult "Singular covariance matrix"
      else
        let gamma := (1 - lambda * onesCovInvMu) / onesCovInvOnes
        let weights := Vec.add (Vec.smul covInvMu lambda) (Vec.smul covInvOnes gamma)
        if st.constraints ≠ [] ∧ ¬ ConstraintSet.IsFeasible st.constraints weights then
          st.solveConstrainedQP weights lambda
        else
          st.successResult weights "Mean-variance portfolio computed")

/-- `*std::min_element` over the returns data (non-empty at every call). -/
def listMin : Vec → ℝ
  | [] => 0
  | x :: xs => xs.foldl (fun a b => min a b) x

/-- `*std::max_element` over the returns data (non-empty at every call). -/
def listMax : Vec → ℝ
  | [] => 0
  | x :: xs => xs.foldl (fun a b => max a b) x

open Classical in
/-- `MarkowitzOptimizer::targetReturn` (`markowitz.hpp:480`): rejects
targets outside `[min(μ) - tolerance, max(μ) + tolerance]` with
`converged = false`, solves the 2×2 multiplier system
`[[A,B],[B,C]]` with `det = A·C - B²`, and reports `converged = false`
(never an exception) when `|det| < EPSILON`. -/
def targetReturn (st : MarkowitzOptimizer) (r : ℝ) : MarkowitzResult :=
  let n := st.expectedReturns.length
  let minReturn := listMin st.expectedReturns
  let maxReturn := listMax st.expectedReturns
  if r < minReturn - st.tolerance ∨ maxReturn + st.tolerance < r then
    failResult "Target return is not achievable"
  else
    match st.covariance.inverse with
    | .error e => failResult ("Optimization failed: " ++ e)
    | .ok covInv =>
      let ones : Vec := List.replicate n 1
      let mu := st.expectedReturns
      let covInvMu := covInv.mulVec mu
      let covInvOnes := covInv.mulVec ones
      let A := Vec.dot mu covInvMu
      let B := Vec.dot mu covInvOnes
      let C := Vec.dot ones covInvOnes
      let det := A * C - B * B
      if |det| < EPSILON then
        failResult "System is singular (returns may be constant)"
      else
        let a := (C * r - B) / det
        let b := (A - B * r) / det
        let weights := Vec.add (Vec.smul covInvMu a) (Vec.smul covInvOnes b)
        if st.constraints ≠ [] ∧ ¬ ConstraintSet.IsFeasible st.constraints weights then
          st.solveConstrainedQPWithTarget weights r
        else
          st.successResult weights "Target return portfolio computed"

open Classical in
/-- The constructors of `MarkowitzOptimizer` (`markowitz.hpp:277,291`)
followed by `validate()` (`markowitz.hpp:601`); the wrapper objects
(`ExpectedReturns`, `CovarianceMatrix`) arrive already validated, so only
the constructor-level checks appear here. -/
def mk? (expectedReturns : Vec) (covariance : Mat)
    (constraints : ConstraintSet) : Except String MarkowitzOptimizer :=
  if expectedReturns = [] then .error "Expected returns cannot be empty"
  else if covariance.IsEmpty then .error "Covariance matrix cannot be empty"
  else if expectedReturns.length ≠ covariance.rows then
    .error "Expected returns and covariance matrix dimensions must match"
  else if constraints ≠ [] ∧
      ConstraintSet.HasInfeasibleCombination constraints expectedReturns.length then
    .error "Constraint set contains infeasible combinations"
  else .ok ⟨expectedReturns, covariance, constraints, 1000, 1 / 10 ^ 8⟩

end MarkowitzOptimizer

/-- The state invariant every reachable `MarkowitzOptimizer` instance
satisfies: the constructor validation gives non-emptiness and matching
dimensions, `CovarianceMatrix::validate` gives squareness, and
`maxIterations` starts at 1000 with `setMaxIterations` rejecting 0. -/
structure MarkowitzOptimizer.WF (st : MarkowitzOptimizer) : Prop where
  nonempty : st.expectedReturns ≠ []
  square : st.covariance.rows = st.covariance.cols
  dims : st.covariance.rows = st.expectedReturns.length
  maxIter : 1 ≤ st.maxIterations

open Classical in
/-- Modelled from the spec: `Matrix::isPositiveDefinite` is specified
(spec §4.2) and exercised by `tests/unit/test_matrix.cpp`, but the member
function itself is absent from the sources under `src/`.  Following the
spec's words: it attempts `cholesky()` together with a full symmetry and
diagonal scan, returns `false` rather than raising on any failure mode
(non-square, non-symmetric, non-positive diagonal entry, or factorization
failure), and returns `true` only when all checks succeed. -/
def Mat.isPositiveDefinite (M : Mat) : Bool :=
  if M.IsSquare ∧ M.SymmOn M.rows ∧ (∀ i < M.rows, 0 < M.entry i i) ∧
      (∃ L, M.cholesky = Except.ok L) then true else false

/-- `View` (`black_litterman.hpp:29`): a linear combination of assets, a
stated return for it, and a confidence in `[0,1]` (validated by the `View`
constructor; `addView` also checks the length against the asset count). -/
structure View where
  assets : Vec
  expectedReturn : ℝ
  confidence : ℝ

/-- `BlackLittermanOptimizer` state (`black_litterman.hpp:89`): the inputs
copied at construction plus the mutable list of views (`addView` /
`clearViews`).  The `equilibriumReturns_` member is a pure function of
the other fields (computed once at construction), embedded as
`equilibriumReturns` below. -/
structure BlackLittermanOptimizer where
  marketWeights : Vec
  covariance : Mat
  riskAversion : ℝ
  tau : ℝ
  views : List View

namespace BlackLittermanOptimizer

/-- `computeEquilibriumReturns` (`black_litterman.hpp:329`):
`Π = (Σ · w_market) · λ`, stored at construction. -/
def equilibriumReturns (st : BlackLittermanOptimizer) : Vec :=
  Vec.smul (st.covariance.mulVec st.marketWeights) st.riskAversion

open Classical in
/-- The `BlackLittermanOptimizer` constructor (`black_litterman.hpp:100`)
with its `validate()` checks (`black_litterman.hpp:290`); `tau` defaults
to `0.025` at C++ call sites that omit it. -/
def mk? (marketWeights : Vec) (covariance : Mat) (riskAversion : ℝ)
    (tau : ℝ) : Except String BlackLittermanOptimizer :=
  if marketWeights = [] then .error "Market weights cannot be empty"
  else if covariance.IsEmpty then .error "Covariance matrix cannot be empty"
  else if marketWeights.length ≠ covariance.rows then
    .error "Market weights and covariance dimensions must match"
  else if riskAversion ≤ 0 then .error "Risk aversion must be positive"
  else if tau ≤ 0 then .error "Tau must be positive"
  else if 1 / 10 ^ 6 < |Vec.sum marketWeights - 1| then
    .error "Market weights must sum to 1.0"
  else if ∃ i < marketWeights.length, marketWeights.getD i 0 < -EPSILON then
    .error "Market weights must be non-negative"
  else .ok ⟨marketWeights, covariance, riskAversion, tau, []⟩

open Classical in
/-- `computePosteriorReturns` (`black_litterman.hpp:156`): with zero views
returns the equilibrium returns; otherwise builds `P`, `Q` and the
diagonal `Ω` (floored at `EPSILON`) and evaluates the Black-Litterman
posterior formula.  The three `inverse()` calls can throw and those
exceptions propagate (no `try` in the source); the final
`ExpectedReturns` constructor re-validates non-emptiness. -/
def computePosteriorReturns (st : BlackLittermanOptimizer) : Except String Vec :=
  if st.views = [] then
    if st.equilibriumReturns = [] then .error "Expected returns cannot be empty"
    else .ok st.equilibriumReturns
  else
    let n := st.marketWeights.length
    let k := st.views.length
    let dfltView : View := ⟨[], 0, 0⟩
    let P : Mat := ⟨k, n, fun i j => (st.views.getD i dfltView).assets.getD j 0⟩
    let Q : Vec := (List.range k).map (fun i => (st.views.getD i dfltView).expectedReturn)
    let omegaRaw : ℕ → ℝ := fun i =>
      let view := st.views.getD i dfltView
      let viewVariance :=
        Vec.dot view.assets (Vec.smul (st.covariance.mulVec view.assets) st.tau)
      viewVariance * (1 / view.confidence - 1)
    let Omega : Mat := ⟨k, k, fun i j =>
      if i = j then (if omegaRaw i < EPSILON then EPSILON else omegaRaw i) else 0⟩
    match (st.covariance.smul st.tau).inverse with
    | .error e => .error e
    | .ok tauSigmaInv =>
      match Omega.inverse with
      | .error e => .error e
      | .ok OmegaInv =>
        let Pt := P.transpose
        let PtOmegaInv := Pt.mul OmegaInv
        let PtOmegaInvP := PtOmegaInv.mul P
        let posteriorPrecision := tauSigmaInv.add PtOmegaInvP
        match posteriorPrecision.inverse with
        | .error e => .error e
        | .ok posteriorCovariance =>
          let tauSigmaInvPi := tauSigmaInv.mulVec st.equilibriumReturns
          let PtOmegaInvQ := PtOmegaInv.mulVec Q
          let posteriorMean :=
            posteriorCovariance.mulVec (Vec.add tauSigmaInvPi PtOmegaInvQ)
          if posteriorMean = [] then .error "Expected returns cannot be empty"
          else .ok posteriorMean

open Classical in
/-- `BlackLittermanOptimizer::optimize` (`black_litterman.hpp:238`): a
negative `lambda` (including the `-1.0` default argument) is replaced by
the market risk aversion; the posterior returns then feed a fresh
`MarkowitzOptimizer` (whose constructor re-validates) and `optimize`. -/
def optimize (st : BlackLittermanOptimizer) (lambda : ℝ) :
    Except String MarkowitzResult :=
  let lambdaUsed := if lambda < 0 then st.riskAversion else lambda
  match st.computePosteriorReturns with
  | .error e => .error e
  | .ok posteriorReturns =>
    match MarkowitzOptimizer.mk? posteriorReturns st.covariance [] with
    | .error e => .error e
    | .ok markowitz => markowitz.optimize lambdaUsed

end BlackLittermanOptimizer

/-! ### Serialization layer (`MarkowitzResult::toJSON` / `fromJSON`).
C++ `std::string` is embedded as `List Char`; the record's `message`
field stays a `String` and crosses the boundary via `String.toList` /
`String.mk`. -/

/-- The decimal digit character for `d < 10`. -/
def digitChar (d : ℕ) : Char := Char.ofNat (48 + d)

/-- Decimal digits of a natural number, most significant first (the
rendering `std::ostream` performs); structural fuel makes the definition
kernel-reducible, and `fuel = n + 1` always suffices. -/
def natDigitsCore : ℕ → ℕ → List Char → List Char
  | 0, _, acc => acc
  | fuel + 1, n, acc =>
    let acc2 := digitChar (n % 10) :: acc
    if n < 10 then acc2 else natDigitsCore fuel (n / 10) acc2

/-- Decimal digits of `n`, e.g. `natDigits 1234 = ['1','2','3','4']`. -/
def natDigits (n : ℕ) : List Char := natDigitsCore (n + 1) n []

/-- Digits of `n` left-padded with zeros to width `w`. -/
def natDigitsPad (w n : ℕ) : List Char :=
  List.replicate (w - (natDigits n).length) '0' ++ natDigits n

/-- Modelled from the standard library: `std::ostringstream` under
`std::fixed << std::setprecision(8)` prints the decimal rounding of a
finite double to 8 fractional digits.  The embedding renders the exact
rounding of the real value (`round (x·10⁸) / 10⁸`); the sign of a
negative value that rounds to zero is printed without the minus sign,
which is immaterial to every parsed-back value. -/
def renderFixed8 (x : ℝ) : List Char :=
  let m : ℤ := round (x * 10 ^ 8)
  (if m < 0 then ['-'] else []) ++
    natDigits (m.natAbs / 10 ^ 8) ++ '.' :: natDigitsPad 8 (m.natAbs % 10 ^ 8)

/-- The weights-array body written by `toJSON`'s loop: entries joined by
`", "` (a separator before every entry except the first). -/
def weightsChars : Vec → List Char
  | [] => []
  | [x] => renderFixed8 x
  | x :: y :: rest => renderFixed8 x ++ ',' :: ' ' :: weightsChars (y :: rest)

/-- `MarkowitzResult::toJSON` (`markowitz.hpp:86`) as a character list;
every numeric field is rendered by `renderFixed8`, the message is written
verbatim (unescaped) between quotes. -/
def MarkowitzResult.toJSONChars (r : MarkowitzResult) : List Char :=
  "\x7b\n  \"converged\": ".toList ++
    (if r.converged then "true".toList else "false".toList) ++
  ",\n  \"message\": \"".toList ++ r.message.toList ++
  "\",\n  \"expectedReturn\": ".toList ++ renderFixed8 r.expectedReturn ++
  ",\n  \"risk\": ".toList ++ renderFixed8 r.risk ++
  ",\n  \"sharpeRatio\": ".toList ++ renderFixed8 r.sharpeRatio ++
  ",\n  \"weights\": [".toList ++ weightsChars r.weights ++
  "]\n\x7d".toList

/-- `std::string::find(pattern)`: index of the first occurrence. -/
def strFind (s pat : List Char) : Option ℕ :=
  match s with
  | [] => if pat = [] then some 0 else none
  | c :: rest =>
    if pat.isPrefixOf (c :: rest) then some 0
    else (strFind rest pat).map (fun i => i + 1)

/-- The whitespace class of C `isspace`, used by `findValue`'s skip. -/
def isSpaceC (c : Char) : Bool :=
  c = ' ' ∨ c = '\t' ∨ c = '\n' ∨ c = '\x0b' ∨ c = '\x0c' ∨ c = '\r'

/-- The character class of `findValue`'s numeric scan
(`std::isdigit(c) || c == '.' || c == '-' || c == 'e' || c == 'E' || c == '+'`). -/
def isNumChar (c : Char) : Bool :=
  c.isDigit ∨ c = '.' ∨ c = '-' ∨ c = 'e' ∨ c = 'E' ∨ c = '+'

/-- The bracket-depth scan of `findValue`'s array branch: returns the
slice from the opening `[` through its matching `]` (or the whole rest of
the input when unbalanced, as the C++ loop does). -/
def bracketSlice : List Char → ℕ → List Char
  | [], _ => []
  | c :: rest, depth =>
    if c = '[' then c :: bracketSlice rest (depth + 1)
    else if c = ']' then
      if depth = 1 then [c] else c :: bracketSlice rest (depth - 1)
    else c :: bracketSlice rest depth

/-- The `findValue` lambda of `MarkowitzResult::fromJSON`
(`markowitz.hpp:157`): locate `"key":`, skip whitespace, then read a
string, an array, a boolean literal, or a numeric-character run.  An
exhausted input falls through to the (empty) numeric scan, as reading the
terminating NUL does in C++. -/
def findValue (json key : List Char) : Except String (List Char) :=
  let searchKey := '"' :: (key ++ ['"', ':'])
  match strFind json searchKey with
  | none => .error "Key not found"
  | some p =>
    let rest := (json.drop (p + searchKey.length)).dropWhile isSpaceC
    match rest with
    | [] => .ok []
    | c :: r2 =>
      if c = '"' then
        if '"' ∈ r2 then .ok (r2.takeWhile (fun d => d != '"'))
        else .error "Malformed string value"
      else if c = '[' then .ok (bracketSlice rest 0)
      else if rest.take 4 = "true".toList then .ok ("true".toList)
      else if rest.take 5 = "false".toList then .ok ("false".toList)
      else .ok (rest.takeWhile isNumChar)

/-- Digit run parser: accumulates a decimal value and the count of
consumed digits, stopping at the first non-digit. -/
def parseDigits : List Char → ℕ → ℕ → ℕ × ℕ × List Char
  | [], acc, cnt => (acc, cnt, [])
  | c :: rest, acc, cnt =>
    if c.isDigit then parseDigits rest (acc * 10 + (c.toNat - 48)) (cnt + 1)
    else (acc, cnt, c :: rest)

/-- Unsigned decimal with optional fraction, the exponent-free core of
`std::stod` (the strings produced by `toJSON`'s fixed-precision rendering
never carry exponents). -/
def parseUnsigned (l : List Char) : Except String ℝ :=
  match l with
  | [] => .error "stod: no conversion"
  | c :: _ =>
    if c.isDigit then
      let p1 := parseDigits l 0 0
      match p1.2.2 with
      | '.' :: r2 =>
        let p2 := parseDigits r2 0 0
        .ok ((p1.1 : ℝ) + (p2.1 : ℝ) / 10 ^ p2.2.1)
      | _ => .ok ((p1.1 : ℝ))
    else .error "stod: no conversion"

/-- Modelled from the standard library: `std::stod` on the trimmed,
exponent-free decimal tokens that `fromJSON` extracts; it reads an
optional minus sign and an unsigned decimal, throwing when no conversion
is possible. -/
def stodModel (l : List Char) : Except String ℝ :=
  match l with
  | [] => .error "stod: no conversion"
  | c :: rest =>
    if c = '-' then
      match parseUnsigned rest with
      | .ok v => .ok (-v)
      | .error e => .error e
    else parseUnsigned l

/-- The comma split performed by `std::getline(iss, token, ',')`: an empty
input yields no token; a trailing separator yields a trailing empty token
here, which the caller's `token.empty()` check discards exactly as the
C++ loop does. -/
def splitCommaAux (cur : List Char) : List Char → List (List Char)
  | [] => [cur.reverse]
  | c :: rest =>
    if c = ',' then cur.reverse :: splitCommaAux [] rest
    else splitCommaAux (c :: cur) rest

/-- Split on commas (no tokens for the empty input, like `getline`). -/
def splitOnComma (l : List Char) : List (List Char) :=
  match l with
  | [] => []
  | _ => splitCommaAux [] l

/-- The trim in `fromJSON`'s weights loop: erase leading and trailing
characters of `" \t\n\r"`. -/
def isTrimSpace (c : Char) : Bool :=
  c = ' ' ∨ c = '\t' ∨ c = '\n' ∨ c = '\r'

/-- Trim both ends. -/
def trimChars (l : List Char) : List Char :=
  ((l.dropWhile isTrimSpace).reverse.dropWhile isTrimSpace).reverse

/-- The weights loop of `fromJSON`: trim each comma-separated token, skip
empty tokens, `stod` the rest. -/
def parseWeights : List (List Char) → Except String Vec
  | [] => .ok []
  | t :: rest =>
    let t2 := trimChars t
    if t2 = [] then parseWeights rest
    else
      match stodModel t2, parseWeights rest with
      | .ok v, .ok vs => .ok (v :: vs)
      | .error e, _ => .error e
      | .ok _, .error e => .error e

/-- `MarkowitzResult::fromJSON` (`markowitz.hpp:153`): reads the six
fields in source order; any `findValue` or `stod` failure propagates as
the thrown exception does. -/
def MarkowitzResult.fromJSONChars (json : List Char) : Except String MarkowitzResult :=
  match findValue json ("converged".toList) with
  | .error e => .error e
  | .ok convergedStr =>
  match findValue json ("message".toList) with
  | .error e => .error e
  | .ok messageStr =>
  match findValue json ("expectedReturn".toList) with
  | .error e => .error e
  | .ok erStr =>
  match stodModel erStr with
  | .error e => .error e
  | .ok er =>
  match findValue json ("risk".toList) with
  | .error e => .error e
  | .ok riskStr =>
  match stodModel riskStr with
  | .error e => .error e
  | .ok rk =>
  match findValue json ("sharpeRatio".toList) with
  | .error e => .error e
  | .ok srStr =>
  match stodModel srStr with
  | .error e => .error e
  | .ok sr =>
  match findValue json ("weights".toList) with
  | .error e => .error e
  | .ok weightsStr =>
  match parseWeights (splitOnComma ((weightsStr.drop 1).dropLast)) with
  | .error e => .error e
  | .ok ws =>
    .ok ⟨ws, er, rk, sr, convergedStr == "true".toList, String.mk messageStr⟩

/-- The value reproduced by parsing back a `renderFixed8` rendering: the
exact 8-decimal rounding of `x`. -/
def roundVal (x : ℝ) : ℝ := ((round (x * 10 ^ 8) : ℤ) : ℝ) / 10 ^ 8

/-! ### Theorems: the Cholesky engine -/

theorem cholEntry_diag (A : ℕ → ℕ → ℝ) (j : ℕ) :
    cholEntry A j j = Real.sqrt (cholRadicand A j) := by
  rw [cholEntry, if_pos rfl, cholRadicand,
    Finset.sum_attach (Finset.range j) (fun k => cholEntry A j k * cholEntry A j k)]

theorem cholEntry_off (A : ℕ → ℕ → ℝ) {i j : ℕ} (h : j < i) :
    cholEntry A i j =
      (A i j - ∑ k in Finset.range j, cholEntry A i k * cholEntry A j k) /
        cholEntry A j j := by
  rw [cholEntry, if_neg (by omega), if_pos h,
    Finset.sum_attach (Finset.range j) (fun k => cholEntry A i k * cholEntry A j k)]

theorem cholEntry_upper (A : ℕ → ℕ → ℝ) {i j : ℕ} (h : i < j) :
    cholEntry A i j = 0 := by
  rw [cholEntry, if_neg (by omega), if_neg (by omega)]

theorem forwardSub_eq (L : ℕ → ℕ → ℝ) (b : ℕ → ℝ) (i : ℕ) :
    forwardSub L b i =
      (b i - ∑ j in Finset.range i, L i j * forwardSub L b j) / L i i := by
  rw [forwardSub, Finset.sum_attach (Finset.range i) (fun j => L i j * forwardSub L b j)]

theorem backwardSub_eq (n : ℕ) (U : ℕ → ℕ → ℝ) (b : ℕ → ℝ) (i : ℕ) :
    backwardSub n U b i =
      (b i - ∑ j in Finset.Ico (i + 1) n, U i j * backwardSub n U b j) / U i i := by
  rw [backwardSub,
    Finset.sum_attach (Finset.Ico (i + 1) n) (fun j => U i j * backwardSub n U b j)]

theorem EPSILON_pos : (0 : ℝ) < EPSILON := by norm_num [EPSILON]

theorem pivots_ne_zero {L : ℕ → ℕ → ℝ} {n : ℕ} (h : PivotsOk L n) :
    ∀ i < n, L i i ≠ 0 := by
  intro i hi h0
  have := h i hi
  rw [h0, abs_zero] at this
  exact absurd this (not_le.mpr EPSILON_pos)

theorem cholEntry_diag_pos {A : ℕ → ℕ → ℝ} {n : ℕ} (hok : CholOk A n)
    {j : ℕ} (hj : j < n) : 0 < cholEntry A j j := by
  rw [cholEntry_diag]
  exact Real.sqrt_pos.mpr (hok j hj)

/-- Rows `j ≤ i` of `L·Lᵀ` reconstruct `A`: the heart of the correctness of
`Matrix::cholesky` on its success path. -/
theorem chol_row_mul {A : ℕ → ℕ → ℝ} {n : ℕ} (hok : CholOk A n)
    {i j : ℕ} (hi : i < n) (hj : j ≤ i) :
    ∑ k in Finset.range n, cholEntry A i k * cholEntry A j k = A i j := by
  have hjn : j < n := lt_of_le_of_lt hj hi
  have hsplit :
      (∑ k in Finset.Ico 0 (j + 1), cholEntry A i k * cholEntry A j k) +
        ∑ k in Finset.Ico (j + 1) n, cholEntry A i k * cholEntry A j k =
      ∑ k in Finset.Ico 0 n, cholEntry A i k * cholEntry A j k :=
    Finset.sum_Ico_consecutive _ (Nat.zero_le _) (by omega)
  have htail : ∑ k in Finset.Ico (j + 1) n, cholEntry A i k * cholEntry A j k = 0 := by
    refine Finset.sum_eq_zero fun k hk => ?_
    have hk' := Finset.mem_Ico.mp hk
    rw [cholEntry_upper A (show j < k by omega), mul_zero]
  rw [Finset.range_eq_Ico, ← hsplit, htail, add_zero, ← Finset.range_eq_Ico,
    Finset.sum_range_succ]
  rcases eq_or_lt_of_le hj with rfl | hlt
  · have : cholEntry A j j * cholEntry A j j = cholRadicand A j := by
      rw [cholEntry_diag]
      exact Real.mul_self_sqrt (le_of_lt (hok j hjn))
    rw [this, cholRadicand]
    ring
  · have hLjj : cholEntry A j j ≠ 0 := ne_of_gt (cholEntry_diag_pos hok hjn)
    rw [cholEntry_off A hlt, div_mul_cancel₀ _ hLjj]
    ring

/-- Full reconstruction `L·Lᵀ = A` on the leading block, using symmetry of
`A` for the entries above the diagonal. -/
theorem chol_reconstruct {A : ℕ → ℕ → ℝ} {n : ℕ}
    (hsym : ∀ i < n, ∀ j < n, A i j = A j i) (hok : CholOk A n)
    {i j : ℕ} (hi : i < n) (hj : j < n) :
    ∑ k in Finset.range n, cholEntry A i k * cholEntry A j k = A i j := by
  rcases le_or_lt j i with h | h
  · exact chol_row_mul hok hi h
  · have h1 : ∑ k in Finset.range n, cholEntry A j k * cholEntry A i k = A j i :=
      chol_row_mul hok hj (le_of_lt h)
    calc ∑ k in Finset.range n, cholEntry A i k * cholEntry A j k
        = ∑ k in Finset.range n, cholEntry A j k * cholEntry A i k := by
          exact Finset.sum_congr rfl fun k _ => mul_comm _ _
      _ = A j i := h1
      _ = A i j := (hsym i hi j hj).symm

/-- Forward substitution solves the lower-triangular system. -/
theorem forwardSub_solves {L : ℕ → ℕ → ℝ} {n : ℕ} (b : ℕ → ℝ)
    (hlow : ∀ i j, i < j → L i j = 0) (hpiv : ∀ i < n, L i i ≠ 0) :
    ∀ i < n, ∑ j in Finset.range n, L i j * forwardSub L b j = b i := by
  intro i hi
  have hsplit :
      (∑ j in Finset.Ico 0 (i + 1), L i j * forwardSub L b j) +
        ∑ j in Finset.Ico (i + 1) n, L i j * forwardSub L b j =
      ∑ j in Finset.Ico 0 n, L i j * forwardSub L b j :=
    Finset.sum_Ico_consecutive _ (Nat.zero_le _) (by omega)
  have htail : ∑ j in Finset.Ico (i + 1) n, L i j * forwardSub L b j = 0 := by
    refine Finset.sum_eq_zero fun j hj => ?_
    have hj' := Finset.mem_Ico.mp hj
    rw [hlow i j (by omega), zero_mul]
  rw [Finset.range_eq_Ico, ← hsplit, htail, add_zero, ← Finset.range_eq_Ico,
    Finset.sum_range_succ, forwardSub_eq, mul_comm (L i i),
    div_mul_cancel₀ _ (hpiv i hi)]
  ring

/-- Backward substitution solves the upper-triangular system. -/
theorem backwardSub_solves {U : ℕ → ℕ → ℝ} {n : ℕ} (b : ℕ → ℝ)
    (hup : ∀ i j, j < i → U i j = 0) (hpiv : ∀ i < n, U i i ≠ 0) :
    ∀ i < n, ∑ j in Finset.range n, U i j * backwardSub n U b j = b i := by
  intro i hi
  have hsplit :
      (∑ j in Finset.Ico 0 i, U i j * backwardSub n U b j) +
        ∑ j in Finset.Ico i n, U i j * backwardSub n U b j =
      ∑ j in Finset.Ico 0 n, U i j * backwardSub n U b j :=
    Finset.sum_Ico_consecutive _ (Nat.zero_le _) (by omega)
  have hhead : ∑ j in Finset.Ico 0 i, U i j * backwardSub n U b j = 0 := by
    refine Finset.sum_eq_zero fun j hj => ?_
    have hj' := Finset.mem_Ico.mp hj
    rw [hup i j (by omega), zero_mul]
  rw [Finset.range_eq_Ico, ← hsplit, hhead, zero_add,
    Finset.sum_eq_sum_Ico_succ_bot hi, backwardSub_eq, mul_comm (U i i),
    div_mul_cancel₀ _ (hpiv i hi)]
  ring

/-- Each column built by `Matrix::inverse` solves `(L·Lᵀ)·x = e_c`
exactly, with no assumption on the input matrix beyond success of the
factorization and the pivot checks. -/
theorem invCol_solves_chol {A : ℕ → ℕ → ℝ} {n : ℕ} (hok : CholOk A n)
    (hpiv : PivotsOk (cholEntry A) n) {c : ℕ} (hc : c < n) :
    ∀ r < n, ∑ k in Finset.range n,
      (∑ m in Finset.range n, cholEntry A r m * cholEntry A k m) *
        invColEntry n (cholEntry A) c k =
      if r = c then 1 else 0 := by
  have hLpiv : ∀ i < n, cholEntry A i i ≠ 0 := pivots_ne_zero hpiv
  have hy : ∀ i < n,
      ∑ j in Finset.range n,
        cholEntry A i j * forwardSub (cholEntry A) (fun r => if r = c then 1 else 0) j =
      (if i = c then 1 else 0) :=
    forwardSub_solves _ (fun i j hij => cholEntry_upper A hij) hLpiv
  have hx : ∀ i < n,
      ∑ j in Finset.range n, cholEntry A j i * invColEntry n (cholEntry A) c j =
      forwardSub (cholEntry A) (fun r => if r = c then 1 else 0) i :=
    backwardSub_solves _ (fun i j hij => cholEntry_upper A hij) hLpiv
  intro r hr
  calc ∑ k in Finset.range n,
        (∑ m in Finset.range n, cholEntry A r m * cholEntry A k m) *
          invColEntry n (cholEntry A) c k
      = ∑ m in Finset.range n, cholEntry A r m *
          ∑ k in Finset.range n, cholEntry A k m * invColEntry n (cholEntry A) c k := by
        simp only [Finset.sum_mul, Finset.mul_sum]
        rw [Finset.sum_comm]
        exact Finset.sum_congr rfl fun m _ => Finset.sum_congr rfl fun k _ => by ring
    _ = ∑ m in Finset.range n, cholEntry A r m *
          forwardSub (cholEntry A) (fun r => if r = c then 1 else 0) m := by
        refine Finset.sum_congr rfl fun m hm => ?_
        rw [hx m (Finset.mem_range.mp hm)]
    _ = if r = c then 1 else 0 := hy r hr

/-- Each column built by `Matrix::inverse` solves `A·x = e_c` exactly when
`A` is symmetric (in the idealized real arithmetic). -/
theorem invCol_solves {A : ℕ → ℕ → ℝ} {n : ℕ}
    (hsym : ∀ i < n, ∀ j < n, A i j = A j i) (hok : CholOk A n)
    (hpiv : PivotsOk (cholEntry A) n) {c : ℕ} (hc : c < n) :
    ∀ r < n, ∑ k in Finset.range n, A r k * invColEntry n (cholEntry A) c k =
      if r = c then 1 else 0 := by
  intro r hr
  have h1 : ∑ k in Finset.range n, A r k * invColEntry n (cholEntry A) c k =
      ∑ k in Finset.range n,
        (∑ m in Finset.range n, cholEntry A r m * cholEntry A k m) *
          invColEntry n (cholEntry A) c k := by
    refine Finset.sum_congr rfl fun k hk => ?_
    rw [chol_reconstruct hsym hok hr (Finset.mem_range.mp hk)]
  rw [h1]
  exact invCol_solves_chol hok hpiv hc r hr

/-- `Matrix::inverse` returns `ok` exactly on the success path, and then
returns the assembled inverse. -/
theorem inverse_eq_ok_iff (M Minv : Mat) :
    M.inverse = Except.ok Minv ↔
      M.rows = M.cols ∧ CholOk M.entry M.rows ∧
        PivotsOk (cholEntry M.entry) M.rows ∧ Minv = M.invMat := by
  unfold Mat.inverse
  split_ifs with h1 h2 h3 <;>
    simp_all [eq_comm]

theorem toFin_mul_eq_one {M : Mat} (hsq : M.rows = M.cols)
    (hsym : M.SymmOn M.rows) (hok : CholOk M.entry M.rows)
    (hpiv : PivotsOk (cholEntry M.entry) M.rows) :
    M.toFin M.rows * M.invMat.toFin M.rows = 1 := by
  ext i j
  rw [Matrix.mul_apply, Matrix.one_apply]
  have : ∀ k : Fin M.rows,
      M.toFin M.rows i k * M.invMat.toFin M.rows k j =
        M.entry i.1 k.1 * invColEntry M.rows (cholEntry M.entry) j.1 k.1 := by
    intro k; rfl
  simp only [this]
  rw [Fin.sum_univ_eq_sum_range
    (fun k => M.entry i.1 k * invColEntry M.rows (cholEntry M.entry) j.1 k)]
  rw [invCol_solves hsym hok hpiv j.2 i.1 i.2]
  by_cases h : i = j
  · rw [if_pos h, if_pos (by rw [h])]
  · rw [if_neg (by intro hc; exact h (Fin.ext hc)), if_neg h]

/-- The inverse assembled by `Matrix::inverse` is also a left inverse:
`A⁻¹·A = 1` on the leading block. -/
theorem invMat_mul_mat {M : Mat} (hsq : M.rows = M.cols)
    (hsym : M.SymmOn M.rows) (hok : CholOk M.entry M.rows)
    (hpiv : PivotsOk (cholEntry M.entry) M.rows) :
    ∀ r < M.rows, ∀ c < M.rows,
      (M.invMat.mul M).entry r c = (Mat.identity M.rows).entry r c := by
  have h1 : M.invMat.toFin M.rows * M.toFin M.rows = 1 :=
    Matrix.mul_eq_one_comm.mp (toFin_mul_eq_one hsq hsym hok hpiv)
  intro r hr c hc
  have h2 := congrFun (congrFun h1 ⟨r, hr⟩) ⟨c, hc⟩
  rw [Matrix.mul_apply] at h2
  have h3 : ∀ k : Fin M.rows,
      M.invMat.toFin M.rows ⟨r, hr⟩ k * M.toFin M.rows k ⟨c, hc⟩ =
        M.invMat.entry r k.1 * M.entry k.1 c := by intro k; rfl
  simp only [h3] at h2
  rw [Fin.sum_univ_eq_sum_range (fun k => M.invMat.entry r k * M.entry k c)] at h2
  show ∑ k in Finset.range M.invMat.cols, M.invMat.entry r k * M.entry k c = _
  have hcols : M.invMat.cols = M.rows := rfl
  rw [hcols, h2, Matrix.one_apply]
  simp only [Mat.identity, Fin.mk.injEq]

/-- The Cholesky factor of `A` as a Mathlib matrix on the leading block. -/
theorem cholFin_mul_invFin {A : ℕ → ℕ → ℝ} {n : ℕ} (hok : CholOk A n)
    (hpiv : PivotsOk (cholEntry A) n) :
    (Matrix.of fun i j : Fin n => cholEntry A i.1 j.1) *
        Matrix.transpose (Matrix.of fun i j : Fin n => cholEntry A i.1 j.1) *
        (Matrix.of fun i j : Fin n => invColEntry n (cholEntry A) j.1 i.1) = 1 := by
  ext r c
  rw [Matrix.mul_apply, Matrix.one_apply]
  have hS : ∀ k : Fin n,
      ((Matrix.of fun i j : Fin n => cholEntry A i.1 j.1) *
        Matrix.transpose (Matrix.of fun i j : Fin n => cholEntry A i.1 j.1)) r k =
      ∑ m in Finset.range n, cholEntry A r.1 m * cholEntry A k.1 m := by
    intro k
    rw [Matrix.mul_apply]
    have hterm : ∀ j : Fin n,
        (Matrix.of fun i j : Fin n => cholEntry A i.1 j.1) r j *
          Matrix.transpose (Matrix.of fun i j : Fin n => cholEntry A i.1 j.1) j k =
        cholEntry A r.1 j.1 * cholEntry A k.1 j.1 := fun j => rfl
    simp only [hterm]
    exact Fin.sum_univ_eq_sum_range
      (fun m => cholEntry A r.1 m * cholEntry A k.1 m) n
  have : ∀ k : Fin n,
      ((Matrix.of fun i j : Fin n => cholEntry A i.1 j.1) *
        Matrix.transpose (Matrix.of fun i j : Fin n => cholEntry A i.1 j.1)) r k *
        (Matrix.of fun i j : Fin n => invColEntry n (cholEntry A) j.1 i.1) k c =
      (∑ m in Finset.range n, cholEntry A r.1 m * cholEntry A k.1 m) *
        invColEntry n (cholEntry A) c.1 k.1 := by
    intro k
    rw [hS k]
    rfl
  simp only [this]
  rw [Fin.sum_univ_eq_sum_range
    (fun k => (∑ m in Finset.range n, cholEntry A r.1 m * cholEntry A k m) *
      invColEntry n (cholEntry A) c.1 k)]
  rw [invCol_solves_chol hok hpiv c.2 r.1 r.2]
  by_cases h : r = c
  · rw [if_pos (by rw [h]), if_pos h]
  · rw [if_neg (by intro hc2; exact h (Fin.ext hc2)), if_neg h]

/-- The assembled inverse is symmetric on the leading block: it is the
exact inverse of the symmetric matrix `L·Lᵀ`, with no symmetry assumption
on the input. -/
theorem invMat_symm {M : Mat} (hok : CholOk M.entry M.rows)
    (hpiv : PivotsOk (cholEntry M.entry) M.rows) :
    ∀ r < M.rows, ∀ c < M.rows, M.invMat.entry r c = M.invMat.entry c r := by
  set n := M.rows
  set LF : Matrix (Fin n) (Fin n) ℝ :=
    Matrix.of fun i j : Fin n => cholEntry M.entry i.1 j.1 with hLF
  set S : Matrix (Fin n) (Fin n) ℝ := LF * Matrix.transpose LF with hSdef
  set B : Matrix (Fin n) (Fin n) ℝ :=
    Matrix.of fun i j : Fin n => invColEntry n (cholEntry M.entry) j.1 i.1 with hBdef
  have h1 : S * B = 1 := cholFin_mul_invFin hok hpiv
  have hST : Matrix.transpose S = S := by
    rw [hSdef, Matrix.transpose_mul, Matrix.transpose_transpose]
  have hB : B = S⁻¹ := (Matrix.inv_eq_right_inv h1).symm
  have hBT : Matrix.transpose B = B := by
    rw [hB, Matrix.transpose_nonsing_inv, hST]
  intro r hr c hc
  have h2 := congrFun (congrFun hBT ⟨c, hc⟩) ⟨r, hr⟩
  rw [Matrix.transpose_apply] at h2
  exact h2

/-! ### Theorems: list/sum bridging lemmas -/

theorem Vec.sum_nil : Vec.sum [] = 0 := rfl

theorem Vec.sum_cons (x : ℝ) (v : Vec) : Vec.sum (x :: v) = x + Vec.sum v := rfl

theorem Vec.dot_nil (v : Vec) : Vec.dot [] v = 0 := rfl

theorem Vec.dot_cons (a b : ℝ) (as bs : Vec) :
    Vec.dot (a :: as) (b :: bs) = a * b + Vec.dot as bs := by
  simp [Vec.dot]

theorem Vec.sum_sdiv (v : Vec) (c : ℝ) : Vec.sum (Vec.sdiv v c) = Vec.sum v / c := by
  induction v with
  | nil => simp [Vec.sum_nil, Vec.sdiv]
  | cons x xs ih =>
    simp only [Vec.sdiv, List.map_cons] at *
    rw [Vec.sum_cons, Vec.sum_cons, ih, add_div]

theorem Vec.sum_smul (v : Vec) (c : ℝ) : Vec.sum (Vec.smul v c) = Vec.sum v * c := by
  induction v with
  | nil => simp [Vec.sum_nil, Vec.smul]
  | cons x xs ih =>
    simp only [Vec.smul, List.map_cons] at *
    rw [Vec.sum_cons, Vec.sum_cons, ih, add_mul]

theorem Vec.sum_replicate (n : ℕ) (x : ℝ) :
    Vec.sum (List.replicate n x) = n * x := by
  induction n with
  | zero => simp [Vec.sum_nil]
  | succ m ih =>
    rw [List.replicate_succ, Vec.sum_cons, ih]
    push_cast
    ring

theorem Vec.sum_add (a b : Vec) (h : a.length = b.length) :
    Vec.sum (Vec.add a b) = Vec.sum a + Vec.sum b := by
  induction a generalizing b with
  | nil =>
    cases b with
    | nil => simp [Vec.add, Vec.sum_nil]
    | cons y ys => simp at h
  | cons x xs ih =>
    cases b with
    | nil => simp at h
    | cons y ys =>
      simp only [Vec.add, List.zipWith_cons_cons] at *
      rw [Vec.sum_cons, Vec.sum_cons, Vec.sum_cons, ih ys (by simpa using h)]
      ring

theorem Vec.dot_replicate_one (v : Vec) (n : ℕ) (h : v.length = n) :
    Vec.dot (List.replicate n 1) v = Vec.sum v := by
  induction v generalizing n with
  | nil => cases n <;> simp [Vec.dot, Vec.sum_nil]
  | cons x xs ih =>
    cases n with
    | zero => simp at h
    | succ m =>
      rw [List.replicate_succ, Vec.dot_cons, Vec.sum_cons, one_mul,
        ih m (by simpa using h)]

theorem Vec.sum_eq_range_sum (v : Vec) :
    Vec.sum v = ∑ i in Finset.range v.length, v.getD i 0 := by
  induction v with
  | nil => simp [Vec.sum_nil]
  | cons x xs ih =>
    rw [Vec.sum_cons, ih, List.length_cons, Finset.sum_range_succ']
    simp only [List.getD_cons_succ, List.getD_cons_zero]
    ring

theorem Vec.dot_eq_range_sum (a b : Vec) (h : a.length = b.length) :
    Vec.dot a b = ∑ i in Finset.range a.length, a.getD i 0 * b.getD i 0 := by
  induction a generalizing b with
  | nil => simp [Vec.dot_nil]
  | cons x xs ih =>
    cases b with
    | nil => simp at h
    | cons y ys =>
      rw [Vec.dot_cons, List.length_cons, Finset.sum_range_succ',
        ih ys (by simpa using h)]
      simp only [List.getD_cons_succ, List.getD_cons_zero]
      ring

theorem getD_map_zero (f : ℝ → ℝ) (hf : f 0 = 0) (v : List ℝ) (i : ℕ) :
    (v.map f).getD i 0 = f (v.getD i 0) := by
  induction v generalizing i with
  | nil => simp [hf]
  | cons x xs ih =>
    cases i with
    | zero => simp
    | succ m => simpa using ih m

theorem getD_replicate {n : ℕ} (x : ℝ) {i : ℕ} (h : i < n) :
    (List.replicate n x).getD i 0 = x := by
  induction n generalizing i with
  | zero => omega
  | succ m ih =>
    rw [List.replicate_succ]
    cases i with
    | zero => simp
    | succ j => simpa using ih (by omega)

theorem Vec.getD_add (a b : Vec) (h : a.length = b.length) (i : ℕ) :
    (Vec.add a b).getD i 0 = a.getD i 0 + b.getD i 0 := by
  induction a generalizing b i with
  | nil =>
    cases b with
    | nil => simp [Vec.add]
    | cons y ys => simp at h
  | cons x xs ih =>
    cases b with
    | nil => simp at h
    | cons y ys =>
      cases i with
      | zero => simp [Vec.add]
      | succ m =>
        simp only [Vec.add, List.zipWith_cons_cons, List.getD_cons_succ]
        exact ih ys (by simpa using h) m

theorem Vec.length_add (a b : Vec) (h : a.length = b.length) :
    (Vec.add a b).length = a.length := by
  simp [Vec.add, h]

theorem Vec.length_smul (v : Vec) (c : ℝ) : (Vec.smul v c).length = v.length := by
  simp [Vec.smul]

theorem Vec.length_sdiv (v : Vec) (c : ℝ) : (Vec.sdiv v c).length = v.length := by
  simp [Vec.sdiv]

theorem Mat.mulVec_length (M : Mat) (v : Vec) : (M.mulVec v).length = M.rows := by
  simp [Mat.mulVec]

theorem Mat.mulVec_getD (M : Mat) (v : Vec) {i : ℕ} (h : i < M.rows) :
    (M.mulVec v).getD i 0 =
      ∑ j in Finset.range M.cols, M.entry i j * v.getD j 0 := by
  simp [Mat.mulVec, List.getD_eq_getElem?_getD, List.getElem?_map,
    List.getElem?_range h]

/-! ### Theorems: the Markowitz weight-sum invariant -/

theorem qpStep_sum_one (st : MarkowitzOptimizer)
    (hn : st.expectedReturns ≠ []) (w : Vec) :
    Vec.sum (st.qpStep w) = 1 := by
  simp only [MarkowitzOptimizer.qpStep]
  split_ifs with hs
  · rw [Vec.sum_sdiv]
    refine div_self fun h0 => ?_
    rw [h0, abs_zero] at hs
    exact absurd hs (not_lt.mpr (le_of_lt EPSILON_pos))
  · rw [Vec.sum_replicate]
    have hlen : st.expectedReturns.length ≠ 0 := by
      simpa [List.length_eq_zero] using hn
    have : (st.expectedReturns.length : ℝ) ≠ 0 := Nat.cast_ne_zero.mpr hlen
    field_simp

theorem qpIterate_sum_one (st : MarkowitzOptimizer)
    (hn : st.expectedReturns ≠ []) :
    ∀ {fuel : ℕ}, 1 ≤ fuel → ∀ w : Vec,
      Vec.sum (MarkowitzOptimizer.qpIterate st fuel w) = 1 := by
  intro fuel
  induction fuel with
  | zero => omega
  | succ f ih =>
    intro _ w
    simp only [MarkowitzOptimizer.qpIterate]
    split_ifs with hfeas
    · exact qpStep_sum_one st hn w
    · cases f with
      | zero =>
        simp only [MarkowitzOptimizer.qpIterate]
        exact qpStep_sum_one st hn w
      | succ g => exact ih (by omega) _

theorem solveConstrainedQP_sum_one (st : MarkowitzOptimizer)
    (hn : st.expectedReturns ≠ []) (hmax : 1 ≤ st.maxIterations)
    (w : Vec) (lam : ℝ) :
    Vec.sum (st.solveConstrainedQP w lam).weights = 1 := by
  simp only [MarkowitzOptimizer.solveConstrainedQP, MarkowitzOptimizer.successResult]
  exact qpIterate_sum_one st hn hmax w

/-- C5: every `MarkowitzResult` produced by the constrained-projection
fallback `solveConstrainedQP` has `converged = true` — for any optimizer
state (hence any constraint set and any `maxIterations` budget) and any
initial weight vector, including the runs that exhaust the iteration cap
without the `ConstraintSet` ever reporting the weights feasible. -/
theorem solveConstrainedQP_always_converged (st : MarkowitzOptimizer)
    (initialWeights : Vec) (lambda : ℝ) :
    (st.solveConstrainedQP initialWeights lambda).converged = true := rfl

theorem successResult_weights (st : MarkowitzOptimizer) (w : Vec) (msg : String) :
    (st.successResult w msg).weights = w := rfl

theorem successResult_converged (st : MarkowitzOptimizer) (w : Vec) (msg : String) :
    (st.successResult w msg).converged = true := rfl

theorem failResult_converged (msg : String) :
    (MarkowitzOptimizer.failResult msg).converged = false := rfl

theorem inverse_ok_shape {M covInv : Mat} (h : M.inverse = Except.ok covInv) :
    covInv.rows = M.rows ∧ covInv.cols = M.rows := by
  obtain ⟨-, -, -, rfl⟩ := (inverse_eq_ok_iff M covInv).mp h
  exact ⟨rfl, rfl⟩

theorem minimumVariance_sum_one {st : MarkowitzOptimizer} (hwf : st.WF)
    (hc : st.minimumVariance.converged = true) :
    Vec.sum st.minimumVariance.weights = 1 := by
  cases hinv : st.covariance.inverse with
  | error e =>
    rw [MarkowitzOptimizer.minimumVariance, hinv] at hc
    exact absurd hc (by simp [MarkowitzOptimizer.failResult])
  | ok covInv =>
    rw [MarkowitzOptimizer.minimumVariance, hinv] at hc
    rw [MarkowitzOptimizer.minimumVariance, hinv]
    simp only at hc ⊢
    have hlen : (covInv.mulVec (List.replicate st.expectedReturns.length 1)).length =
        st.expectedReturns.length := by
      rw [Mat.mulVec_length, (inverse_ok_shape hinv).1, hwf.dims]
    split_ifs at hc ⊢ with hden hcons
    · exact absurd hc (by simp [MarkowitzOptimizer.failResult])
    · exact solveConstrainedQP_sum_one st hwf.nonempty hwf.maxIter _ 0
    · rw [successResult_weights, Vec.sum_sdiv,
        Vec.dot_replicate_one _ _ hlen]
      refine div_self fun h0 => ?_
      rw [Vec.dot_replicate_one _ _ hlen, h0, abs_zero] at hden
      exact hden EPSILON_pos

theorem optimize_sum_one {st : MarkowitzOptimizer} (hwf : st.WF)
    {lam : ℝ} (hlam : 0 ≤ lam) {res : MarkowitzResult}
    (hres : st.optimize lam = Except.ok res) (hc : res.converged = true) :
    Vec.sum res.weights = 1 := by
  rw [MarkowitzOptimizer.optimize, if_neg (not_lt.mpr hlam)] at hres
  by_cases h2 : lam < EPSILON
  · rw [if_pos h2] at hres
    injection hres with hres
    subst hres
    exact minimumVariance_sum_one hwf hc
  · rw [if_neg h2] at hres
    injection hres with hres
    subst hres
    cases hinv : st.covariance.inverse with
    | error e =>
      rw [hinv] at hc
      exact absurd hc (by simp [MarkowitzOptimizer.failResult])
    | ok covInv =>
      rw [hinv] at hc
      simp only at hc ⊢
      have hshape := inverse_ok_shape hinv
      have hlenOnes : (covInv.mulVec (List.replicate st.expectedReturns.length 1)).length =
          st.expectedReturns.length := by
        rw [Mat.mulVec_length, hshape.1, hwf.dims]
      have hlenMu : (covInv.mulVec st.expectedReturns).length =
          st.expectedReturns.length := by
        rw [Mat.mulVec_length, hshape.1, hwf.dims]
      split_ifs at hc ⊢ with hden hcons
      · exact absurd hc (by simp [MarkowitzOptimizer.failResult])
      · exact solveConstrainedQP_sum_one st hwf.nonempty hwf.maxIter _ lam
      · rw [successResult_weights]
        rw [Vec.sum_add _ _ (by rw [Vec.length_smul, Vec.length_smul, hlenMu, hlenOnes]),
          Vec.sum_smul, Vec.sum_smul]
        rw [Vec.dot_replicate_one _ _ hlenOnes] at hden ⊢
        rw [Vec.dot_replicate_one _ _ hlenMu]
        have hO : Vec.sum (covInv.mulVec (List.replicate st.expectedReturns.length 1)) ≠ 0 := by
          intro h0
          rw [h0, abs_zero] at hden
          exact hden EPSILON_pos
        field_simp
        ring

/-- Summing the rows of `N·v` for a symmetric square `N` equals the dot
product `vᵀ·(N·1)`; this is why `1ᵀΣ⁻¹μ = μᵀΣ⁻¹1` in `targetReturn`. -/
theorem sum_mulVec_symm {N : Mat} (hsq : N.cols = N.rows)
    (hsymm : ∀ r < N.rows, ∀ c < N.rows, N.entry r c = N.entry c r)
    (v : Vec) (hv : v.length = N.rows) :
    Vec.sum (N.mulVec v) = Vec.dot v (N.mulVec (List.replicate N.rows 1)) := by
  rw [Vec.sum_eq_range_sum, Mat.mulVec_length]
  rw [Vec.dot_eq_range_sum _ _ (by rw [hv, Mat.mulVec_length]), hv]
  have hL : ∀ i ∈ Finset.range N.rows,
      (N.mulVec v).getD i 0 = ∑ j in Finset.range N.rows, N.entry i j * v.getD j 0 := by
    intro i hi
    rw [Mat.mulVec_getD _ _ (Finset.mem_range.mp hi), hsq]
  have hR : ∀ i ∈ Finset.range N.rows,
      v.getD i 0 * (N.mulVec (List.replicate N.rows 1)).getD i 0 =
        ∑ j in Finset.range N.rows, v.getD i 0 * N.entry i j := by
    intro i hi
    rw [Mat.mulVec_getD _ _ (Finset.mem_range.mp hi), hsq, Finset.mul_sum]
    refine Finset.sum_congr rfl fun j hj => ?_
    rw [getD_replicate (1 : ℝ) (Finset.mem_range.mp hj), mul_one]
  rw [Finset.sum_congr rfl hL, Finset.sum_congr rfl hR, Finset.sum_comm]
  refine Finset.sum_congr rfl fun j hj => Finset.sum_congr rfl fun i hi => ?_
  rw [hsymm i (Finset.mem_range.mp hi) j (Finset.mem_range.mp hj)]
  ring

theorem targetReturn_sum_one {st : MarkowitzOptimizer} (hwf : st.WF) {r : ℝ}
    (hc : (st.targetReturn r).converged = true) :
    Vec.sum (st.targetReturn r).weights = 1 := by
  rw [MarkowitzOptimizer.targetReturn] at hc ⊢
  split_ifs at hc ⊢ with hrange
  · exact absurd hc (by simp [MarkowitzOptimizer.failResult])
  · cases hinv : st.covariance.inverse with
    | error e =>
      rw [hinv] at hc
      exact absurd hc (by simp [MarkowitzOptimizer.failResult])
    | ok covInv =>
      rw [hinv] at hc
      simp only at hc ⊢
      obtain ⟨hsq, hok, hpiv, heq⟩ := (inverse_eq_ok_iff _ _).mp hinv
      have hshape := inverse_ok_shape hinv
      have hcols : covInv.cols = covInv.rows := by rw [hshape.1, hshape.2]
      have hsymm : ∀ a < covInv.rows, ∀ b < covInv.rows,
          covInv.entry a b = covInv.entry b a := by
        subst heq
        exact invMat_symm hok hpiv
      have hrows : covInv.rows = st.expectedReturns.length := by
        rw [hshape.1, hwf.dims]
      have hlenOnes : (covInv.mulVec (List.replicate st.expectedReturns.length 1)).length =
          st.expectedReturns.length := by
        rw [Mat.mulVec_length, hrows]
      have hlenMu : (covInv.mulVec st.expectedReturns).length =
          st.expectedReturns.length := by
        rw [Mat.mulVec_length, hrows]
      have hB : Vec.sum (covInv.mulVec st.expectedReturns) =
          Vec.dot st.expectedReturns
            (covInv.mulVec (List.replicate st.expectedReturns.length 1)) := by
        have := sum_mulVec_symm hcols hsymm st.expectedReturns hrows.symm
        rwa [hrows] at this
      split_ifs at hc ⊢ with hdet hcons
      · exact absurd hc (by simp [MarkowitzOptimizer.failResult])
      · rw [MarkowitzOptimizer.solveConstrainedQPWithTarget]
        exact solveConstrainedQP_sum_one st hwf.nonempty hwf.maxIter _ 0
      · rw [successResult_weights]
        rw [Vec.sum_add _ _ (by rw [Vec.length_smul, Vec.length_smul, hlenMu, hlenOnes]),
          Vec.sum_smul, Vec.sum_smul, hB,
          Vec.dot_replicate_one _ _ hlenOnes]
        set Bq := Vec.dot st.expectedReturns
          (covInv.mulVec (List.replicate st.expectedReturns.length 1)) with hBq
        set Aq := Vec.dot st.expectedReturns (covInv.mulVec st.expectedReturns) with hAq
        set Cq := Vec.sum (covInv.mulVec (List.replicate st.expectedReturns.length 1)) with hCq
        have hCq2 : Vec.dot (List.replicate st.expectedReturns.length 1)
            (covInv.mulVec (List.replicate st.expectedReturns.length 1)) = Cq := by
          rw [hCq, Vec.dot_replicate_one _ _ hlenOnes]
        rw [hCq2] at hdet
        have hdetne : Aq * Cq - Bq * Bq ≠ 0 := by
          intro h0
          rw [h0, abs_zero] at hdet
          exact hdet EPSILON_pos
        field_simp
        ring

/-! ### Claim theorems: C2, C3 (amended part), C4 (amended part), C5 is
above, C6, C7, C9, C10 -/

/-- C2: for every well-formed `MarkowitzOptimizer`, every result returned
with `converged = true` by `minimumVariance()`, by `optimize(λ)` with
`λ ≥ 0`, or by `targetReturn(r)` has a weight vector whose entries sum to
1 within `1e-6` (the sum is exactly 1 in the idealized arithmetic). -/
theorem converged_weights_sum_one {st : MarkowitzOptimizer} (hwf : st.WF) :
    (st.minimumVariance.converged = true →
      |Vec.sum st.minimumVariance.weights - 1| ≤ 1 / 10 ^ 6) ∧
    (∀ lam : ℝ, 0 ≤ lam → ∀ res : MarkowitzResult,
      st.optimize lam = Except.ok res → res.converged = true →
      |Vec.sum res.weights - 1| ≤ 1 / 10 ^ 6) ∧
    (∀ r : ℝ, (st.targetReturn r).converged = true →
      |Vec.sum (st.targetReturn r).weights - 1| ≤ 1 / 10 ^ 6) := by
  refine ⟨fun hc => ?_, fun lam hlam res hres hc => ?_, fun r hc => ?_⟩
  · rw [minimumVariance_sum_one hwf hc]
    norm_num
  · rw [optimize_sum_one hwf hlam hres hc]
    norm_num
  · rw [targetReturn_sum_one hwf hc]
    norm_num

/-- C3 (amended): `targetReturn(r)` returns `converged = false` — and, being
a total function in the embedding, raises nothing — when `r` lies below
`min(μ) - tolerance` or above `max(μ) + tolerance`, and likewise when the
2×2 system determinant `det = A·C - B²` has `|det| < EPSILON` for an
in-band target.  (The un-amended tail of the claim — `converged = false`
for every `r` outside `[min(μ), max(μ)]` — fails on the code: targets in
the tolerance band beyond the extremes still converge.) -/
theorem targetReturn_nonconvergence (st : MarkowitzOptimizer) (r : ℝ) :
    ((r < MarkowitzOptimizer.listMin st.expectedReturns - st.tolerance ∨
        MarkowitzOptimizer.listMax st.expectedReturns + st.tolerance < r) →
      (st.targetReturn r).converged = false ∧
        (st.targetReturn r).message = "Target return is not achievable") ∧
    (∀ covInv : Mat, st.covariance.inverse = Except.ok covInv →
      ¬ (r < MarkowitzOptimizer.listMin st.expectedReturns - st.tolerance ∨
          MarkowitzOptimizer.listMax st.expectedReturns + st.tolerance < r) →
      |Vec.dot st.expectedReturns (covInv.mulVec st.expectedReturns) *
          Vec.dot (List.replicate st.expectedReturns.length 1)
            (covInv.mulVec (List.replicate st.expectedReturns.length 1)) -
        Vec.dot st.expectedReturns
            (covInv.mulVec (List.replicate st.expectedReturns.length 1)) *
          Vec.dot st.expectedReturns
            (covInv.mulVec (List.replicate st.expectedReturns.length 1))| < EPSILON →
      (st.targetReturn r).converged = false ∧
        (st.targetReturn r).message = "System is singular (returns may be constant)") := by
  constructor
  · intro hrange
    rw [MarkowitzOptimizer.targetReturn, if_pos hrange]
    exact ⟨rfl, rfl⟩
  · intro covInv hinv hrange hdet
    rw [MarkowitzOptimizer.targetReturn, if_neg hrange, hinv]
    simp only
    rw [if_pos hdet]
    exact ⟨rfl, rfl⟩

/-- C4 (amended): for `λ < 0`, `MarkowitzOptimizer::optimize` raises an
invalid-argument error immediately; `BlackLittermanOptimizer::optimize`
does not raise — it silently substitutes the market risk aversion for the
negative value (the `-1.0` default is a sentinel), so its result equals a
call with `λ = riskAversion`. -/
theorem negative_lambda_policy :
    (∀ (st : MarkowitzOptimizer) (lam : ℝ), lam < 0 →
      st.optimize lam = Except.error "Risk aversion parameter must be non-negative") ∧
    (∀ (st : BlackLittermanOptimizer) (lam : ℝ), lam < 0 → 0 < st.riskAversion →
      st.optimize lam = st.optimize st.riskAversion) := by
  constructor
  · intro st lam h
    rw [MarkowitzOptimizer.optimize, if_pos h]
  · intro st lam h hra
    rw [BlackLittermanOptimizer.optimize, BlackLittermanOptimizer.optimize]
    simp only [if_pos h, if_neg (not_lt.mpr (le_of_lt hra))]

/-- C6: a `BlackLittermanOptimizer` holding zero views returns the
equilibrium returns `Π = λ·Σ·w_market` (computed at construction)
unchanged from `computePosteriorReturns`; every entry of the posterior
equals the corresponding entry of `λ·Σ·w_market` within `1e-6` (they are
identical in the idealized arithmetic). -/
theorem zero_views_posterior {st : BlackLittermanOptimizer}
    (hrows : 0 < st.covariance.rows) (hv : st.views = []) :
    st.computePosteriorReturns =
      Except.ok (Vec.smul (st.covariance.mulVec st.marketWeights) st.riskAversion) ∧
    ∀ res : Vec, st.computePosteriorReturns = Except.ok res →
      ∀ i < st.covariance.rows,
        |res.getD i 0 -
          (Vec.smul (st.covariance.mulVec st.marketWeights) st.riskAversion).getD i 0| ≤
          1 / 10 ^ 6 := by
  have hne : st.equilibriumReturns ≠ [] := by
    rw [BlackLittermanOptimizer.equilibriumReturns]
    intro h0
    have := congrArg List.length h0
    rw [Vec.length_smul, Mat.mulVec_length] at this
    simp at this
    omega
  have h1 : st.computePosteriorReturns =
      Except.ok (Vec.smul (st.covariance.mulVec st.marketWeights) st.riskAversion) := by
    rw [BlackLittermanOptimizer.computePosteriorReturns, if_pos hv, if_neg hne,
      BlackLittermanOptimizer.equilibriumReturns]
  refine ⟨h1, fun res hres i hi => ?_⟩
  rw [h1] at hres
  injection hres with hres
  subst hres
  simp

/-- C7 (spec-modelled): `Matrix::isPositiveDefinite` attempts `cholesky()`
plus a full symmetry and diagonal scan; it returns `false` rather than
raising on every failure mode (non-square, non-symmetric, non-positive
diagonal entry, Cholesky factorization failure) and returns `true` only
when all checks succeed. -/
theorem isPositiveDefinite_spec (M : Mat) :
    (M.isPositiveDefinite = true ↔
      M.IsSquare ∧ M.SymmOn M.rows ∧ (∀ i < M.rows, 0 < M.entry i i) ∧
        ∃ L, M.cholesky = Except.ok L) ∧
    (¬ M.IsSquare → M.isPositiveDefinite = false) ∧
    (¬ M.SymmOn M.rows → M.isPositiveDefinite = false) ∧
    ((∃ i, i < M.rows ∧ M.entry i i ≤ 0) → M.isPositiveDefinite = false) ∧
    ((∀ L, M.cholesky ≠ Except.ok L) → M.isPositiveDefinite = false) := by
  unfold Mat.isPositiveDefinite
  split_ifs with h
  · obtain ⟨h1, h2, h3, h4⟩ := h
    refine ⟨Iff.intro (fun _ => ⟨h1, h2, h3, h4⟩) (fun _ => rfl),
      fun hn => absurd h1 hn, fun hn => absurd h2 hn,
      fun hn => ?_, fun hn => ?_⟩
    · obtain ⟨i, hi, hle⟩ := hn
      exact absurd (h3 i hi) (not_lt.mpr hle)
    · obtain ⟨L, hL⟩ := h4
      exact absurd hL (hn L)
  · refine ⟨by simp [h], fun _ => rfl, fun _ => rfl, fun _ => rfl, fun _ => rfl⟩

/-- C9 counterexample: `ConstraintSet::isFeasible` on an empty constraint
set reports feasible (`true`) even for the empty weight vector — the loop
over members is vacuous — refuting the claim that every constraint-layer
feasibility check returns `false` on empty weights. -/
theorem emptySet_isFeasible_empty_weights :
    ConstraintSet.IsFeasible ([] : ConstraintSet) ([] : Vec) := by
  intro c hc
  exact absurd hc (List.not_mem_nil c)

/-- C9 (amended): every individual constraint feasibility check
(`FullyInvested`, `LongOnly`, `Box` uniform or per-asset) returns `false`,
raising nothing, on an empty weight vector, and so does
`ConstraintSet::isFeasible` for every non-empty constraint set; an empty
`ConstraintSet` instead reports `true`. -/
theorem isFeasible_empty_weights_false :
    (∀ tol, ¬ Constraint.IsFeasible (Constraint.fullyInvested tol) []) ∧
    (∀ tol, ¬ Constraint.IsFeasible (Constraint.longOnly tol) []) ∧
    (∀ lo hi tol, ¬ Constraint.IsFeasible (Constraint.boxUniform lo hi tol) []) ∧
    (∀ lbs ubs tol, ¬ Constraint.IsFeasible (Constraint.boxPerAsset lbs ubs tol) []) ∧
    (∀ cs : ConstraintSet, cs ≠ [] → ¬ ConstraintSet.IsFeasible cs []) := by
  refine ⟨fun tol h => h.1 rfl, fun tol h => h.1 rfl, fun lo hi tol h => h.1 rfl,
    fun lbs ubs tol h => h.1 rfl, fun cs hcs hfeas => ?_⟩
  cases cs with
  | nil => exact hcs rfl
  | cons c rest =>
    have hone := hfeas c (List.mem_cons_self c rest)
    cases c <;> exact hone.1 rfl

theorem isFeasible_empty_weights_false_witness :
    ¬ ConstraintSet.IsFeasible [Constraint.longOnly 0] ([] : Vec) :=
  isFeasible_empty_weights_false.2.2.2.2 [Constraint.longOnly 0] (by simp)

/-- C10: constructing a `MarkowitzOptimizer` with a non-empty constraint
set for which `hasInfeasibleCombination(n)` holds (`n` the number of
assets) raises an invalid-argument error at construction: `mk?` returns an
error, so no optimizer instance for that constraint set ever exists (and
in particular no call on one can return any result). -/
theorem infeasible_combination_rejected (expectedReturns : Vec)
    (covariance : Mat) (cs : ConstraintSet) (hcs : cs ≠ [])
    (hinf : ConstraintSet.HasInfeasibleCombination cs expectedReturns.length) :
    (∃ e, MarkowitzOptimizer.mk? expectedReturns covariance cs = Except.error e) ∧
    ∀ st, MarkowitzOptimizer.mk? expectedReturns covariance cs ≠ Except.ok st := by
  have h : ∃ e, MarkowitzOptimizer.mk? expectedReturns covariance cs =
      Except.error e := by
    rw [MarkowitzOptimizer.mk?]
    split_ifs with h1 h2 h3 h4
    · exact ⟨_, rfl⟩
    · exact ⟨_, rfl⟩
    · exact ⟨_, rfl⟩
    · exact ⟨_, rfl⟩
    · exact absurd ⟨hcs, hinf⟩ h4
  refine ⟨h, fun st hok => ?_⟩
  obtain ⟨e, he⟩ := h
  rw [he] at hok
  cases hok

theorem infeasible_combination_rejected_witness :
    ([Constraint.fullyInvested EPSILON, Constraint.boxUniform 0 (2 / 10) EPSILON] ≠
      ([] : ConstraintSet)) ∧
    ConstraintSet.HasInfeasibleCombination
      [Constraint.fullyInvested EPSILON, Constraint.boxUniform 0 (2 / 10) EPSILON]
      ([(8 : ℝ) / 100, 12 / 100, 16 / 100] : Vec).length ∧
    ∃ e, MarkowitzOptimizer.mk? [(8 : ℝ) / 100, 12 / 100, 16 / 100] (Mat.identity 3)
      [Constraint.fullyInvested EPSILON, Constraint.boxUniform 0 (2 / 10) EPSILON] =
      Except.error e := by
  have hcs : [Constraint.fullyInvested EPSILON,
      Constraint.boxUniform 0 (2 / 10) EPSILON] ≠ ([] : ConstraintSet) := by simp
  have hinf : ConstraintSet.HasInfeasibleCombination
      [Constraint.fullyInvested EPSILON, Constraint.boxUniform 0 (2 / 10) EPSILON]
      ([(8 : ℝ) / 100, 12 / 100, 16 / 100] : Vec).length := by
    simp only [ConstraintSet.HasInfeasibleCombination, ConstraintSet.lastBox,
      List.foldl, Constraint.isBoxC, List.any, Constraint.isFullyInvestedC,
      Constraint.isLongOnlyC, List.length_cons, List.length_nil]
    left
    refine ⟨by simp, Or.inr ?_⟩
    norm_num [EPSILON]
  exact ⟨hcs, hinf,
    (infeasible_combination_rejected _ _ _ hcs hinf).1⟩

/-! ### Concrete evaluation lemmas for identity covariance matrices -/

theorem cholEntry_id (n : ℕ) :
    ∀ j i, cholEntry (Mat.identity n).entry i j = if i = j then 1 else 0 := by
  intro j
  induction j using Nat.strong_induction_on with
  | _ j ih =>
    have hdiag : cholEntry (Mat.identity n).entry j j = 1 := by
      rw [cholEntry_diag, cholRadicand]
      have hsum : ∑ k in Finset.range j, cholEntry (Mat.identity n).entry j k *
          cholEntry (Mat.identity n).entry j k = 0 := by
        refine Finset.sum_eq_zero fun k hk => ?_
        rw [ih k (Finset.mem_range.mp hk) j,
          if_neg (by have := Finset.mem_range.mp hk; omega)]
        ring
      rw [hsum]
      show Real.sqrt ((if j = j then 1 else 0) - 0) = 1
      rw [if_pos rfl, sub_zero, Real.sqrt_one]
    intro i
    rcases lt_trichotomy i j with h | h | h
    · rw [cholEntry_upper _ h, if_neg (by omega)]
    · rw [h, hdiag, if_pos rfl]
    · rw [cholEntry_off _ h, if_neg (by omega)]
      have hsum : ∑ k in Finset.range j, cholEntry (Mat.identity n).entry i k *
          cholEntry (Mat.identity n).entry j k = 0 := by
        refine Finset.sum_eq_zero fun k hk => ?_
        rw [ih k (Finset.mem_range.mp hk) j,
          if_neg (by have := Finset.mem_range.mp hk; omega)]
        ring
      rw [hsum, hdiag]
      show ((if i = j then 1 else 0) - 0) / 1 = 0
      rw [if_neg (by omega)]
      norm_num

theorem cholOk_id (n : ℕ) : CholOk (Mat.identity n).entry n := by
  intro j _
  rw [cholRadicand]
  have hsum : ∑ k in Finset.range j, cholEntry (Mat.identity n).entry j k *
      cholEntry (Mat.identity n).entry j k = 0 := by
    refine Finset.sum_eq_zero fun k hk => ?_
    rw [cholEntry_id n k j, if_neg (by have := Finset.mem_range.mp hk; omega)]
    ring
  rw [hsum]
  show (0 : ℝ) < (if j = j then 1 else 0) - 0
  rw [if_pos rfl]
  norm_num

theorem pivotsOk_id (n : ℕ) : PivotsOk (cholEntry (Mat.identity n).entry) n := by
  intro i _
  rw [cholEntry_id n i i, if_pos rfl]
  rw [abs_one]
  norm_num [EPSILON]

theorem forwardSub_id (n : ℕ) (b : ℕ → ℝ) (i : ℕ) :
    forwardSub (cholEntry (Mat.identity n).entry) b i = b i := by
  rw [forwardSub_eq]
  have hsum : ∑ j in Finset.range i, cholEntry (Mat.identity n).entry i j *
      forwardSub (cholEntry (Mat.identity n).entry) b j = 0 := by
    refine Finset.sum_eq_zero fun j hj => ?_
    rw [cholEntry_id n j i, if_neg (by have := Finset.mem_range.mp hj; omega)]
    ring
  rw [hsum, cholEntry_id n i i, if_pos rfl, sub_zero, div_one]

theorem backwardSub_idT (n : ℕ) (b : ℕ → ℝ) (i : ℕ) :
    backwardSub n (fun p q => cholEntry (Mat.identity n).entry q p) b i = b i := by
  induction i using Nat.strong_induction_on with
  | _ i ih =>
    rw [backwardSub_eq]
    have hsum : ∑ j in Finset.Ico (i + 1) n,
        cholEntry (Mat.identity n).entry j i *
          backwardSub n (fun p q => cholEntry (Mat.identity n).entry q p) b j = 0 := by
      refine Finset.sum_eq_zero fun j hj => ?_
      rw [cholEntry_id n i j, if_neg (by have := Finset.mem_Ico.mp hj; omega)]
      ring
    rw [hsum, cholEntry_id n i i, if_pos rfl, sub_zero, div_one]

theorem invColEntry_id (n c r : ℕ) :
    invColEntry n (cholEntry (Mat.identity n).entry) c r = if r = c then 1 else 0 := by
  rw [invColEntry, backwardSub_idT, forwardSub_id]

theorem inverse_id (n : ℕ) :
    (Mat.identity n).inverse = Except.ok (Mat.identity n).invMat :=
  (inverse_eq_ok_iff _ _).mpr ⟨rfl, cholOk_id n, pivotsOk_id n, rfl⟩

theorem invMat_id_entry (n r c : ℕ) :
    (Mat.identity n).invMat.entry r c = if r = c then 1 else 0 := by
  show invColEntry n (cholEntry (Mat.identity n).entry) c r = _
  rw [invColEntry_id]

theorem invMat_id_mulVec_getD (n : ℕ) (v : Vec) {i : ℕ} (hi : i < n) :
    ((Mat.identity n).invMat.mulVec v).getD i 0 = v.getD i 0 := by
  have hi2 : i < (Mat.identity n).invMat.rows := hi
  rw [Mat.mulVec_getD _ _ hi2]
  have hcols : (Mat.identity n).invMat.cols = n := rfl
  rw [hcols]
  have hterm : ∀ j ∈ Finset.range n,
      (Mat.identity n).invMat.entry i j * v.getD j 0 =
        if i = j then v.getD j 0 else 0 := by
    intro j _
    rw [invMat_id_entry]
    by_cases h : i = j
    · rw [if_pos h, if_pos h, one_mul]
    · rw [if_neg h, if_neg h, zero_mul]
  rw [Finset.sum_congr rfl hterm, Finset.sum_ite_eq]
  rw [if_pos (Finset.mem_range.mpr hi)]

theorem Vec.dot_single (a b : ℝ) : Vec.dot [a] [b] = a * b := by
  rw [Vec.dot_cons, Vec.dot_nil, add_zero]

theorem Vec.dot_pair (a b c d : ℝ) : Vec.dot [a, b] [c, d] = a * c + b * d := by
  rw [Vec.dot_cons, Vec.dot_cons, Vec.dot_nil, add_zero]

theorem list_eq_of_getD {a b : List ℝ} (hlen : a.length = b.length)
    (h : ∀ i < a.length, a.getD i 0 = b.getD i 0) : a = b := by
  induction a generalizing b with
  | nil =>
    cases b with
    | nil => rfl
    | cons y ys => simp at hlen
  | cons x xs ih =>
    cases b with
    | nil => simp at hlen
    | cons y ys =>
      have h0 := h 0 (by simp)
      simp only [List.getD_cons_zero] at h0
      rw [h0]
      have hrest : xs = ys := by
        refine ih (by simpa using hlen) fun i hi => ?_
        have := h (i + 1) (by simpa using Nat.succ_lt_succ hi)
        simpa using this
      rw [hrest]

theorem invMat_id_mulVec (n : ℕ) (v : Vec) (hv : v.length = n) :
    (Mat.identity n).invMat.mulVec v = v := by
  refine list_eq_of_getD ?_ ?_
  · rw [Mat.mulVec_length, hv]
    rfl
  · intro i hi
    rw [Mat.mulVec_length] at hi
    rw [invMat_id_mulVec_getD n v hi]

/-! ### Claim C1: inverse correctness, its counterexample and witness -/

/-- C1 (amended): for every valid covariance matrix `C` — square,
symmetric, positive-definite — for which `Matrix::inverse()` completes
without raising, the inverse built by factoring `C = L·Lᵀ` via
`cholesky()` and solving `L·y = eᵢ`, `Lᵀ·x = y` per basis column satisfies
`C.inverse() * C = I` within `1e-9` per entry (exactly, in the idealized
arithmetic).  The proviso is forced: the triangular-solve pivot check
`|L(i,i)| < 1e-15` can reject a genuinely SPD matrix with tiny variances
(see the counterexample), in which case `inverse()` raises instead. -/
theorem inverse_mul_self_id {M Minv : Mat} (hsq : M.IsSquare)
    (hpd : M.PosDefOn M.rows) (hinv : M.inverse = Except.ok Minv) :
    ∀ i < M.rows, ∀ j < M.rows,
      |(Minv.mul M).entry i j - (Mat.identity M.rows).entry i j| ≤ 1 / 10 ^ 9 := by
  obtain ⟨hsq2, hok, hpiv, rfl⟩ := (inverse_eq_ok_iff _ _).mp hinv
  intro i hi j hj
  rw [invMat_mul_mat hsq2 hpd.1 hok hpiv i hi j hj]
  norm_num

theorem identity_posdef (n : ℕ) : (Mat.identity n).PosDefOn n := by
  constructor
  · intro i _ j _
    show (if i = j then (1 : ℝ) else 0) = if j = i then 1 else 0
    by_cases h : i = j
    · rw [if_pos h, if_pos h.symm]
    · rw [if_neg h, if_neg (fun h2 => h h2.symm)]
  · intro v hv
    have hsum : ∑ i : Fin n, ∑ j : Fin n, v i * (Mat.identity n).entry i.1 j.1 * v j =
        ∑ i : Fin n, v i * v i := by
      refine Finset.sum_congr rfl fun i _ => ?_
      have hrow : ∀ j : Fin n, v i * (Mat.identity n).entry i.1 j.1 * v j =
          if i = j then v i * v j else 0 := by
        intro j
        show v i * (if i.1 = j.1 then (1 : ℝ) else 0) * v j = _
        by_cases h : i = j
        · rw [if_pos (by rw [h]), if_pos h]
          ring
        · rw [if_neg (fun h2 => h (Fin.ext h2)), if_neg h]
          ring
      rw [Finset.sum_congr rfl fun j _ => hrow j, Finset.sum_ite_eq Finset.univ i]
      rw [if_pos (Finset.mem_univ i)]
    rw [hsum]
    have hex : ∃ i, v i ≠ 0 := by
      by_contra hall
      push_neg at hall
      exact hv (funext hall)
    obtain ⟨i0, hi0⟩ := hex
    have hpos : ∀ i : Fin n, 0 ≤ v i * v i := fun i => mul_self_nonneg (v i)
    refine Finset.sum_pos' (fun i _ => hpos i) ⟨i0, Finset.mem_univ i0, ?_⟩
    exact mul_self_pos.mpr hi0

theorem inverse_mul_self_id_witness :
    (Mat.identity 1).IsSquare ∧ (Mat.identity 1).PosDefOn 1 ∧
    (Mat.identity 1).inverse = Except.ok (Mat.identity 1).invMat ∧
    ∀ i < 1, ∀ j < 1,
      |((Mat.identity 1).invMat.mul (Mat.identity 1)).entry i j -
        (Mat.identity 1).entry i j| ≤ 1 / 10 ^ 9 :=
  ⟨rfl, identity_posdef 1, inverse_id 1,
    @inverse_mul_self_id (Mat.identity 1) ((Mat.identity 1).invMat)
      rfl (identity_posdef 1) (inverse_id 1)⟩

/-- C1 counterexample: the 1×1 covariance `[[1e-31]]` is square, symmetric
and positive-definite, yet `Matrix::inverse()` raises the singular-matrix
error instead of producing an inverse: its Cholesky pivot
`sqrt(1e-31) ≈ 3.16e-16` falls below the `EPSILON = 1e-15` pivot check of
the triangular solves.  So `C.inverse() × C ≈ I` fails for this valid
covariance matrix: no product exists. -/
theorem inverse_raises_on_tiny_spd :
    (⟨1, 1, fun _ _ => 1 / 10 ^ 31⟩ : Mat).IsSquare ∧
    (⟨1, 1, fun _ _ => 1 / 10 ^ 31⟩ : Mat).PosDefOn 1 ∧
    (⟨1, 1, fun _ _ => 1 / 10 ^ 31⟩ : Mat).inverse =
      Except.error "Matrix is singular (zero diagonal element)" := by
  refine ⟨rfl, ⟨fun i _ j _ => rfl, fun v hv => ?_⟩, ?_⟩
  · have hv0 : v 0 ≠ 0 := by
      intro h0
      refine hv (funext fun i => ?_)
      rw [Subsingleton.elim i 0, h0]
      rfl
    have : ∑ i : Fin 1, ∑ j : Fin 1,
        v i * (⟨1, 1, fun _ _ => 1 / 10 ^ 31⟩ : Mat).entry i.1 j.1 * v j =
        v 0 * (1 / 10 ^ 31) * v 0 := by
      rw [Fin.sum_univ_one, Fin.sum_univ_one]
    rw [this]
    have h1 : (0 : ℝ) < 1 / 10 ^ 31 := by norm_num
    calc (0 : ℝ) < (1 / 10 ^ 31) * (v 0 * v 0) :=
          mul_pos h1 (mul_self_pos.mpr hv0)
      _ = v 0 * (1 / 10 ^ 31) * v 0 := by ring
  · have hok : CholOk (fun _ _ => (1 : ℝ) / 10 ^ 31) 1 := by
      intro j hj
      have : j = 0 := by omega
      subst this
      rw [cholRadicand]
      norm_num
    have hL : cholEntry (fun _ _ => (1 : ℝ) / 10 ^ 31) 0 0 = Real.sqrt (1 / 10 ^ 31) := by
      rw [cholEntry_diag, cholRadicand]
      simp
    have hpiv : ¬ PivotsOk (cholEntry (fun _ _ => (1 : ℝ) / 10 ^ 31)) 1 := by
      intro hp
      have := hp 0 (by omega)
      rw [hL] at this
      have hnn : (0 : ℝ) ≤ Real.sqrt (1 / 10 ^ 31) := Real.sqrt_nonneg _
      rw [abs_of_nonneg hnn] at this
      have hlt : Real.sqrt (1 / 10 ^ 31) < EPSILON := by
        rw [EPSILON]
        rw [show ((1 : ℝ) / 10 ^ 15) = Real.sqrt ((1 / 10 ^ 15) ^ 2) by
          rw [Real.sqrt_sq (by norm_num)]]
        refine Real.sqrt_lt_sqrt (by norm_num) ?_
        norm_num
      exact absurd this (not_le.mpr hlt)
    show Mat.inverse _ = _
    rw [Mat.inverse, if_pos rfl, if_pos hok, if_neg hpiv]

theorem identity_mulVec_getD (n : ℕ) (v : Vec) {i : ℕ} (hi : i < n) :
    ((Mat.identity n).mulVec v).getD i 0 = v.getD i 0 := by
  have hi2 : i < (Mat.identity n).rows := hi
  rw [Mat.mulVec_getD _ _ hi2]
  have hterm : ∀ j ∈ Finset.range n,
      (Mat.identity n).entry i j * v.getD j 0 =
        if i = j then v.getD j 0 else 0 := by
    intro j _
    show (if i = j then (1 : ℝ) else 0) * v.getD j 0 = _
    by_cases h : i = j
    · rw [if_pos h, if_pos h, one_mul]
    · rw [if_neg h, if_neg h, zero_mul]
  show ∑ j in Finset.range n, (Mat.identity n).entry i j * v.getD j 0 = v.getD i 0
  rw [Finset.sum_congr rfl hterm, Finset.sum_ite_eq]
  rw [if_pos (Finset.mem_range.mpr hi)]

theorem identity_mulVec (n : ℕ) (v : Vec) (hv : v.length = n) :
    (Mat.identity n).mulVec v = v := by
  refine list_eq_of_getD ?_ ?_
  · rw [Mat.mulVec_length, hv]
    rfl
  · intro i hi
    rw [Mat.mulVec_length] at hi
    rw [identity_mulVec_getD n v hi]

theorem minVar_one_asset_converged (c tol : ℝ) :
    ((⟨[c], Mat.identity 1, [], 1000, tol⟩ :
      MarkowitzOptimizer).minimumVariance).converged = true := by
  simp only [MarkowitzOptimizer.minimumVariance, inverse_id]
  have hrep : List.replicate (List.length [c]) (1 : ℝ) = [1] := rfl
  simp only [hrep, invMat_id_mulVec 1 [1] rfl, Vec.dot_single, one_mul]
  rw [if_neg (by norm_num [EPSILON])]
  rw [if_neg (by simp)]
  rfl

theorem converged_weights_sum_one_witness :
    (⟨[(1 : ℝ)], Mat.identity 1, [], 1000, 1 / 10 ^ 8⟩ :
      MarkowitzOptimizer).WF ∧
    ((⟨[(1 : ℝ)], Mat.identity 1, [], 1000, 1 / 10 ^ 8⟩ :
      MarkowitzOptimizer).minimumVariance).converged = true ∧
    |Vec.sum ((⟨[(1 : ℝ)], Mat.identity 1, [], 1000, 1 / 10 ^ 8⟩ :
      MarkowitzOptimizer).minimumVariance).weights - 1| ≤ 1 / 10 ^ 6 := by
  have hwf : (⟨[(1 : ℝ)], Mat.identity 1, [], 1000, 1 / 10 ^ 8⟩ :
      MarkowitzOptimizer).WF := ⟨by simp, rfl, rfl, by norm_num⟩
  have hconv := minVar_one_asset_converged (1 : ℝ) (1 / 10 ^ 8)
  exact ⟨hwf, hconv, (converged_weights_sum_one hwf).1 hconv⟩

theorem listMin_pair : MarkowitzOptimizer.listMin [(0 : ℝ), 1] = 0 := by
  rw [MarkowitzOptimizer.listMin]
  show min 0 1 = 0
  norm_num

theorem listMax_pair : MarkowitzOptimizer.listMax [(0 : ℝ), 1] = 1 := by
  rw [MarkowitzOptimizer.listMax]
  show max 0 1 = 1
  norm_num

/-- C3 counterexample: with `μ = [0, 1]`, `Σ = I₂` and the default
tolerance `1e-8`, the target `r = 1 + 5e-9` lies strictly outside
`[min μ, max μ] = [0, 1]`, yet `targetReturn(r)` returns a result with
`converged = true` — the range check only rejects targets beyond the
tolerance band.  This refutes the claim's final clause. -/
theorem targetReturn_outside_range_converges :
    MarkowitzOptimizer.listMax [(0 : ℝ), 1] < 1 + 5 / 10 ^ 9 ∧
    ((⟨[(0 : ℝ), 1], Mat.identity 2, [], 1000, 1 / 10 ^ 8⟩ :
      MarkowitzOptimizer).targetReturn (1 + 5 / 10 ^ 9)).converged = true := by
  constructor
  · rw [listMax_pair]
    norm_num
  · simp only [MarkowitzOptimizer.targetReturn, inverse_id]
    rw [if_neg (by rw [listMin_pair, listMax_pair]; norm_num)]
    have hrep : List.replicate (List.length [(0 : ℝ), 1]) (1 : ℝ) = [1, 1] := rfl
    simp only [hrep, invMat_id_mulVec 2 [0, 1] rfl, invMat_id_mulVec 2 [1, 1] rfl,
      Vec.dot_pair]
    rw [if_neg (by norm_num [EPSILON])]
    rw [if_neg (by simp)]
    rfl

theorem targetReturn_nonconvergence_witness :
    ((-1 : ℝ) < MarkowitzOptimizer.listMin [(0 : ℝ), 1] - 1 / 10 ^ 8) ∧
    ((⟨[(0 : ℝ), 1], Mat.identity 2, [], 1000, 1 / 10 ^ 8⟩ :
        MarkowitzOptimizer).targetReturn (-1)).converged = false ∧
    ((⟨[(0 : ℝ), 1], Mat.identity 2, [], 1000, 1 / 10 ^ 8⟩ :
        MarkowitzOptimizer).targetReturn (-1)).message =
      "Target return is not achievable" := by
  have h1 : (-1 : ℝ) < MarkowitzOptimizer.listMin [(0 : ℝ), 1] - 1 / 10 ^ 8 := by
    rw [listMin_pair]
    norm_num
  have h2 := (targetReturn_nonconvergence
    (⟨[(0 : ℝ), 1], Mat.identity 2, [], 1000, 1 / 10 ^ 8⟩ : MarkowitzOptimizer)
    (-1)).1 (Or.inl h1)
  exact ⟨h1, h2.1, h2.2⟩

theorem optimize_one_asset_converged (c lam tol : ℝ) (hlam0 : ¬ lam < 0)
    (hlam : ¬ lam < EPSILON) :
    ∃ res : MarkowitzResult,
      (⟨[c], Mat.identity 1, [], 1000, tol⟩ : MarkowitzOptimizer).optimize lam =
        Except.ok res ∧ res.converged = true := by
  rw [MarkowitzOptimizer.optimize, if_neg hlam0, if_neg hlam]
  refine ⟨_, rfl, ?_⟩
  have hrep : List.replicate (List.length [c]) (1 : ℝ) = [1] := rfl
  simp only [inverse_id, hrep, invMat_id_mulVec 1 [1] rfl,
    invMat_id_mulVec 1 [c] rfl, Vec.dot_single, one_mul]
  rw [if_neg (by norm_num [EPSILON])]
  rw [if_neg (by simp)]
  rfl

/-- C4 counterexample: `BlackLittermanOptimizer::optimize(-1)` with a
negative lambda raises nothing: on a valid one-asset optimizer it returns
a converged result, because the negative value is silently replaced by the
market risk aversion.  This refutes the claim that both optimizers raise
an invalid-argument error for `λ < 0`. -/
theorem bl_optimize_negative_lambda_no_raise :
    ∃ res : MarkowitzResult,
      (⟨[(1 : ℝ)], Mat.identity 1, 2, 1 / 40, []⟩ :
        BlackLittermanOptimizer).optimize (-1) = Except.ok res ∧
      res.converged = true := by
  simp only [BlackLittermanOptimizer.optimize]
  rw [if_pos (show (-1 : ℝ) < 0 by norm_num)]
  have hpost : (⟨[(1 : ℝ)], Mat.identity 1, 2, 1 / 40, []⟩ :
      BlackLittermanOptimizer).computePosteriorReturns =
      Except.ok (Vec.smul ((Mat.identity 1).mulVec [1]) 2) :=
    (zero_views_posterior (by decide) rfl).1
  have hmk : MarkowitzOptimizer.mk? [(1 : ℝ) * 2] (Mat.identity 1) [] =
      Except.ok ⟨[(1 : ℝ) * 2], Mat.identity 1, [], 1000, 1 / 10 ^ 8⟩ := by
    rw [MarkowitzOptimizer.mk?]
    rw [if_neg (by simp), if_neg (by simp [Mat.IsEmpty, Mat.identity]),
      if_neg (by simp [Mat.identity]), if_neg (by simp)]
  rw [hpost, identity_mulVec 1 [1] rfl,
    show Vec.smul [(1 : ℝ)] 2 = [1 * 2] from rfl]
  simp only [hmk]
  exact optimize_one_asset_converged (1 * 2) 2 (1 / 10 ^ 8)
    (by norm_num) (by norm_num [EPSILON])

theorem negative_lambda_policy_witness :
    (⟨[(1 : ℝ)], Mat.identity 1, [], 1000, 1 / 10 ^ 8⟩ :
        MarkowitzOptimizer).optimize (-1) =
      Except.error "Risk aversion parameter must be non-negative" ∧
    (⟨[(1 : ℝ)], Mat.identity 1, 2, 1 / 40, []⟩ :
        BlackLittermanOptimizer).optimize (-1) =
      (⟨[(1 : ℝ)], Mat.identity 1, 2, 1 / 40, []⟩ :
        BlackLittermanOptimizer).optimize 2 :=
  ⟨negative_lambda_policy.1 _ (-1) (by norm_num),
   negative_lambda_policy.2 _ (-1) (by norm_num) (by norm_num)⟩

theorem zero_views_posterior_witness :
    0 < (⟨[(1 : ℝ)], Mat.identity 1, 2, 1 / 40, []⟩ :
        BlackLittermanOptimizer).covariance.rows ∧
    (⟨[(1 : ℝ)], Mat.identity 1, 2, 1 / 40, []⟩ :
        BlackLittermanOptimizer).computePosteriorReturns =
      Except.ok (Vec.smul ((Mat.identity 1).mulVec [1]) 2) :=
  ⟨by decide, (zero_views_posterior (by decide) rfl).1⟩

theorem isPositiveDefinite_spec_witness :
    (Mat.identity 2).isPositiveDefinite = true :=
  ((isPositiveDefinite_spec (Mat.identity 2)).1).mpr
    ⟨rfl, (identity_posdef 2).1,
     fun i _ => by
       show (0 : ℝ) < if i = i then 1 else 0
       rw [if_pos rfl]
       norm_num,
     ⟨_, by
       rw [Mat.cholesky,
         if_pos (show (Mat.identity 2).rows = (Mat.identity 2).cols from rfl),
         if_pos (show CholOk (Mat.identity 2).entry (Mat.identity 2).rows from
           cholOk_id 2)]⟩⟩

/-! ### Theorems: decimal digits and their parse -/

theorem digitChar_toNat {d : ℕ} (h : d < 10) : (digitChar d).toNat = 48 + d := by
  interval_cases d <;> decide

theorem digitChar_isDigit {d : ℕ} (h : d < 10) : (digitChar d).isDigit = true := by
  interval_cases d <;> decide

theorem natDigitsCore_append :
    ∀ fuel n acc, n < 10 ^ fuel →
      natDigitsCore fuel n acc = natDigitsCore fuel n [] ++ acc := by
  intro fuel
  induction fuel with
  | zero =>
    intro n acc h
    interval_cases n
    rfl
  | succ f ih =>
    intro n acc h
    simp only [natDigitsCore]
    split_ifs with h10
    · rfl
    · have hdiv : n / 10 < 10 ^ f := by
        rw [Nat.div_lt_iff_lt_mul (by omega)]
        calc n < 10 ^ (f + 1) := h
          _ = 10 ^ f * 10 := by ring
      rw [ih (n / 10) (digitChar (n % 10) :: acc) hdiv,
        ih (n / 10) [digitChar (n % 10)] hdiv, List.append_assoc]
      rfl

theorem natDigitsCore_congr :
    ∀ n f1 f2 acc, 0 < f1 → 0 < f2 → n < 10 ^ f1 → n < 10 ^ f2 →
      natDigitsCore f1 n acc = natDigitsCore f2 n acc := by
  intro n
  induction n using Nat.strong_induction_on with
  | _ n ih =>
    intro f1 f2 acc hf1 hf2 h1 h2
    obtain ⟨a, rfl⟩ : ∃ a, f1 = a + 1 := ⟨f1 - 1, by omega⟩
    obtain ⟨b, rfl⟩ : ∃ b, f2 = b + 1 := ⟨f2 - 1, by omega⟩
    simp only [natDigitsCore]
    split_ifs with h10
    · rfl
    · have ha : 0 < a := by
        by_contra h0
        have : a = 0 := by omega
        subst this
        have : n < 10 := by simpa using h1
        omega
      have hb : 0 < b := by
        by_contra h0
        have : b = 0 := by omega
        subst this
        have : n < 10 := by simpa using h2
        omega
      have hda : n / 10 < 10 ^ a := by
        rw [Nat.div_lt_iff_lt_mul (by omega)]
        calc n < 10 ^ (a + 1) := h1
          _ = 10 ^ a * 10 := by ring
      have hdb : n / 10 < 10 ^ b := by
        rw [Nat.div_lt_iff_lt_mul (by omega)]
        calc n < 10 ^ (b + 1) := h2
          _ = 10 ^ b * 10 := by ring
      exact ih (n / 10) (Nat.div_lt_self (by omega) (by omega)) a b _ ha hb hda hdb

theorem nat_lt_ten_pow_succ_self (n : ℕ) : n < 10 ^ (n + 1) := by
  calc n < 10 ^ n := Nat.lt_pow_self (by omega) n
    _ ≤ 10 ^ (n + 1) := Nat.pow_le_pow_right (by omega) (by omega)

theorem natDigits_small {n : ℕ} (h : n < 10) : natDigits n = [digitChar n] := by
  rw [natDigits]
  simp only [natDigitsCore]
  rw [if_pos h, Nat.mod_eq_of_lt h]

theorem natDigits_step {n : ℕ} (h : 10 ≤ n) :
    natDigits n = natDigits (n / 10) ++ [digitChar (n % 10)] := by
  rw [natDigits]
  simp only [natDigitsCore]
  rw [if_neg (by omega)]
  have h1 : n / 10 < 10 ^ n := by
    calc n / 10 ≤ n := Nat.div_le_self n 10
      _ < 10 ^ n := Nat.lt_pow_self (by omega) n
  have h2 : n / 10 < 10 ^ (n / 10 + 1) := nat_lt_ten_pow_succ_self _
  have h0 : 0 < n := by omega
  rw [natDigitsCore_congr (n / 10) n (n / 10 + 1) _ h0 (by omega) h1 h2]
  rw [natDigits, natDigitsCore_append (n / 10 + 1) (n / 10) _ h2]

theorem natDigits_ne_nil (n : ℕ) : natDigits n ≠ [] := by
  rcases lt_or_le n 10 with h | h
  · rw [natDigits_small h]
    simp
  · rw [natDigits_step h]
    simp

theorem natDigits_chars (n : ℕ) : ∀ c ∈ natDigits n, c.isDigit = true := by
  induction n using Nat.strong_induction_on with
  | _ n ih =>
    rcases lt_or_le n 10 with h | h
    · rw [natDigits_small h]
      intro c hc
      rw [List.mem_singleton] at hc
      subst hc
      exact digitChar_isDigit h
    · rw [natDigits_step h]
      intro c hc
      rcases List.mem_append.mp hc with h2 | h2
      · exact ih (n / 10) (Nat.div_lt_self (by omega) (by omega)) c h2
      · rw [List.mem_singleton] at h2
        subst h2
        exact digitChar_isDigit (Nat.mod_lt n (by omega))

theorem natDigits_length_le {n k : ℕ} (hk : 0 < k) (h : n < 10 ^ k) :
    (natDigits n).length ≤ k := by
  induction k generalizing n with
  | zero => omega
  | succ m ih =>
    rcases lt_or_le n 10 with h10 | h10
    · rw [natDigits_small h10]
      simp
    · have hm : 0 < m := by
        by_contra h0
        have : m = 0 := by omega
        subst this
        have : n < 10 := by simpa using h
        omega
      rw [natDigits_step h10, List.length_append]
      have hdiv : n / 10 < 10 ^ m := by
        rw [Nat.div_lt_iff_lt_mul (by omega)]
        calc n < 10 ^ (m + 1) := h
          _ = 10 ^ m * 10 := by ring
      have := ih hm hdiv
      simp only [List.length_singleton]
      omega

theorem parseDigits_stop {rest : List Char}
    (h : ∀ c, rest.head? = some c → ¬ c.isDigit = true) (acc cnt : ℕ) :
    parseDigits rest acc cnt = (acc, cnt, rest) := by
  cases rest with
  | nil => rfl
  | cons c r =>
    rw [parseDigits]
    rw [if_neg (h c rfl)]

theorem parseDigits_digits (n : ℕ) :
    ∀ acc cnt rest, parseDigits (natDigits n ++ rest) acc cnt =
      parseDigits rest (acc * 10 ^ (natDigits n).length + n)
        (cnt + (natDigits n).length) := by
  induction n using Nat.strong_induction_on with
  | _ n ih =>
    intro acc cnt rest
    rcases lt_or_le n 10 with h10 | h10
    · rw [natDigits_small h10]
      show parseDigits (digitChar n :: rest) acc cnt = _
      rw [parseDigits, if_pos (digitChar_isDigit h10), digitChar_toNat h10]
      simp only [List.length_singleton, pow_one]
      congr 2
      omega
    · rw [natDigits_step h10, List.append_assoc, List.singleton_append]
      rw [ih (n / 10) (Nat.div_lt_self (by omega) (by omega))]
      have hd : n % 10 < 10 := Nat.mod_lt n (by omega)
      rw [parseDigits, if_pos (digitChar_isDigit hd), digitChar_toNat hd]
      have h48 : 48 + n % 10 - 48 = n % 10 := by omega
      have harg : (acc * 10 ^ (natDigits (n / 10)).length + n / 10) * 10 + n % 10 =
          acc * 10 ^ ((natDigits (n / 10)).length + 1) + n := by
        rw [pow_succ]
        calc (acc * 10 ^ (natDigits (n / 10)).length + n / 10) * 10 + n % 10 =
            acc * (10 ^ (natDigits (n / 10)).length * 10) +
              (10 * (n / 10) + n % 10) := by ring
          _ = acc * (10 ^ (natDigits (n / 10)).length * 10) + n := by
              rw [Nat.div_add_mod]
      have hlen : (natDigits (n / 10) ++ [digitChar (n % 10)]).length =
          (natDigits (n / 10)).length + 1 := by simp
      rw [h48, harg, hlen]
      have hcnt : cnt + (natDigits (n / 10)).length + 1 =
          cnt + ((natDigits (n / 10)).length + 1) := by omega
      rw [hcnt]

theorem parseDigits_pad (k n : ℕ) :
    ∀ acc cnt rest, parseDigits (List.replicate k '0' ++ natDigits n ++ rest) acc cnt =
      parseDigits rest (acc * 10 ^ (k + (natDigits n).length) + n)
        (cnt + (k + (natDigits n).length)) := by
  induction k with
  | zero =>
    intro acc cnt rest
    simp only [List.replicate, List.nil_append, Nat.zero_add]
    exact parseDigits_digits n acc cnt rest
  | succ m ih =>
    intro acc cnt rest
    rw [List.replicate_succ, List.cons_append, List.cons_append]
    rw [parseDigits, if_pos (by decide)]
    rw [show ('0' : Char).toNat - 48 = 0 from by decide]
    rw [ih]
    have harg : (acc * 10 + 0) * 10 ^ (m + (natDigits n).length) + n =
        acc * 10 ^ (m + 1 + (natDigits n).length) + n := by
      have hh : m + 1 + (natDigits n).length = m + (natDigits n).length + 1 := by omega
      rw [hh, pow_succ]
      ring_nf
    have hcnt : cnt + 1 + (m + (natDigits n).length) =
        cnt + (m + 1 + (natDigits n).length) := by omega
    rw [harg, hcnt]

/-! ### Character classes of the rendered JSON -/

theorem isDigit_ne {c d : Char} (h : c.isDigit = true) (hd : d.isDigit = false) : c ≠ d := by
  intro e
  rw [e, hd] at h
  exact Bool.false_ne_true h

theorem isDigit_not_trim {c : Char} (h : c.isDigit = true) : isTrimSpace c = false := by
  simp only [isTrimSpace, decide_eq_false_iff_not]
  push_neg
  exact ⟨isDigit_ne h (by decide), isDigit_ne h (by decide), isDigit_ne h (by decide),
    isDigit_ne h (by decide)⟩

theorem isDigit_not_space {c : Char} (h : c.isDigit = true) : isSpaceC c = false := by
  simp only [isSpaceC, decide_eq_false_iff_not]
  push_neg
  exact ⟨isDigit_ne h (by decide), isDigit_ne h (by decide), isDigit_ne h (by decide),
    isDigit_ne h (by decide), isDigit_ne h (by decide), isDigit_ne h (by decide)⟩

theorem isDigit_isNum {c : Char} (h : c.isDigit = true) : isNumChar c = true := by
  simp only [isNumChar, decide_eq_true_eq]
  exact Or.inl h

theorem natDigitsPad_chars (w n : ℕ) : ∀ c ∈ natDigitsPad w n, c.isDigit = true := by
  intro c hc
  rw [natDigitsPad] at hc
  rcases List.mem_append.mp hc with h | h
  · rw [List.eq_of_mem_replicate h]
    decide
  · exact natDigits_chars n c h

theorem renderFixed8_chars (x : ℝ) :
    ∀ c ∈ renderFixed8 x, c.isDigit = true ∨ c = '-' ∨ c = '.' := by
  intro c hc
  simp only [renderFixed8] at hc
  rcases List.mem_append.mp hc with h | h
  · rcases List.mem_append.mp h with h2 | h2
    · split_ifs at h2 with hm
      · right
        left
        exact List.mem_singleton.mp h2
      · exact absurd h2 (List.not_mem_nil c)
    · left
      exact natDigits_chars _ c h2
  · rcases List.mem_cons.mp h with h3 | h3
    · right
      right
      exact h3
    · left
      exact natDigitsPad_chars _ _ c h3

theorem renderFixed8_facts (x : ℝ) :
    ∀ c ∈ renderFixed8 x, c ≠ '"' ∧ c ≠ ',' ∧ c ≠ '[' ∧ c ≠ ']' ∧
      isTrimSpace c = false ∧ isNumChar c = true := by
  intro c hc
  rcases renderFixed8_chars x c hc with h | h | h
  · exact ⟨isDigit_ne h (by decide), isDigit_ne h (by decide), isDigit_ne h (by decide),
      isDigit_ne h (by decide), isDigit_not_trim h, isDigit_isNum h⟩
  · subst h
    exact ⟨by decide, by decide, by decide, by decide, by decide, by decide⟩
  · subst h
    exact ⟨by decide, by decide, by decide, by decide, by decide, by decide⟩

theorem renderFixed8_head (x : ℝ) :
    ∃ c l, renderFixed8 x = c :: l ∧ (c = '-' ∨ c.isDigit = true) := by
  simp only [renderFixed8]
  by_cases hm : round (x * 10 ^ 8) < 0
  · rw [if_pos hm, List.singleton_append]
    exact ⟨'-', _, rfl, Or.inl rfl⟩
  · rw [if_neg hm, List.nil_append]
    obtain ⟨c, l, he⟩ :=
      List.exists_cons_of_ne_nil (natDigits_ne_nil ((round (x * 10 ^ 8)).natAbs / 10 ^ 8))
    refine ⟨c, l ++ '.' :: natDigitsPad 8 ((round (x * 10 ^ 8)).natAbs % 10 ^ 8), ?_, Or.inr ?_⟩
    · rw [he, List.cons_append]
    · exact natDigits_chars _ c (by rw [he]; exact List.mem_cons_self c l)

theorem numHead_facts {c : Char} (h : c = '-' ∨ c.isDigit = true) :
    isSpaceC c = false ∧ c ≠ '"' ∧ c ≠ '[' ∧ c ≠ 't' ∧ c ≠ 'f' := by
  rcases h with h | h
  · subst h
    exact ⟨by decide, by decide, by decide, by decide, by decide⟩
  · exact ⟨isDigit_not_space h, isDigit_ne h (by decide), isDigit_ne h (by decide),
      isDigit_ne h (by decide), isDigit_ne h (by decide)⟩

theorem weightsChars_chars (vs : Vec) :
    ∀ c ∈ weightsChars vs, c ≠ '"' ∧ c ≠ '[' ∧ c ≠ ']' := by
  induction vs with
  | nil =>
    intro c hc
    exact absurd hc (List.not_mem_nil c)
  | cons x vs ih =>
    cases vs with
    | nil =>
      intro c hc
      simp only [weightsChars] at hc
      obtain ⟨h1, _, h3, h4, _, _⟩ := renderFixed8_facts x c hc
      exact ⟨h1, h3, h4⟩
    | cons y rest =>
      intro c hc
      simp only [weightsChars] at hc
      rcases List.mem_append.mp hc with h | h
      · obtain ⟨h1, _, h3, h4, _, _⟩ := renderFixed8_facts x c h
        exact ⟨h1, h3, h4⟩
      · rcases List.mem_cons.mp h with h2 | h2
        · subst h2
          exact ⟨by decide, by decide, by decide⟩
        · rcases List.mem_cons.mp h2 with h3 | h3
          · subst h3
            exact ⟨by decide, by decide, by decide⟩
          · exact ih c h3

/-! ### A first-occurrence calculus for strFind -/

theorem isPrefixOf_false_of_not {l s : List Char} (h : ¬ l <+: s) : l.isPrefixOf s = false :=
  Bool.eq_false_iff.mpr (fun ht => h (List.isPrefixOf_iff_prefix.mp ht))

theorem not_prefix_head {a b : Char} {l s : List Char} (h : a ≠ b) :
    ¬ (a :: l) <+: (b :: s) :=
  fun hp => h (List.cons_prefix_cons.mp hp).1

theorem not_prefix_second {a b c : Char} {l s : List Char} (h : b ≠ c) :
    ¬ (a :: b :: l) <+: (a :: c :: s) :=
  fun hp => h (List.cons_prefix_cons.mp (List.cons_prefix_cons.mp hp).2).1

theorem prefix_quote_cancel :
    ∀ (x m t u : List Char), (∀ c ∈ x, c ≠ '"') → (∀ c ∈ m, c ≠ '"') →
      (x ++ '"' :: t) <+: (m ++ '"' :: u) → x = m ∧ t <+: u := by
  intro x
  induction x with
  | nil =>
    intro m t u _ hm h
    cases m with
    | nil =>
      rw [List.nil_append, List.nil_append, List.cons_prefix_cons] at h
      exact ⟨rfl, h.2⟩
    | cons a m' =>
      rw [List.nil_append, List.cons_append, List.cons_prefix_cons] at h
      exact absurd h.1.symm (hm a (List.mem_cons_self a m'))
  | cons c x' ih =>
    intro m t u hx hm h
    cases m with
    | nil =>
      rw [List.cons_append, List.nil_append, List.cons_prefix_cons] at h
      exact absurd h.1 (hx c (List.mem_cons_self c x'))
    | cons a m' =>
      rw [List.cons_append, List.cons_append, List.cons_prefix_cons] at h
      obtain ⟨h1, h2⟩ := h
      obtain ⟨he, ht⟩ := ih m' t u (fun d hd => hx d (List.mem_cons_of_mem c hd))
        (fun d hd => hm d (List.mem_cons_of_mem a hd)) h2
      exact ⟨by rw [h1, he], ht⟩

theorem strFind_cons_skip {c : Char} {s pat : List Char} (h : ¬ pat <+: (c :: s)) :
    strFind (c :: s) pat = (strFind s pat).map (· + 1) := by
  simp only [strFind]
  rw [if_neg (fun ht => h (List.isPrefixOf_iff_prefix.mp ht))]

theorem strFind_self_append (pat suf : List Char) (hne : pat ≠ []) :
    strFind (pat ++ suf) pat = some 0 := by
  obtain ⟨c, r, he⟩ := List.exists_cons_of_ne_nil hne
  rw [he, List.cons_append]
  simp only [strFind]
  rw [if_pos (List.isPrefixOf_iff_prefix.mpr (by
    rw [← List.cons_append, ← he]
    exact List.prefix_append pat suf))]

theorem strFind_skip_nq {pat' : List Char} :
    ∀ (pre : List Char), (∀ c ∈ pre, c ≠ '"') → ∀ (s : List Char),
      strFind (pre ++ s) ('"' :: pat') = (strFind s ('"' :: pat')).map (· + pre.length) := by
  intro pre
  induction pre with
  | nil =>
    intro _ s
    rw [List.nil_append, List.length_nil]
    cases strFind s ('"' :: pat') with
    | none => rfl
    | some p => simp
  | cons c pre ih =>
    intro h s
    rw [List.cons_append,
      strFind_cons_skip (not_prefix_head (Ne.symm (h c (List.mem_cons_self c pre)))),
      ih (fun d hd => h d (List.mem_cons_of_mem c hd)) s, List.length_cons]
    cases strFind s ('"' :: pat') with
    | none => rfl
    | some p =>
      simp only [Option.map_some']
      rfl

theorem strFind_skip_qseg {key key' r : List Char} {k0 d : Char}
    (hkey : key = k0 :: key') (hd : d ≠ k0) (hdq : d ≠ '"') (hr : ∀ c ∈ r, c ≠ '"')
    (s : List Char) :
    strFind (('"' :: d :: r) ++ s) ('"' :: (key ++ ['"', ':'])) =
      (strFind s ('"' :: (key ++ ['"', ':']))).map (· + (r.length + 2)) := by
  subst hkey
  simp only [List.cons_append]
  rw [strFind_cons_skip (not_prefix_second (fun he => hd he.symm)),
    strFind_cons_skip (not_prefix_head (Ne.symm hdq)), strFind_skip_nq r hr s]
  cases strFind s ('"' :: k0 :: (key' ++ ['"', ':'])) with
  | none => rfl
  | some p =>
    simp only [Option.map_some']
    rfl

theorem strFind_skip_quoted {key key' M : List Char} {k0 : Char}
    (hkey : key = k0 :: key') (hk0 : k0 ≠ ',') (hkq : ∀ c ∈ key, c ≠ '"')
    (hM : ∀ c ∈ M, c ≠ '"') (s' : List Char) :
    strFind (('"' :: (M ++ ['"'])) ++ (',' :: s')) ('"' :: (key ++ ['"', ':'])) =
      (strFind (',' :: s') ('"' :: (key ++ ['"', ':']))).map (· + (M.length + 2)) := by
  subst hkey
  rw [List.cons_append]
  rw [strFind_cons_skip (fun hp => by
    rw [List.cons_prefix_cons] at hp
    have h2 := hp.2
    rw [List.append_assoc, List.singleton_append] at h2
    obtain ⟨_, ht⟩ := prefix_quote_cancel (k0 :: key') M [':'] (',' :: s') hkq hM h2
    exact absurd (List.cons_prefix_cons.mp ht).1 (by decide))]
  rw [List.append_assoc, List.singleton_append, strFind_skip_nq M hM ('"' :: ',' :: s')]
  rw [strFind_cons_skip (by
    simp only [List.cons_append]
    exact not_prefix_second hk0)]
  cases strFind (',' :: s') ('"' :: ((k0 :: key') ++ ['"', ':'])) with
  | none => rfl
  | some p =>
    simp only [Option.map_some']
    congr 1
    omega

/-! ### Token scanning helpers -/

theorem takeWhile_append_stop {p : Char → Bool} :
    ∀ (a : List Char) {c : Char} (s : List Char), (∀ x ∈ a, p x = true) → p c = false →
      (a ++ c :: s).takeWhile p = a := by
  intro a
  induction a with
  | nil =>
    intro c s _ hc
    rw [List.nil_append]
    exact List.takeWhile_cons_of_neg (by simp [hc])
  | cons x a ih =>
    intro c s ha hc
    rw [List.cons_append, List.takeWhile_cons_of_pos (by simp [ha x (List.mem_cons_self x a)]),
      ih s (fun y hy => ha y (List.mem_cons_of_mem x hy)) hc]

theorem dropWhile_all_false {p : Char → Bool} {l : List Char}
    (h : ∀ c ∈ l, p c = false) : l.dropWhile p = l := by
  cases l with
  | nil => rfl
  | cons c r => exact List.dropWhile_cons_of_neg (by simp [h c (List.mem_cons_self c r)])

theorem trimChars_eq_self {l : List Char} (h : ∀ c ∈ l, isTrimSpace c = false) :
    trimChars l = l := by
  rw [trimChars, dropWhile_all_false h,
    dropWhile_all_false (fun c hc => h c (List.mem_reverse.mp hc)), List.reverse_reverse]

theorem trimChars_space_cons {l : List Char} (h : ∀ c ∈ l, isTrimSpace c = false) :
    trimChars (' ' :: l) = l := by
  rw [trimChars, List.dropWhile_cons_of_pos (by decide), dropWhile_all_false h,
    dropWhile_all_false (fun c hc => h c (List.mem_reverse.mp hc)), List.reverse_reverse]

theorem head_take_ne {c d : Char} {l t : List Char} {n : ℕ} (hn : n ≠ 0) (h : c ≠ d) :
    (c :: l).take n ≠ d :: t := by
  intro he
  obtain ⟨m, rfl⟩ : ∃ m, n = m + 1 := ⟨n - 1, by omega⟩
  rw [List.take_succ_cons] at he
  injection he with h1 _
  exact h h1

theorem bracketSlice_skip :
    ∀ (W : List Char), (∀ c ∈ W, c ≠ '[' ∧ c ≠ ']') →
      ∀ (s : List Char) (d : ℕ), bracketSlice (W ++ s) d = W ++ bracketSlice s d := by
  intro W
  induction W with
  | nil =>
    intro _ s d
    rw [List.nil_append, List.nil_append]
  | cons c W ih =>
    intro hW s d
    rw [List.cons_append]
    simp only [bracketSlice]
    rw [if_neg (hW c (List.mem_cons_self c W)).1, if_neg (hW c (List.mem_cons_self c W)).2,
      ih (fun x hx => hW x (List.mem_cons_of_mem c hx)) s d, List.cons_append]

/-! ### Evaluating findValue at a located key -/

theorem strFind_here (key suf : List Char) :
    strFind ('"' :: (key ++ ('"' :: ':' :: suf))) ('"' :: (key ++ ['"', ':'])) = some 0 := by
  have hp : key ++ ['"', ':'] <+: key ++ ('"' :: ':' :: suf) :=
    (List.prefix_append_right_inj key).mpr
      (List.cons_prefix_cons.mpr ⟨rfl, List.cons_prefix_cons.mpr ⟨rfl, List.nil_prefix⟩⟩)
  simp only [strFind]
  rw [if_pos (List.isPrefixOf_iff_prefix.mpr (List.cons_prefix_cons.mpr ⟨rfl, hp⟩))]

theorem findValue_eq_branch {json key pre suf : List Char}
    (hj : json = pre ++ (('"' :: (key ++ ['"', ':'])) ++ suf))
    (hfind : strFind json ('"' :: (key ++ ['"', ':'])) = some pre.length) :
    findValue json key =
      match suf.dropWhile isSpaceC with
      | [] => .ok []
      | c :: r2 =>
        if c = '"' then
          if '"' ∈ r2 then .ok (r2.takeWhile (fun d => d != '"'))
          else .error "Malformed string value"
        else if c = '[' then .ok (bracketSlice (c :: r2) 0)
        else if (c :: r2).take 4 = "true".toList then .ok ("true".toList)
        else if (c :: r2).take 5 = "false".toList then .ok ("false".toList)
        else .ok ((c :: r2).takeWhile isNumChar) := by
  have hdrop : json.drop (pre.length + ('"' :: (key ++ ['"', ':'])).length) = suf := by
    rw [hj, ← List.append_assoc, ← List.length_append, List.drop_left]
  simp only [findValue, hfind, hdrop]
  cases suf.dropWhile isSpaceC with
  | nil => rfl
  | cons c r2 => rfl

theorem findValue_num {json key pre t : List Char} (v : ℝ)
    (hj : json = pre ++ (('"' :: (key ++ ['"', ':'])) ++ (' ' :: (renderFixed8 v ++ ',' :: t))))
    (hfind : strFind json ('"' :: (key ++ ['"', ':'])) = some pre.length) :
    findValue json key = .ok (renderFixed8 v) := by
  rw [findValue_eq_branch hj hfind]
  obtain ⟨c, l, he, hc⟩ := renderFixed8_head v
  obtain ⟨hsp, hquo, hbr, hlt, hlf⟩ := numHead_facts hc
  have hsw : (' ' :: (renderFixed8 v ++ ',' :: t)).dropWhile isSpaceC =
      c :: (l ++ ',' :: t) := by
    rw [List.dropWhile_cons_of_pos (by decide), he, List.cons_append,
      List.dropWhile_cons_of_neg (by simp [hsp])]
  simp only [hsw]
  rw [if_neg hquo, if_neg hbr,
    if_neg (by
      rw [show ("true".toList : List Char) = 't' :: "rue".toList from rfl]
      exact head_take_ne (by omega) hlt),
    if_neg (by
      rw [show ("false".toList : List Char) = 'f' :: "alse".toList from rfl]
      exact head_take_ne (by omega) hlf),
    ← List.cons_append, ← he,
    takeWhile_append_stop (renderFixed8 v) t
      (fun x hx => (renderFixed8_facts v x hx).2.2.2.2.2) (by decide)]

theorem findValue_true {json key pre t : List Char}
    (hj : json = pre ++ (('"' :: (key ++ ['"', ':'])) ++ (' ' :: ("true".toList ++ ',' :: t))))
    (hfind : strFind json ('"' :: (key ++ ['"', ':'])) = some pre.length) :
    findValue json key = .ok ("true".toList) := by
  rw [findValue_eq_branch hj hfind]
  have hsw : (' ' :: ("true".toList ++ ',' :: t)).dropWhile isSpaceC =
      't' :: ("rue".toList ++ ',' :: t) := by
    rw [show ("true".toList : List Char) = 't' :: "rue".toList from rfl, List.cons_append,
      List.dropWhile_cons_of_pos (by decide), List.dropWhile_cons_of_neg (by decide)]
  simp only [hsw]
  rw [if_neg (by decide), if_neg (by decide), if_pos (by rfl)]

theorem findValue_false {json key pre t : List Char}
    (hj : json = pre ++ (('"' :: (key ++ ['"', ':'])) ++ (' ' :: ("false".toList ++ ',' :: t))))
    (hfind : strFind json ('"' :: (key ++ ['"', ':'])) = some pre.length) :
    findValue json key = .ok ("false".toList) := by
  rw [findValue_eq_branch hj hfind]
  have hsw : (' ' :: ("false".toList ++ ',' :: t)).dropWhile isSpaceC =
      'f' :: ("alse".toList ++ ',' :: t) := by
    rw [show ("false".toList : List Char) = 'f' :: "alse".toList from rfl, List.cons_append,
      List.dropWhile_cons_of_pos (by decide), List.dropWhile_cons_of_neg (by decide)]
  simp only [hsw]
  rw [if_neg (by decide), if_neg (by decide),
    if_neg (by
      rw [show ("true".toList : List Char) = 't' :: "rue".toList from rfl]
      exact head_take_ne (by omega) (by decide)),
    if_pos (by rfl)]

theorem findValue_string {json key pre M t : List Char}
    (hM : ∀ c ∈ M, c ≠ '"')
    (hj : json = pre ++ (('"' :: (key ++ ['"', ':'])) ++ (' ' :: '"' :: (M ++ '"' :: t))))
    (hfind : strFind json ('"' :: (key ++ ['"', ':'])) = some pre.length) :
    findValue json key = .ok M := by
  rw [findValue_eq_branch hj hfind]
  have hsw : (' ' :: '"' :: (M ++ '"' :: t)).dropWhile isSpaceC = '"' :: (M ++ '"' :: t) := by
    rw [List.dropWhile_cons_of_pos (by decide), List.dropWhile_cons_of_neg (by decide)]
  simp only [hsw]
  rw [if_pos trivial, if_pos (List.mem_append.mpr (Or.inr (List.mem_cons_self '"' t)))]
  congr 1
  exact takeWhile_append_stop M t (fun x hx => bne_iff_ne.mpr (hM x hx)) (by decide)

theorem findValue_array {json key pre W t : List Char}
    (hW : ∀ c ∈ W, c ≠ '[' ∧ c ≠ ']')
    (hj : json = pre ++ (('"' :: (key ++ ['"', ':'])) ++ (' ' :: '[' :: (W ++ ']' :: t))))
    (hfind : strFind json ('"' :: (key ++ ['"', ':'])) = some pre.length) :
    findValue json key = .ok ('[' :: (W ++ [']'])) := by
  rw [findValue_eq_branch hj hfind]
  have hsw : (' ' :: '[' :: (W ++ ']' :: t)).dropWhile isSpaceC = '[' :: (W ++ ']' :: t) := by
    rw [List.dropWhile_cons_of_pos (by decide), List.dropWhile_cons_of_neg (by decide)]
  simp only [hsw]
  rw [if_neg (by decide), if_pos trivial]
  congr 1
  simp only [bracketSlice]
  rw [if_pos trivial, Nat.zero_add, bracketSlice_skip W hW (']' :: t) 1]
  simp only [bracketSlice]
  rw [if_neg (by decide), if_pos trivial, if_pos trivial]

/-! ### Locating each key in the rendered JSON -/

theorem ne_quote_of_mem_of_not_mem {c : Char} {l : List Char} (hc : c ∈ l) (h : '"' ∉ l) :
    c ≠ '"' :=
  fun he => h (he ▸ hc)

theorem segA_eq : ("\x7b\n  \"converged\": " : String).toList =
    '\x7b' :: '\n' :: ' ' :: ' ' :: '"' :: 'c' :: 'o' :: 'n' :: 'v' :: 'e' :: 'r' :: 'g' :: 'e' :: 'd' :: '"' :: ':' :: ' ' :: [] := rfl

theorem segC_eq : (",\n  \"message\": \"" : String).toList =
    ',' :: '\n' :: ' ' :: ' ' :: '"' :: 'm' :: 'e' :: 's' :: 's' :: 'a' :: 'g' :: 'e' :: '"' :: ':' :: ' ' :: '"' :: [] := rfl

theorem segD_eq : ("\",\n  \"expectedReturn\": " : String).toList =
    '"' :: ',' :: '\n' :: ' ' :: ' ' :: '"' :: 'e' :: 'x' :: 'p' :: 'e' :: 'c' :: 't' :: 'e' :: 'd' :: 'R' :: 'e' :: 't' :: 'u' :: 'r' :: 'n' :: '"' :: ':' :: ' ' :: [] := rfl

theorem segF_eq : (",\n  \"risk\": " : String).toList =
    ',' :: '\n' :: ' ' :: ' ' :: '"' :: 'r' :: 'i' :: 's' :: 'k' :: '"' :: ':' :: ' ' :: [] := rfl

theorem segG_eq : (",\n  \"sharpeRatio\": " : String).toList =
    ',' :: '\n' :: ' ' :: ' ' :: '"' :: 's' :: 'h' :: 'a' :: 'r' :: 'p' :: 'e' :: 'R' :: 'a' :: 't' :: 'i' :: 'o' :: '"' :: ':' :: ' ' :: [] := rfl

theorem segH_eq : (",\n  \"weights\": [" : String).toList =
    ',' :: '\n' :: ' ' :: ' ' :: '"' :: 'w' :: 'e' :: 'i' :: 'g' :: 'h' :: 't' :: 's' :: '"' :: ':' :: ' ' :: '[' :: [] := rfl

theorem segI_eq : ("]\n\x7d" : String).toList = ']' :: '\n' :: '\x7d' :: [] := rfl

theorem keyConv_eq : ("converged" : String).toList =
    'c' :: 'o' :: 'n' :: 'v' :: 'e' :: 'r' :: 'g' :: 'e' :: 'd' :: [] := rfl

theorem keyMsg_eq : ("message" : String).toList =
    'm' :: 'e' :: 's' :: 's' :: 'a' :: 'g' :: 'e' :: [] := rfl

theorem keyER_eq : ("expectedReturn" : String).toList =
    'e' :: 'x' :: 'p' :: 'e' :: 'c' :: 't' :: 'e' :: 'd' :: 'R' :: 'e' :: 't' :: 'u' :: 'r' :: 'n' :: [] := rfl

theorem keyRisk_eq : ("risk" : String).toList = 'r' :: 'i' :: 's' :: 'k' :: [] := rfl

theorem keySR_eq : ("sharpeRatio" : String).toList =
    's' :: 'h' :: 'a' :: 'r' :: 'p' :: 'e' :: 'R' :: 'a' :: 't' :: 'i' :: 'o' :: [] := rfl

theorem keyW_eq : ("weights" : String).toList =
    'w' :: 'e' :: 'i' :: 'g' :: 'h' :: 't' :: 's' :: [] := rfl

theorem trueL_eq : ("true" : String).toList = 't' :: 'r' :: 'u' :: 'e' :: [] := rfl

theorem falseL_eq : ("false" : String).toList = 'f' :: 'a' :: 'l' :: 's' :: 'e' :: [] := rfl

theorem findValue_conv (r : MarkowitzResult) :
    findValue (MarkowitzResult.toJSONChars r) (("converged" : String).toList) =
      .ok (if r.converged then ("true" : String).toList else ("false" : String).toList) := by
  have hjc : MarkowitzResult.toJSONChars r = '\x7b' :: '\n' :: ' ' :: ' ' :: ('"' :: (("converged" : String).toList ++ ('"' :: ':' :: ' ' :: ((if r.converged then ("true" : String).toList else ("false" : String).toList) ++ (',' :: '\n' :: ' ' :: ' ' :: '"' :: 'm' :: 'e' :: 's' :: 's' :: 'a' :: 'g' :: 'e' :: '"' :: ':' :: ' ' :: '"' :: (r.message.toList ++ ('"' :: (',' :: '\n' :: ' ' :: ' ' :: '"' :: 'e' :: 'x' :: 'p' :: 'e' :: 'c' :: 't' :: 'e' :: 'd' :: 'R' :: 'e' :: 't' :: 'u' :: 'r' :: 'n' :: '"' :: ':' :: ' ' :: (renderFixed8 r.expectedReturn ++ (',' :: '\n' :: ' ' :: ' ' :: '"' :: 'r' :: 'i' :: 's' :: 'k' :: '"' :: ':' :: ' ' :: (renderFixed8 r.risk ++ (',' :: '\n' :: ' ' :: ' ' :: '"' :: 's' :: 'h' :: 'a' :: 'r' :: 'p' :: 'e' :: 'R' :: 'a' :: 't' :: 'i' :: 'o' :: '"' :: ':' :: ' ' :: (renderFixed8 r.sharpeRatio ++ (',' :: '\n' :: ' ' :: ' ' :: '"' :: 'w' :: 'e' :: 'i' :: 'g' :: 'h' :: 't' :: 's' :: '"' :: ':' :: ' ' :: '[' :: (weightsChars r.weights ++ (']' :: '\n' :: '\x7d' :: [])))))))))))))))) := by
    simp only [MarkowitzResult.toJSONChars, segA_eq, segC_eq, segD_eq, segF_eq, segG_eq, segH_eq, segI_eq, keyConv_eq, keyMsg_eq, keyER_eq, keyRisk_eq, keySR_eq, keyW_eq, trueL_eq, falseL_eq, List.cons_append, List.append_assoc, List.nil_append]
  have hfind : strFind (MarkowitzResult.toJSONChars r)
      ('"' :: (("converged" : String).toList ++ ['"', ':'])) = some (('\x7b' :: '\n' :: ' ' :: ' ' :: ([] : List Char)).length) := by
    rw [hjc, strFind_cons_skip (not_prefix_head (by decide)),
      strFind_cons_skip (not_prefix_head (by decide)),
      strFind_cons_skip (not_prefix_head (by decide)),
      strFind_cons_skip (not_prefix_head (by decide)),
      strFind_here]
    rfl
  cases hcv : r.converged with
  | true =>
    rw [if_pos rfl]
    have hj : MarkowitzResult.toJSONChars r = '\x7b' :: '\n' :: ' ' :: ' ' :: ([] : List Char) ++ (('"' :: (("converged" : String).toList ++ ['"', ':'])) ++ (' ' :: (("true" : String).toList ++ (',' :: '\n' :: ' ' :: ' ' :: '"' :: 'm' :: 'e' :: 's' :: 's' :: 'a' :: 'g' :: 'e' :: '"' :: ':' :: ' ' :: '"' :: (r.message.toList ++ ('"' :: (',' :: '\n' :: ' ' :: ' ' :: '"' :: 'e' :: 'x' :: 'p' :: 'e' :: 'c' :: 't' :: 'e' :: 'd' :: 'R' :: 'e' :: 't' :: 'u' :: 'r' :: 'n' :: '"' :: ':' :: ' ' :: (renderFixed8 r.expectedReturn ++ (',' :: '\n' :: ' ' :: ' ' :: '"' :: 'r' :: 'i' :: 's' :: 'k' :: '"' :: ':' :: ' ' :: (renderFixed8 r.risk ++ (',' :: '\n' :: ' ' :: ' ' :: '"' :: 's' :: 'h' :: 'a' :: 'r' :: 'p' :: 'e' :: 'R' :: 'a' :: 't' :: 'i' :: 'o' :: '"' :: ':' :: ' ' :: (renderFixed8 r.sharpeRatio ++ (',' :: '\n' :: ' ' :: ' ' :: '"' :: 'w' :: 'e' :: 'i' :: 'g' :: 'h' :: 't' :: 's' :: '"' :: ':' :: ' ' :: '[' :: (weightsChars r.weights ++ (']' :: '\n' :: '\x7d' :: []))))))))))))))) := by
      simp only [MarkowitzResult.toJSONChars, segA_eq, segC_eq, segD_eq, segF_eq, segG_eq, segH_eq, segI_eq, keyConv_eq, keyMsg_eq, keyER_eq, keyRisk_eq, keySR_eq, keyW_eq, trueL_eq, falseL_eq, List.cons_append, List.append_assoc, List.nil_append, hcv, eq_self_iff_true, if_true]
    exact findValue_true hj hfind
  | false =>
    rw [if_neg (by decide)]
    have hj : MarkowitzResult.toJSONChars r = '\x7b' :: '\n' :: ' ' :: ' ' :: ([] : List Char) ++ (('"' :: (("converged" : String).toList ++ ['"', ':'])) ++ (' ' :: (("false" : String).toList ++ (',' :: '\n' :: ' ' :: ' ' :: '"' :: 'm' :: 'e' :: 's' :: 's' :: 'a' :: 'g' :: 'e' :: '"' :: ':' :: ' ' :: '"' :: (r.message.toList ++ ('"' :: (',' :: '\n' :: ' ' :: ' ' :: '"' :: 'e' :: 'x' :: 'p' :: 'e' :: 'c' :: 't' :: 'e' :: 'd' :: 'R' :: 'e' :: 't' :: 'u' :: 'r' :: 'n' :: '"' :: ':' :: ' ' :: (renderFixed8 r.expectedReturn ++ (',' :: '\n' :: ' ' :: ' ' :: '"' :: 'r' :: 'i' :: 's' :: 'k' :: '"' :: ':' :: ' ' :: (renderFixed8 r.risk ++ (',' :: '\n' :: ' ' :: ' ' :: '"' :: 's' :: 'h' :: 'a' :: 'r' :: 'p' :: 'e' :: 'R' :: 'a' :: 't' :: 'i' :: 'o' :: '"' :: ':' :: ' ' :: (renderFixed8 r.sharpeRatio ++ (',' :: '\n' :: ' ' :: ' ' :: '"' :: 'w' :: 'e' :: 'i' :: 'g' :: 'h' :: 't' :: 's' :: '"' :: ':' :: ' ' :: '[' :: (weightsChars r.weights ++ (']' :: '\n' :: '\x7d' :: []))))))))))))))) := by
      simp only [MarkowitzResult.toJSONChars, segA_eq, segC_eq, segD_eq, segF_eq, segG_eq, segH_eq, segI_eq, keyConv_eq, keyMsg_eq, keyER_eq, keyRisk_eq, keySR_eq, keyW_eq, trueL_eq, falseL_eq, List.cons_append, List.append_assoc, List.nil_append, hcv, Bool.false_eq_true, if_false]
    exact findValue_false hj hfind

theorem findValue_msg (r : MarkowitzResult) (hq : ∀ c ∈ r.message.toList, c ≠ '"') :
    findValue (MarkowitzResult.toJSONChars r) (("message" : String).toList) =
      .ok (r.message.toList) := by
  have hBnq : ∀ c ∈ ' ' :: ((if r.converged then ("true" : String).toList else ("false" : String).toList) ++ (',' :: '\n' :: ' ' :: ' ' :: [])), c ≠ '"' := by
    have hBq : '"' ∉ (if r.converged then ("true" : String).toList else ("false" : String).toList) := by
      cases r.converged <;> decide
    intro c hc
    rcases List.mem_cons.mp hc with h | h
    · subst h
      decide
    · rcases List.mem_append.mp h with h2 | h2
      · exact ne_quote_of_mem_of_not_mem h2 hBq
      · exact ne_quote_of_mem_of_not_mem h2 (by decide)
  have hjc : MarkowitzResult.toJSONChars r = '\x7b' :: '\n' :: ' ' :: ' ' :: (('"' :: 'c' :: 'o' :: 'n' :: 'v' :: 'e' :: 'r' :: 'g' :: 'e' :: 'd' :: []) ++ (('"' :: ':' :: ' ' :: ((if r.converged then ("true" : String).toList else ("false" : String).toList) ++ (',' :: '\n' :: ' ' :: ' ' :: []))) ++ ('"' :: (("message" : String).toList ++ ('"' :: ':' :: ' ' :: '"' :: (r.message.toList ++ ('"' :: (',' :: '\n' :: ' ' :: ' ' :: '"' :: 'e' :: 'x' :: 'p' :: 'e' :: 'c' :: 't' :: 'e' :: 'd' :: 'R' :: 'e' :: 't' :: 'u' :: 'r' :: 'n' :: '"' :: ':' :: ' ' :: (renderFixed8 r.expectedReturn ++ (',' :: '\n' :: ' ' :: ' ' :: '"' :: 'r' :: 'i' :: 's' :: 'k' :: '"' :: ':' :: ' ' :: (renderFixed8 r.risk ++ (',' :: '\n' :: ' ' :: ' ' :: '"' :: 's' :: 'h' :: 'a' :: 'r' :: 'p' :: 'e' :: 'R' :: 'a' :: 't' :: 'i' :: 'o' :: '"' :: ':' :: ' ' :: (renderFixed8 r.sharpeRatio ++ (',' :: '\n' :: ' ' :: ' ' :: '"' :: 'w' :: 'e' :: 'i' :: 'g' :: 'h' :: 't' :: 's' :: '"' :: ':' :: ' ' :: '[' :: (weightsChars r.weights ++ (']' :: '\n' :: '\x7d' :: [])))))))))))))))) := by
    simp only [MarkowitzResult.toJSONChars, segA_eq, segC_eq, segD_eq, segF_eq, segG_eq, segH_eq, segI_eq, keyConv_eq, keyMsg_eq, keyER_eq, keyRisk_eq, keySR_eq, keyW_eq, trueL_eq, falseL_eq, List.cons_append, List.append_assoc, List.nil_append]
  have hfind : strFind (MarkowitzResult.toJSONChars r)
      ('"' :: (("message" : String).toList ++ ['"', ':'])) = some (('\x7b' :: '\n' :: ' ' :: ' ' :: '"' :: 'c' :: 'o' :: 'n' :: 'v' :: 'e' :: 'r' :: 'g' :: 'e' :: 'd' :: '"' :: ':' :: ' ' :: ((if r.converged then ("true" : String).toList else ("false" : String).toList) ++ ',' :: '\n' :: ' ' :: ' ' :: [])).length) := by
    rw [hjc, strFind_cons_skip (not_prefix_head (by decide)),
      strFind_cons_skip (not_prefix_head (by decide)),
      strFind_cons_skip (not_prefix_head (by decide)),
      strFind_cons_skip (not_prefix_head (by decide)),
      strFind_skip_qseg keyMsg_eq (by decide) (by decide) (by decide),
      strFind_skip_qseg keyMsg_eq (by decide) (by decide) hBnq,
      strFind_here]
    simp only [Option.map_some']
    refine congrArg some ?_
    simp only [List.length_cons, List.length_append, List.length_nil]
    omega
  have hj : MarkowitzResult.toJSONChars r = '\x7b' :: '\n' :: ' ' :: ' ' :: '"' :: 'c' :: 'o' :: 'n' :: 'v' :: 'e' :: 'r' :: 'g' :: 'e' :: 'd' :: '"' :: ':' :: ' ' :: ((if r.converged then ("true" : String).toList else ("false" : String).toList) ++ ',' :: '\n' :: ' ' :: ' ' :: []) ++ (('"' :: (("message" : String).toList ++ ['"', ':'])) ++ ' ' :: '"' :: (r.message.toList ++ ('"' :: (',' :: '\n' :: ' ' :: ' ' :: '"' :: 'e' :: 'x' :: 'p' :: 'e' :: 'c' :: 't' :: 'e' :: 'd' :: 'R' :: 'e' :: 't' :: 'u' :: 'r' :: 'n' :: '"' :: ':' :: ' ' :: (renderFixed8 r.expectedReturn ++ (',' :: '\n' :: ' ' :: ' ' :: '"' :: 'r' :: 'i' :: 's' :: 'k' :: '"' :: ':' :: ' ' :: (renderFixed8 r.risk ++ (',' :: '\n' :: ' ' :: ' ' :: '"' :: 's' :: 'h' :: 'a' :: 'r' :: 'p' :: 'e' :: 'R' :: 'a' :: 't' :: 'i' :: 'o' :: '"' :: ':' :: ' ' :: (renderFixed8 r.sharpeRatio ++ (',' :: '\n' :: ' ' :: ' ' :: '"' :: 'w' :: 'e' :: 'i' :: 'g' :: 'h' :: 't' :: 's' :: '"' :: ':' :: ' ' :: '[' :: (weightsChars r.weights ++ (']' :: '\n' :: '\x7d' :: [])))))))))))) := by
    simp only [MarkowitzResult.toJSONChars, segA_eq, segC_eq, segD_eq, segF_eq, segG_eq, segH_eq, segI_eq, keyConv_eq, keyMsg_eq, keyER_eq, keyRisk_eq, keySR_eq, keyW_eq, trueL_eq, falseL_eq, List.cons_append, List.append_assoc, List.nil_append]
  exact findValue_string hq hj hfind

theorem findValue_er (r : MarkowitzResult) (hq : ∀ c ∈ r.message.toList, c ≠ '"') :
    findValue (MarkowitzResult.toJSONChars r) (("expectedReturn" : String).toList) =
      .ok (renderFixed8 r.expectedReturn) := by
  have hBnq : ∀ c ∈ ' ' :: ((if r.converged then ("true" : String).toList else ("false" : String).toList) ++ (',' :: '\n' :: ' ' :: ' ' :: [])), c ≠ '"' := by
    have hBq : '"' ∉ (if r.converged then ("true" : String).toList else ("false" : String).toList) := by
      cases r.converged <;> decide
    intro c hc
    rcases List.mem_cons.mp hc with h | h
    · subst h
      decide
    · rcases List.mem_append.mp h with h2 | h2
      · exact ne_quote_of_mem_of_not_mem h2 hBq
      · exact ne_quote_of_mem_of_not_mem h2 (by decide)
  have hjc : MarkowitzResult.toJSONChars r = '\x7b' :: '\n' :: ' ' :: ' ' :: (('"' :: 'c' :: 'o' :: 'n' :: 'v' :: 'e' :: 'r' :: 'g' :: 'e' :: 'd' :: []) ++ (('"' :: ':' :: ' ' :: ((if r.converged then ("true" : String).toList else ("false" : String).toList) ++ (',' :: '\n' :: ' ' :: ' ' :: []))) ++ (('"' :: 'm' :: 'e' :: 's' :: 's' :: 'a' :: 'g' :: 'e' :: []) ++ (('"' :: ':' :: ' ' :: []) ++ (('"' :: (r.message.toList ++ ['"'])) ++ (',' :: '\n' :: ' ' :: ' ' :: ('"' :: (("expectedReturn" : String).toList ++ ('"' :: ':' :: ' ' :: (renderFixed8 r.expectedReturn ++ (',' :: '\n' :: ' ' :: ' ' :: '"' :: 'r' :: 'i' :: 's' :: 'k' :: '"' :: ':' :: ' ' :: (renderFixed8 r.risk ++ (',' :: '\n' :: ' ' :: ' ' :: '"' :: 's' :: 'h' :: 'a' :: 'r' :: 'p' :: 'e' :: 'R' :: 'a' :: 't' :: 'i' :: 'o' :: '"' :: ':' :: ' ' :: (renderFixed8 r.sharpeRatio ++ (',' :: '\n' :: ' ' :: ' ' :: '"' :: 'w' :: 'e' :: 'i' :: 'g' :: 'h' :: 't' :: 's' :: '"' :: ':' :: ' ' :: '[' :: (weightsChars r.weights ++ (']' :: '\n' :: '\x7d' :: []))))))))))))))))) := by
    simp only [MarkowitzResult.toJSONChars, segA_eq, segC_eq, segD_eq, segF_eq, segG_eq, segH_eq, segI_eq, keyConv_eq, keyMsg_eq, keyER_eq, keyRisk_eq, keySR_eq, keyW_eq, trueL_eq, falseL_eq, List.cons_append, List.append_assoc, List.nil_append]
  have hfind : strFind (MarkowitzResult.toJSONChars r)
      ('"' :: (("expectedReturn" : String).toList ++ ['"', ':'])) = some (('\x7b' :: '\n' :: ' ' :: ' ' :: '"' :: 'c' :: 'o' :: 'n' :: 'v' :: 'e' :: 'r' :: 'g' :: 'e' :: 'd' :: '"' :: ':' :: ' ' :: ((if r.converged then ("true" : String).toList else ("false" : String).toList) ++ ',' :: '\n' :: ' ' :: ' ' :: '"' :: 'm' :: 'e' :: 's' :: 's' :: 'a' :: 'g' :: 'e' :: '"' :: ':' :: ' ' :: '"' :: (r.message.toList ++ '"' :: ',' :: '\n' :: ' ' :: ' ' :: []))).length) := by
    rw [hjc, strFind_cons_skip (not_prefix_head (by decide)),
      strFind_cons_skip (not_prefix_head (by decide)),
      strFind_cons_skip (not_prefix_head (by decide)),
      strFind_cons_skip (not_prefix_head (by decide)),
      strFind_skip_qseg keyER_eq (by decide) (by decide) (by decide),
      strFind_skip_qseg keyER_eq (by decide) (by decide) hBnq,
      strFind_skip_qseg keyER_eq (by decide) (by decide) (by decide),
      strFind_skip_qseg keyER_eq (by decide) (by decide) (by decide),
      strFind_skip_quoted keyER_eq (by decide) (by decide) hq,
      strFind_cons_skip (not_prefix_head (by decide)),
      strFind_cons_skip (not_prefix_head (by decide)),
      strFind_cons_skip (not_prefix_head (by decide)),
      strFind_cons_skip (not_prefix_head (by decide)),
      strFind_here]
    simp only [Option.map_some']
    refine congrArg some ?_
    simp only [List.length_cons, List.length_append, List.length_nil]
    omega
  have hj : MarkowitzResult.toJSONChars r = '\x7b' :: '\n' :: ' ' :: ' ' :: '"' :: 'c' :: 'o' :: 'n' :: 'v' :: 'e' :: 'r' :: 'g' :: 'e' :: 'd' :: '"' :: ':' :: ' ' :: ((if r.converged then ("true" : String).toList else ("false" : String).toList) ++ ',' :: '\n' :: ' ' :: ' ' :: '"' :: 'm' :: 'e' :: 's' :: 's' :: 'a' :: 'g' :: 'e' :: '"' :: ':' :: ' ' :: '"' :: (r.message.toList ++ '"' :: ',' :: '\n' :: ' ' :: ' ' :: [])) ++ (('"' :: (("expectedReturn" : String).toList ++ ['"', ':'])) ++ ' ' :: (renderFixed8 r.expectedReturn ++ (',' :: '\n' :: ' ' :: ' ' :: '"' :: 'r' :: 'i' :: 's' :: 'k' :: '"' :: ':' :: ' ' :: (renderFixed8 r.risk ++ (',' :: '\n' :: ' ' :: ' ' :: '"' :: 's' :: 'h' :: 'a' :: 'r' :: 'p' :: 'e' :: 'R' :: 'a' :: 't' :: 'i' :: 'o' :: '"' :: ':' :: ' ' :: (renderFixed8 r.sharpeRatio ++ (',' :: '\n' :: ' ' :: ' ' :: '"' :: 'w' :: 'e' :: 'i' :: 'g' :: 'h' :: 't' :: 's' :: '"' :: ':' :: ' ' :: '[' :: (weightsChars r.weights ++ (']' :: '\n' :: '\x7d' :: []))))))))) := by
    simp only [MarkowitzResult.toJSONChars, segA_eq, segC_eq, segD_eq, segF_eq, segG_eq, segH_eq, segI_eq, keyConv_eq, keyMsg_eq, keyER_eq, keyRisk_eq, keySR_eq, keyW_eq, trueL_eq, falseL_eq, List.cons_append, List.append_assoc, List.nil_append]
  exact findValue_num _ hj hfind

theorem findValue_risk (r : MarkowitzResult) (hq : ∀ c ∈ r.message.toList, c ≠ '"') :
    findValue (MarkowitzResult.toJSONChars r) (("risk" : String).toList) =
      .ok (renderFixed8 r.risk) := by
  have hBnq : ∀ c ∈ ' ' :: ((if r.converged then ("true" : String).toList else ("false" : String).toList) ++ (',' :: '\n' :: ' ' :: ' ' :: [])), c ≠ '"' := by
    have hBq : '"' ∉ (if r.converged then ("true" : String).toList else ("false" : String).toList) := by
      cases r.converged <;> decide
    intro c hc
    rcases List.mem_cons.mp hc with h | h
    · subst h
      decide
    · rcases List.mem_append.mp h with h2 | h2
      · exact ne_quote_of_mem_of_not_mem h2 hBq
      · exact ne_quote_of_mem_of_not_mem h2 (by decide)
  have hEnq : ∀ c ∈ renderFixed8 r.expectedReturn, c ≠ '"' :=
    fun c hc => (renderFixed8_facts r.expectedReturn c hc).1
  have hjc : MarkowitzResult.toJSONChars r = '\x7b' :: '\n' :: ' ' :: ' ' :: (('"' :: 'c' :: 'o' :: 'n' :: 'v' :: 'e' :: 'r' :: 'g' :: 'e' :: 'd' :: []) ++ (('"' :: ':' :: ' ' :: ((if r.converged then ("true" : String).toList else ("false" : String).toList) ++ (',' :: '\n' :: ' ' :: ' ' :: []))) ++ (('"' :: 'm' :: 'e' :: 's' :: 's' :: 'a' :: 'g' :: 'e' :: []) ++ (('"' :: ':' :: ' ' :: []) ++ (('"' :: (r.message.toList ++ ['"'])) ++ (',' :: '\n' :: ' ' :: ' ' :: (('"' :: 'e' :: 'x' :: 'p' :: 'e' :: 'c' :: 't' :: 'e' :: 'd' :: 'R' :: 'e' :: 't' :: 'u' :: 'r' :: 'n' :: []) ++ (('"' :: ':' :: ' ' :: []) ++ (renderFixed8 r.expectedReturn ++ (',' :: '\n' :: ' ' :: ' ' :: ('"' :: (("risk" : String).toList ++ ('"' :: ':' :: ' ' :: (renderFixed8 r.risk ++ (',' :: '\n' :: ' ' :: ' ' :: '"' :: 's' :: 'h' :: 'a' :: 'r' :: 'p' :: 'e' :: 'R' :: 'a' :: 't' :: 'i' :: 'o' :: '"' :: ':' :: ' ' :: (renderFixed8 r.sharpeRatio ++ (',' :: '\n' :: ' ' :: ' ' :: '"' :: 'w' :: 'e' :: 'i' :: 'g' :: 'h' :: 't' :: 's' :: '"' :: ':' :: ' ' :: '[' :: (weightsChars r.weights ++ (']' :: '\n' :: '\x7d' :: []))))))))))))))))))) := by
    simp only [MarkowitzResult.toJSONChars, segA_eq, segC_eq, segD_eq, segF_eq, segG_eq, segH_eq, segI_eq, keyConv_eq, keyMsg_eq, keyER_eq, keyRisk_eq, keySR_eq, keyW_eq, trueL_eq, falseL_eq, List.cons_append, List.append_assoc, List.nil_append]
  have hfind : strFind (MarkowitzResult.toJSONChars r)
      ('"' :: (("risk" : String).toList ++ ['"', ':'])) = some (('\x7b' :: '\n' :: ' ' :: ' ' :: '"' :: 'c' :: 'o' :: 'n' :: 'v' :: 'e' :: 'r' :: 'g' :: 'e' :: 'd' :: '"' :: ':' :: ' ' :: ((if r.converged then ("true" : String).toList else ("false" : String).toList) ++ ',' :: '\n' :: ' ' :: ' ' :: '"' :: 'm' :: 'e' :: 's' :: 's' :: 'a' :: 'g' :: 'e' :: '"' :: ':' :: ' ' :: '"' :: (r.message.toList ++ '"' :: ',' :: '\n' :: ' ' :: ' ' :: '"' :: 'e' :: 'x' :: 'p' :: 'e' :: 'c' :: 't' :: 'e' :: 'd' :: 'R' :: 'e' :: 't' :: 'u' :: 'r' :: 'n' :: '"' :: ':' :: ' ' :: (renderFixed8 r.expectedReturn ++ ',' :: '\n' :: ' ' :: ' ' :: [])))).length) := by
    rw [hjc, strFind_cons_skip (not_prefix_head (by decide)),
      strFind_cons_skip (not_prefix_head (by decide)),
      strFind_cons_skip (not_prefix_head (by decide)),
      strFind_cons_skip (not_prefix_head (by decide)),
      strFind_skip_qseg keyRisk_eq (by decide) (by decide) (by decide),
      strFind_skip_qseg keyRisk_eq (by decide) (by decide) hBnq,
      strFind_skip_qseg keyRisk_eq (by decide) (by decide) (by decide),
      strFind_skip_qseg keyRisk_eq (by decide) (by decide) (by decide),
      strFind_skip_quoted keyRisk_eq (by decide) (by decide) hq,
      strFind_cons_skip (not_prefix_head (by decide)),
      strFind_cons_skip (not_prefix_head (by decide)),
      strFind_cons_skip (not_prefix_head (by decide)),
      strFind_cons_skip (not_prefix_head (by decide)),
      strFind_skip_qseg keyRisk_eq (by decide) (by decide) (by decide),
      strFind_skip_qseg keyRisk_eq (by decide) (by decide) (by decide),
      strFind_skip_nq (renderFixed8 r.expectedReturn) hEnq,
      strFind_cons_skip (not_prefix_head (by decide)),
      strFind_cons_skip (not_prefix_head (by decide)),
      strFind_cons_skip (not_prefix_head (by decide)),
      strFind_cons_skip (not_prefix_head (by decide)),
      strFind_here]
    simp only [Option.map_some']
    refine congrArg some ?_
    simp only [List.length_cons, List.length_append, List.length_nil]
    omega
  have hj : MarkowitzResult.toJSONChars r = '\x7b' :: '\n' :: ' ' :: ' ' :: '"' :: 'c' :: 'o' :: 'n' :: 'v' :: 'e' :: 'r' :: 'g' :: 'e' :: 'd' :: '"' :: ':' :: ' ' :: ((if r.converged then ("true" : String).toList else ("false" : String).toList) ++ ',' :: '\n' :: ' ' :: ' ' :: '"' :: 'm' :: 'e' :: 's' :: 's' :: 'a' :: 'g' :: 'e' :: '"' :: ':' :: ' ' :: '"' :: (r.message.toList ++ '"' :: ',' :: '\n' :: ' ' :: ' ' :: '"' :: 'e' :: 'x' :: 'p' :: 'e' :: 'c' :: 't' :: 'e' :: 'd' :: 'R' :: 'e' :: 't' :: 'u' :: 'r' :: 'n' :: '"' :: ':' :: ' ' :: (renderFixed8 r.expectedReturn ++ ',' :: '\n' :: ' ' :: ' ' :: []))) ++ (('"' :: (("risk" : String).toList ++ ['"', ':'])) ++ ' ' :: (renderFixed8 r.risk ++ (',' :: '\n' :: ' ' :: ' ' :: '"' :: 's' :: 'h' :: 'a' :: 'r' :: 'p' :: 'e' :: 'R' :: 'a' :: 't' :: 'i' :: 'o' :: '"' :: ':' :: ' ' :: (renderFixed8 r.sharpeRatio ++ (',' :: '\n' :: ' ' :: ' ' :: '"' :: 'w' :: 'e' :: 'i' :: 'g' :: 'h' :: 't' :: 's' :: '"' :: ':' :: ' ' :: '[' :: (weightsChars r.weights ++ (']' :: '\n' :: '\x7d' :: []))))))) := by
    simp only [MarkowitzResult.toJSONChars, segA_eq, segC_eq, segD_eq, segF_eq, segG_eq, segH_eq, segI_eq, keyConv_eq, keyMsg_eq, keyER_eq, keyRisk_eq, keySR_eq, keyW_eq, trueL_eq, falseL_eq, List.cons_append, List.append_assoc, List.nil_append]
  exact findValue_num _ hj hfind

theorem findValue_sr (r : MarkowitzResult) (hq : ∀ c ∈ r.message.toList, c ≠ '"') :
    findValue (MarkowitzResult.toJSONChars r) (("sharpeRatio" : String).toList) =
      .ok (renderFixed8 r.sharpeRatio) := by
  have hBnq : ∀ c ∈ ' ' :: ((if r.converged then ("true" : String).toList else ("false" : String).toList) ++ (',' :: '\n' :: ' ' :: ' ' :: [])), c ≠ '"' := by
    have hBq : '"' ∉ (if r.converged then ("true" : String).toList else ("false" : String).toList) := by
      cases r.converged <;> decide
    intro c hc
    rcases List.mem_cons.mp hc with h | h
    · subst h
      decide
    · rcases List.mem_append.mp h with h2 | h2
      · exact ne_quote_of_mem_of_not_mem h2 hBq
      · exact ne_quote_of_mem_of_not_mem h2 (by decide)
  have hEnq : ∀ c ∈ renderFixed8 r.expectedReturn, c ≠ '"' :=
    fun c hc => (renderFixed8_facts r.expectedReturn c hc).1
  have hRnq : ∀ c ∈ renderFixed8 r.risk, c ≠ '"' :=
    fun c hc => (renderFixed8_facts r.risk c hc).1
  have hjc : MarkowitzResult.toJSONChars r = '\x7b' :: '\n' :: ' ' :: ' ' :: (('"' :: 'c' :: 'o' :: 'n' :: 'v' :: 'e' :: 'r' :: 'g' :: 'e' :: 'd' :: []) ++ (('"' :: ':' :: ' ' :: ((if r.converged then ("true" : String).toList else ("false" : String).toList) ++ (',' :: '\n' :: ' ' :: ' ' :: []))) ++ (('"' :: 'm' :: 'e' :: 's' :: 's' :: 'a' :: 'g' :: 'e' :: []) ++ (('"' :: ':' :: ' ' :: []) ++ (('"' :: (r.message.toList ++ ['"'])) ++ (',' :: '\n' :: ' ' :: ' ' :: (('"' :: 'e' :: 'x' :: 'p' :: 'e' :: 'c' :: 't' :: 'e' :: 'd' :: 'R' :: 'e' :: 't' :: 'u' :: 'r' :: 'n' :: []) ++ (('"' :: ':' :: ' ' :: []) ++ (renderFixed8 r.expectedReturn ++ (',' :: '\n' :: ' ' :: ' ' :: (('"' :: 'r' :: 'i' :: 's' :: 'k' :: []) ++ (('"' :: ':' :: ' ' :: []) ++ (renderFixed8 r.risk ++ (',' :: '\n' :: ' ' :: ' ' :: ('"' :: (("sharpeRatio" : String).toList ++ ('"' :: ':' :: ' ' :: (renderFixed8 r.sharpeRatio ++ (',' :: '\n' :: ' ' :: ' ' :: '"' :: 'w' :: 'e' :: 'i' :: 'g' :: 'h' :: 't' :: 's' :: '"' :: ':' :: ' ' :: '[' :: (weightsChars r.weights ++ (']' :: '\n' :: '\x7d' :: []))))))))))))))))))))) := by
    simp only [MarkowitzResult.toJSONChars, segA_eq, segC_eq, segD_eq, segF_eq, segG_eq, segH_eq, segI_eq, keyConv_eq, keyMsg_eq, keyER_eq, keyRisk_eq, keySR_eq, keyW_eq, trueL_eq, falseL_eq, List.cons_append, List.append_assoc, List.nil_append]
  have hfind : strFind (MarkowitzResult.toJSONChars r)
      ('"' :: (("sharpeRatio" : String).toList ++ ['"', ':'])) = some (('\x7b' :: '\n' :: ' ' :: ' ' :: '"' :: 'c' :: 'o' :: 'n' :: 'v' :: 'e' :: 'r' :: 'g' :: 'e' :: 'd' :: '"' :: ':' :: ' ' :: ((if r.converged then ("true" : String).toList else ("false" : String).toList) ++ ',' :: '\n' :: ' ' :: ' ' :: '"' :: 'm' :: 'e' :: 's' :: 's' :: 'a' :: 'g' :: 'e' :: '"' :: ':' :: ' ' :: '"' :: (r.message.toList ++ '"' :: ',' :: '\n' :: ' ' :: ' ' :: '"' :: 'e' :: 'x' :: 'p' :: 'e' :: 'c' :: 't' :: 'e' :: 'd' :: 'R' :: 'e' :: 't' :: 'u' :: 'r' :: 'n' :: '"' :: ':' :: ' ' :: (renderFixed8 r.expectedReturn ++ ',' :: '\n' :: ' ' :: ' ' :: '"' :: 'r' :: 'i' :: 's' :: 'k' :: '"' :: ':' :: ' ' :: (renderFixed8 r.risk ++ ',' :: '\n' :: ' ' :: ' ' :: []))))).length) := by
    rw [hjc, strFind_cons_skip (not_prefix_head (by decide)),
      strFind_cons_skip (not_prefix_head (by decide)),
      strFind_cons_skip (not_prefix_head (by decide)),
      strFind_cons_skip (not_prefix_head (by decide)),
      strFind_skip_qseg keySR_eq (by decide) (by decide) (by decide),
      strFind_skip_qseg keySR_eq (by decide) (by decide) hBnq,
      strFind_skip_qseg keySR_eq (by decide) (by decide) (by decide),
      strFind_skip_qseg keySR_eq (by decide) (by decide) (by decide),
      strFind_skip_quoted keySR_eq (by decide) (by decide) hq,
      strFind_cons_skip (not_prefix_head (by decide)),
      strFind_cons_skip (not_prefix_head (by decide)),
      strFind_cons_skip (not_prefix_head (by decide)),
      strFind_cons_skip (not_prefix_head (by decide)),
      strFind_skip_qseg keySR_eq (by decide) (by decide) (by decide),
      strFind_skip_qseg keySR_eq (by decide) (by decide) (by decide),
      strFind_skip_nq (renderFixed8 r.expectedReturn) hEnq,
      strFind_cons_skip (not_prefix_head (by decide)),
      strFind_cons_skip (not_prefix_head (by decide)),
      strFind_cons_skip (not_prefix_head (by decide)),
      strFind_cons_skip (not_prefix_head (by decide)),
      strFind_skip_qseg keySR_eq (by decide) (by decide) (by decide),
      strFind_skip_qseg keySR_eq (by decide) (by decide) (by decide),
      strFind_skip_nq (renderFixed8 r.risk) hRnq,
      strFind_cons_skip (not_prefix_head (by decide)),
      strFind_cons_skip (not_prefix_head (by decide)),
      strFind_cons_skip (not_prefix_head (by decide)),
      strFind_cons_skip (not_prefix_head (by decide)),
      strFind_here]
    simp only [Option.map_some']
    refine congrArg some ?_
    simp only [List.length_cons, List.length_append, List.length_nil]
    omega
  have hj : MarkowitzResult.toJSONChars r = '\x7b' :: '\n' :: ' ' :: ' ' :: '"' :: 'c' :: 'o' :: 'n' :: 'v' :: 'e' :: 'r' :: 'g' :: 'e' :: 'd' :: '"' :: ':' :: ' ' :: ((if r.converged then ("true" : String).toList else ("false" : String).toList) ++ ',' :: '\n' :: ' ' :: ' ' :: '"' :: 'm' :: 'e' :: 's' :: 's' :: 'a' :: 'g' :: 'e' :: '"' :: ':' :: ' ' :: '"' :: (r.message.toList ++ '"' :: ',' :: '\n' :: ' ' :: ' ' :: '"' :: 'e' :: 'x' :: 'p' :: 'e' :: 'c' :: 't' :: 'e' :: 'd' :: 'R' :: 'e' :: 't' :: 'u' :: 'r' :: 'n' :: '"' :: ':' :: ' ' :: (renderFixed8 r.expectedReturn ++ ',' :: '\n' :: ' ' :: ' ' :: '"' :: 'r' :: 'i' :: 's' :: 'k' :: '"' :: ':' :: ' ' :: (renderFixed8 r.risk ++ ',' :: '\n' :: ' ' :: ' ' :: [])))) ++ (('"' :: (("sharpeRatio" : String).toList ++ ['"', ':'])) ++ ' ' :: (renderFixed8 r.sharpeRatio ++ (',' :: '\n' :: ' ' :: ' ' :: '"' :: 'w' :: 'e' :: 'i' :: 'g' :: 'h' :: 't' :: 's' :: '"' :: ':' :: ' ' :: '[' :: (weightsChars r.weights ++ (']' :: '\n' :: '\x7d' :: []))))) := by
    simp only [MarkowitzResult.toJSONChars, segA_eq, segC_eq, segD_eq, segF_eq, segG_eq, segH_eq, segI_eq, keyConv_eq, keyMsg_eq, keyER_eq, keyRisk_eq, keySR_eq, keyW_eq, trueL_eq, falseL_eq, List.cons_append, List.append_assoc, List.nil_append]
  exact findValue_num _ hj hfind

theorem findValue_weights (r : MarkowitzResult) (hq : ∀ c ∈ r.message.toList, c ≠ '"') :
    findValue (MarkowitzResult.toJSONChars r) (("weights" : String).toList) =
      .ok ('[' :: (weightsChars r.weights ++ [']'])) := by
  have hBnq : ∀ c ∈ ' ' :: ((if r.converged then ("true" : String).toList else ("false" : String).toList) ++ (',' :: '\n' :: ' ' :: ' ' :: [])), c ≠ '"' := by
    have hBq : '"' ∉ (if r.converged then ("true" : String).toList else ("false" : String).toList) := by
      cases r.converged <;> decide
    intro c hc
    rcases List.mem_cons.mp hc with h | h
    · subst h
      decide
    · rcases List.mem_append.mp h with h2 | h2
      · exact ne_quote_of_mem_of_not_mem h2 hBq
      · exact ne_quote_of_mem_of_not_mem h2 (by decide)
  have hEnq : ∀ c ∈ renderFixed8 r.expectedReturn, c ≠ '"' :=
    fun c hc => (renderFixed8_facts r.expectedReturn c hc).1
  have hRnq : ∀ c ∈ renderFixed8 r.risk, c ≠ '"' :=
    fun c hc => (renderFixed8_facts r.risk c hc).1
  have hSnq : ∀ c ∈ renderFixed8 r.sharpeRatio, c ≠ '"' :=
    fun c hc => (renderFixed8_facts r.sharpeRatio c hc).1
  have hWbr : ∀ c ∈ weightsChars r.weights, c ≠ '[' ∧ c ≠ ']' :=
    fun c hc => ⟨(weightsChars_chars r.weights c hc).2.1,
      (weightsChars_chars r.weights c hc).2.2⟩
  have hjc : MarkowitzResult.toJSONChars r = '\x7b' :: '\n' :: ' ' :: ' ' :: (('"' :: 'c' :: 'o' :: 'n' :: 'v' :: 'e' :: 'r' :: 'g' :: 'e' :: 'd' :: []) ++ (('"' :: ':' :: ' ' :: ((if r.converged then ("true" : String).toList else ("false" : String).toList) ++ (',' :: '\n' :: ' ' :: ' ' :: []))) ++ (('"' :: 'm' :: 'e' :: 's' :: 's' :: 'a' :: 'g' :: 'e' :: []) ++ (('"' :: ':' :: ' ' :: []) ++ (('"' :: (r.message.toList ++ ['"'])) ++ (',' :: '\n' :: ' ' :: ' ' :: (('"' :: 'e' :: 'x' :: 'p' :: 'e' :: 'c' :: 't' :: 'e' :: 'd' :: 'R' :: 'e' :: 't' :: 'u' :: 'r' :: 'n' :: []) ++ (('"' :: ':' :: ' ' :: []) ++ (renderFixed8 r.expectedReturn ++ (',' :: '\n' :: ' ' :: ' ' :: (('"' :: 'r' :: 'i' :: 's' :: 'k' :: []) ++ (('"' :: ':' :: ' ' :: []) ++ (renderFixed8 r.risk ++ (',' :: '\n' :: ' ' :: ' ' :: (('"' :: 's' :: 'h' :: 'a' :: 'r' :: 'p' :: 'e' :: 'R' :: 'a' :: 't' :: 'i' :: 'o' :: []) ++ (('"' :: ':' :: ' ' :: []) ++ (renderFixed8 r.sharpeRatio ++ (',' :: '\n' :: ' ' :: ' ' :: ('"' :: (("weights" : String).toList ++ ('"' :: ':' :: ' ' :: '[' :: (weightsChars r.weights ++ (']' :: '\n' :: '\x7d' :: []))))))))))))))))))))))) := by
    simp only [MarkowitzResult.toJSONChars, segA_eq, segC_eq, segD_eq, segF_eq, segG_eq, segH_eq, segI_eq, keyConv_eq, keyMsg_eq, keyER_eq, keyRisk_eq, keySR_eq, keyW_eq, trueL_eq, falseL_eq, List.cons_append, List.append_assoc, List.nil_append]
  have hfind : strFind (MarkowitzResult.toJSONChars r)
      ('"' :: (("weights" : String).toList ++ ['"', ':'])) = some (('\x7b' :: '\n' :: ' ' :: ' ' :: '"' :: 'c' :: 'o' :: 'n' :: 'v' :: 'e' :: 'r' :: 'g' :: 'e' :: 'd' :: '"' :: ':' :: ' ' :: ((if r.converged then ("true" : String).toList else ("false" : String).toList) ++ ',' :: '\n' :: ' ' :: ' ' :: '"' :: 'm' :: 'e' :: 's' :: 's' :: 'a' :: 'g' :: 'e' :: '"' :: ':' :: ' ' :: '"' :: (r.message.toList ++ '"' :: ',' :: '\n' :: ' ' :: ' ' :: '"' :: 'e' :: 'x' :: 'p' :: 'e' :: 'c' :: 't' :: 'e' :: 'd' :: 'R' :: 'e' :: 't' :: 'u' :: 'r' :: 'n' :: '"' :: ':' :: ' ' :: (renderFixed8 r.expectedReturn ++ ',' :: '\n' :: ' ' :: ' ' :: '"' :: 'r' :: 'i' :: 's' :: 'k' :: '"' :: ':' :: ' ' :: (renderFixed8 r.risk ++ ',' :: '\n' :: ' ' :: ' ' :: '"' :: 's' :: 'h' :: 'a' :: 'r' :: 'p' :: 'e' :: 'R' :: 'a' :: 't' :: 'i' :: 'o' :: '"' :: ':' :: ' ' :: (renderFixed8 r.sharpeRatio ++ ',' :: '\n' :: ' ' :: ' ' :: [])))))).length) := by
    rw [hjc, strFind_cons_skip (not_prefix_head (by decide)),
      strFind_cons_skip (not_prefix_head (by decide)),
      strFind_cons_skip (not_prefix_head (by decide)),
      strFind_cons_skip (not_prefix_head (by decide)),
      strFind_skip_qseg keyW_eq (by decide) (by decide) (by decide),
      strFind_skip_qseg keyW_eq (by decide) (by decide) hBnq,
      strFind_skip_qseg keyW_eq (by decide) (by decide) (by decide),
      strFind_skip_qseg keyW_eq (by decide) (by decide) (by decide),
      strFind_skip_quoted keyW_eq (by decide) (by decide) hq,
      strFind_cons_skip (not_prefix_head (by decide)),
      strFind_cons_skip (not_prefix_head (by decide)),
      strFind_cons_skip (not_prefix_head (by decide)),
      strFind_cons_skip (not_prefix_head (by decide)),
      strFind_skip_qseg keyW_eq (by decide) (by decide) (by decide),
      strFind_skip_qseg keyW_eq (by decide) (by decide) (by decide),
      strFind_skip_nq (renderFixed8 r.expectedReturn) hEnq,
      strFind_cons_skip (not_prefix_head (by decide)),
      strFind_cons_skip (not_prefix_head (by decide)),
      strFind_cons_skip (not_prefix_head (by decide)),
      strFind_cons_skip (not_prefix_head (by decide)),
      strFind_skip_qseg keyW_eq (by decide) (by decide) (by decide),
      strFind_skip_qseg keyW_eq (by decide) (by decide) (by decide),
      strFind_skip_nq (renderFixed8 r.risk) hRnq,
      strFind_cons_skip (not_prefix_head (by decide)),
      strFind_cons_skip (not_prefix_head (by decide)),
      strFind_cons_skip (not_prefix_head (by decide)),
      strFind_cons_skip (not_prefix_head (by decide)),
      strFind_skip_qseg keyW_eq (by decide) (by decide) (by decide),
      strFind_skip_qseg keyW_eq (by decide) (by decide) (by decide),
      strFind_skip_nq (renderFixed8 r.sharpeRatio) hSnq,
      strFind_cons_skip (not_prefix_head (by decide)),
      strFind_cons_skip (not_prefix_head (by decide)),
      strFind_cons_skip (not_prefix_head (by decide)),
      strFind_cons_skip (not_prefix_head (by decide)),
      strFind_here]
    simp only [Option.map_some']
    refine congrArg some ?_
    simp only [List.length_cons, List.length_append, List.length_nil]
    omega
  have hj : MarkowitzResult.toJSONChars r = '\x7b' :: '\n' :: ' ' :: ' ' :: '"' :: 'c' :: 'o' :: 'n' :: 'v' :: 'e' :: 'r' :: 'g' :: 'e' :: 'd' :: '"' :: ':' :: ' ' :: ((if r.converged then ("true" : String).toList else ("false" : String).toList) ++ ',' :: '\n' :: ' ' :: ' ' :: '"' :: 'm' :: 'e' :: 's' :: 's' :: 'a' :: 'g' :: 'e' :: '"' :: ':' :: ' ' :: '"' :: (r.message.toList ++ '"' :: ',' :: '\n' :: ' ' :: ' ' :: '"' :: 'e' :: 'x' :: 'p' :: 'e' :: 'c' :: 't' :: 'e' :: 'd' :: 'R' :: 'e' :: 't' :: 'u' :: 'r' :: 'n' :: '"' :: ':' :: ' ' :: (renderFixed8 r.expectedReturn ++ ',' :: '\n' :: ' ' :: ' ' :: '"' :: 'r' :: 'i' :: 's' :: 'k' :: '"' :: ':' :: ' ' :: (renderFixed8 r.risk ++ ',' :: '\n' :: ' ' :: ' ' :: '"' :: 's' :: 'h' :: 'a' :: 'r' :: 'p' :: 'e' :: 'R' :: 'a' :: 't' :: 'i' :: 'o' :: '"' :: ':' :: ' ' :: (renderFixed8 r.sharpeRatio ++ ',' :: '\n' :: ' ' :: ' ' :: []))))) ++ (('"' :: (("weights" : String).toList ++ ['"', ':'])) ++ ' ' :: '[' :: (weightsChars r.weights ++ (']' :: '\n' :: '\x7d' :: []))) := by
    simp only [MarkowitzResult.toJSONChars, segA_eq, segC_eq, segD_eq, segF_eq, segG_eq, segH_eq, segI_eq, keyConv_eq, keyMsg_eq, keyER_eq, keyRisk_eq, keySR_eq, keyW_eq, trueL_eq, falseL_eq, List.cons_append, List.append_assoc, List.nil_append]
  exact findValue_array hWbr hj hfind

/-! ### Parsing back the rendered numbers -/

theorem stodModel_dash (l : List Char) :
    stodModel ('-' :: l) =
      match parseUnsigned l with
      | .ok v => .ok (-v)
      | .error e => .error e := by
  simp only [stodModel]
  rw [if_pos trivial]

theorem stodModel_head_digit {c : Char} (l : List Char) (hc : c.isDigit = true) :
    stodModel (c :: l) = parseUnsigned (c :: l) := by
  simp only [stodModel]
  rw [if_neg (isDigit_ne hc (by decide))]

theorem parseUnsigned_render (a : ℕ) :
    parseUnsigned (natDigits (a / 10 ^ 8) ++ '.' :: natDigitsPad 8 (a % 10 ^ 8)) =
      .ok ((a : ℝ) / 10 ^ 8) := by
  have hlf : (natDigits (a % 10 ^ 8)).length ≤ 8 :=
    natDigits_length_le (by norm_num) (Nat.mod_lt a (by norm_num))
  have hp1 : parseDigits (natDigits (a / 10 ^ 8) ++ '.' :: natDigitsPad 8 (a % 10 ^ 8)) 0 0 =
      (a / 10 ^ 8, (natDigits (a / 10 ^ 8)).length, '.' :: natDigitsPad 8 (a % 10 ^ 8)) := by
    rw [parseDigits_digits,
      parseDigits_stop (by intro c hc; injection hc with hc2; subst hc2; decide)]
    norm_num
  have hp2 : parseDigits (natDigitsPad 8 (a % 10 ^ 8)) 0 0 = (a % 10 ^ 8, 8, []) := by
    rw [natDigitsPad,
      ← List.append_nil (List.replicate (8 - (natDigits (a % 10 ^ 8)).length) '0' ++
        natDigits (a % 10 ^ 8)), parseDigits_pad]
    simp only [parseDigits, Nat.zero_mul, Nat.zero_add]
    have hk : 8 - (natDigits (a % 10 ^ 8)).length + (natDigits (a % 10 ^ 8)).length = 8 := by
      omega
    rw [hk]
  obtain ⟨c, l, he⟩ := List.exists_cons_of_ne_nil (natDigits_ne_nil (a / 10 ^ 8))
  have hc : c.isDigit = true := natDigits_chars _ c (by rw [he]; exact List.mem_cons_self c l)
  rw [he, List.cons_append] at hp1
  rw [he, List.cons_append]
  simp only [parseUnsigned]
  rw [if_pos hc]
  simp only [hp1, hp2]
  have key : ((a : ℕ) : ℝ) = ((a / 10 ^ 8 : ℕ) : ℝ) * 10 ^ 8 + ((a % 10 ^ 8 : ℕ) : ℝ) := by
    norm_cast
    simp only [show (10 : ℕ) ^ 8 = 100000000 from by norm_num]
    omega
  rw [key, add_div, mul_div_assoc, div_self (show ((10 : ℝ) ^ 8) ≠ 0 from by norm_num),
    mul_one]

theorem stodModel_render (x : ℝ) :
    stodModel (renderFixed8 x) = .ok (roundVal x) := by
  rw [roundVal]
  simp only [renderFixed8]
  by_cases hm : round (x * 10 ^ 8) < 0
  · rw [if_pos hm, List.append_assoc, List.singleton_append, stodModel_dash,
      parseUnsigned_render]
    show Except.ok _ = _
    congr 1
    rw [Int.cast_natAbs, abs_of_neg hm]
    push_cast
    ring
  · rw [if_neg hm, List.nil_append]
    obtain ⟨c, l, he⟩ :=
      List.exists_cons_of_ne_nil (natDigits_ne_nil ((round (x * 10 ^ 8)).natAbs / 10 ^ 8))
    have hc : c.isDigit = true := natDigits_chars _ c (by rw [he]; exact List.mem_cons_self c l)
    rw [he, List.cons_append, stodModel_head_digit _ hc, ← List.cons_append, ← he,
      parseUnsigned_render]
    congr 1
    rw [Int.cast_natAbs, abs_of_nonneg (not_lt.mp hm)]

theorem roundVal_close (x : ℝ) : |roundVal x - x| ≤ 1 / 1000000 := by
  rw [roundVal]
  have h1 : ((round (x * 10 ^ 8) : ℤ) : ℝ) / 10 ^ 8 - x =
      (((round (x * 10 ^ 8) : ℤ) : ℝ) - x * 10 ^ 8) / 10 ^ 8 := by
    field_simp
    ring
  rw [h1, abs_div, abs_of_pos (show (0 : ℝ) < 10 ^ 8 from by norm_num)]
  have h2 := abs_sub_round (x * 10 ^ 8)
  rw [abs_sub_comm] at h2
  calc |((round (x * 10 ^ 8) : ℤ) : ℝ) - x * 10 ^ 8| / 10 ^ 8
      ≤ (1 / 2) / 10 ^ 8 := (div_le_div_right (by norm_num)).mpr h2
    _ ≤ 1 / 1000000 := by norm_num

/-! ### Parsing back the weights array -/

theorem splitCommaAux_no_comma :
    ∀ (l cur : List Char), (∀ c ∈ l, c ≠ ',') →
      splitCommaAux cur l = [cur.reverse ++ l] := by
  intro l
  induction l with
  | nil =>
    intro cur _
    simp only [splitCommaAux, List.append_nil]
  | cons c r ih =>
    intro cur h
    simp only [splitCommaAux]
    rw [if_neg (h c (List.mem_cons_self c r)),
      ih (c :: cur) (fun d hd => h d (List.mem_cons_of_mem c hd)),
      List.reverse_cons, List.append_assoc, List.singleton_append]

theorem splitCommaAux_comma :
    ∀ (a cur b : List Char), (∀ c ∈ a, c ≠ ',') →
      splitCommaAux cur (a ++ ',' :: b) = (cur.reverse ++ a) :: splitCommaAux [] b := by
  intro a
  induction a with
  | nil =>
    intro cur b _
    rw [List.nil_append]
    simp only [splitCommaAux]
    rw [if_pos trivial, List.append_nil]
  | cons c r ih =>
    intro cur b h
    rw [List.cons_append]
    simp only [splitCommaAux]
    rw [if_neg (h c (List.mem_cons_self c r)),
      ih (c :: cur) b (fun d hd => h d (List.mem_cons_of_mem c hd)),
      List.reverse_cons, List.append_assoc, List.singleton_append]

theorem renderFixed8_token (x : ℝ) : trimChars (renderFixed8 x) = renderFixed8 x :=
  trimChars_eq_self (fun c hc => (renderFixed8_facts x c hc).2.2.2.2.1)

theorem renderFixed8_ne_nil (x : ℝ) : renderFixed8 x ≠ [] := by
  obtain ⟨c, l, he, _⟩ := renderFixed8_head x
  rw [he]
  exact List.cons_ne_nil c l

theorem renderFixed8_no_comma (x : ℝ) : ∀ c ∈ renderFixed8 x, c ≠ ',' :=
  fun c hc => (renderFixed8_facts x c hc).2.1

theorem parseWeights_tail (vs : Vec) :
    parseWeights (splitCommaAux [] (' ' :: weightsChars vs)) = .ok (vs.map roundVal) := by
  induction vs with
  | nil =>
    simp only [weightsChars]
    rw [splitCommaAux_no_comma (' ' :: []) [] (by decide)]
    simp only [List.reverse_nil, List.nil_append, parseWeights]
    rw [if_pos (show trimChars (' ' :: []) = [] from by decide)]
    simp only [parseWeights, List.map_nil]
  | cons x vs ih =>
    cases vs with
    | nil =>
      simp only [weightsChars]
      rw [splitCommaAux_no_comma (' ' :: renderFixed8 x) []
        (by
          intro c hc
          rcases List.mem_cons.mp hc with h | h
          · subst h
            decide
          · exact renderFixed8_no_comma x c h)]
      simp only [List.reverse_nil, List.nil_append, parseWeights]
      rw [trimChars_space_cons (fun c hc => (renderFixed8_facts x c hc).2.2.2.2.1),
        if_neg (renderFixed8_ne_nil x), stodModel_render]
      rfl
    | cons y rest =>
      simp only [weightsChars]
      rw [show ' ' :: (renderFixed8 x ++ ',' :: ' ' :: weightsChars (y :: rest)) =
          (' ' :: renderFixed8 x) ++ ',' :: (' ' :: weightsChars (y :: rest)) from by
        rw [List.cons_append]]
      rw [splitCommaAux_comma (' ' :: renderFixed8 x) [] (' ' :: weightsChars (y :: rest))
        (by
          intro c hc
          rcases List.mem_cons.mp hc with h | h
          · subst h
            decide
          · exact renderFixed8_no_comma x c h)]
      simp only [List.reverse_nil, List.nil_append, parseWeights]
      rw [trimChars_space_cons (fun c hc => (renderFixed8_facts x c hc).2.2.2.2.1),
        if_neg (renderFixed8_ne_nil x), stodModel_render, ih]
      rfl

theorem parseWeights_weightsChars (vs : Vec) :
    parseWeights (splitOnComma (weightsChars vs)) = .ok (vs.map roundVal) := by
  cases vs with
  | nil => rfl
  | cons x vs =>
    cases vs with
    | nil =>
      simp only [weightsChars]
      obtain ⟨c, l, he, _⟩ := renderFixed8_head x
      rw [he]
      simp only [splitOnComma]
      rw [← he, splitCommaAux_no_comma (renderFixed8 x) [] (renderFixed8_no_comma x)]
      simp only [List.reverse_nil, List.nil_append, parseWeights]
      rw [renderFixed8_token, if_neg (renderFixed8_ne_nil x), stodModel_render]
      rfl
    | cons y rest =>
      simp only [weightsChars]
      obtain ⟨c, l, he, _⟩ := renderFixed8_head x
      rw [he, List.cons_append]
      simp only [splitOnComma]
      rw [← List.cons_append, ← he,
        splitCommaAux_comma (renderFixed8 x) [] (' ' :: weightsChars (y :: rest))
          (renderFixed8_no_comma x)]
      simp only [List.reverse_nil, List.nil_append, parseWeights]
      rw [renderFixed8_token, if_neg (renderFixed8_ne_nil x), stodModel_render,
        parseWeights_tail (y :: rest)]
      rfl

/-! ### The serialization round trip (claim C8) -/

theorem fromJSON_toJSON (r : MarkowitzResult) (hq : ∀ c ∈ r.message.toList, c ≠ '"') :
    MarkowitzResult.fromJSONChars (MarkowitzResult.toJSONChars r) =
      .ok ⟨r.weights.map roundVal, roundVal r.expectedReturn, roundVal r.risk,
        roundVal r.sharpeRatio, r.converged, r.message⟩ := by
  have h1 := findValue_conv r
  have h2 := findValue_msg r hq
  have h3 := findValue_er r hq
  have h4 := findValue_risk r hq
  have h5 := findValue_sr r hq
  have h6 := findValue_weights r hq
  have hdl : (('[' :: (weightsChars r.weights ++ [']'])).drop 1).dropLast =
      weightsChars r.weights := by
    simp
  have hb : ((if r.converged then ("true" : String).toList else ("false" : String).toList) ==
      ("true" : String).toList) = r.converged := by
    cases r.converged <;> decide
  have hmk : String.mk r.message.toList = r.message := rfl
  simp only [MarkowitzResult.fromJSONChars, h1, h2, h3, h4, h5, h6, stodModel_render,
    hdl, parseWeights_weightsChars, hb, hmk]

theorem roundVal_zero : roundVal 0 = 0 := by
  rw [roundVal]
  simp

/-- C8: after amendment.  `MarkowitzResult::fromJSON(r.toJSON())` succeeds and
reproduces every field of `r` -- the converged flag and message exactly, the
numeric fields and each weight within 1e-6 -- provided the message contains no
double-quote character; an embedded quote is written unescaped by `toJSON` and
truncates the parsed-back message, refuting the unconditional claim. -/
theorem fromJSON_toJSON_roundtrip (r : MarkowitzResult)
    (hq : '"' ∉ r.message.toList) :
    ∃ r' : MarkowitzResult,
      MarkowitzResult.fromJSONChars (MarkowitzResult.toJSONChars r) = Except.ok r' ∧
      r'.converged = r.converged ∧
      r'.message = r.message ∧
      |r'.expectedReturn - r.expectedReturn| ≤ 1 / 1000000 ∧
      |r'.risk - r.risk| ≤ 1 / 1000000 ∧
      |r'.sharpeRatio - r.sharpeRatio| ≤ 1 / 1000000 ∧
      r'.weights.length = r.weights.length ∧
      ∀ i : ℕ, |r'.weights.getD i 0 - r.weights.getD i 0| ≤ 1 / 1000000 := by
  refine ⟨_, fromJSON_toJSON r (fun c hc hc2 => hq (hc2 ▸ hc)), rfl, rfl,
    roundVal_close _, roundVal_close _, roundVal_close _, by simp, ?_⟩
  intro i
  show |(r.weights.map roundVal).getD i 0 - r.weights.getD i 0| ≤ 1 / 1000000
  rw [getD_map_zero roundVal roundVal_zero]
  exact roundVal_close _

theorem fromJSON_toJSON_roundtrip_witness :
    ('"' ∉ ("ok" : String).toList) ∧
      (∃ r' : MarkowitzResult,
        MarkowitzResult.fromJSONChars (MarkowitzResult.toJSONChars
          ⟨[1], 2, 3, 4, true, "ok"⟩) = Except.ok r' ∧
        r'.converged = true ∧
        r'.message = "ok" ∧
        |r'.expectedReturn - 2| ≤ 1 / 1000000 ∧
        |r'.risk - 3| ≤ 1 / 1000000 ∧
        |r'.sharpeRatio - 4| ≤ 1 / 1000000 ∧
        r'.weights.length = 1 ∧
        ∀ i : ℕ, |r'.weights.getD i 0 - ([1] : Vec).getD i 0| ≤ 1 / 1000000) :=
  ⟨by decide, fromJSON_toJSON_roundtrip ⟨[1], 2, 3, 4, true, "ok"⟩ (by decide)⟩

theorem renderFixed8_zero : renderFixed8 0 = "0.00000000".toList := by
  simp only [renderFixed8, zero_mul, round_zero, Int.natAbs_zero]
  rw [if_neg (lt_irrefl 0), Nat.zero_div, Nat.zero_mod,
    natDigits_small (by norm_num), natDigitsPad, natDigits_small (by norm_num)]
  decide

set_option maxRecDepth 100000 in
/-- C8 counterexample: a message consisting of a single double-quote character
is written unescaped by `toJSON`, so `fromJSON` reads back an empty message:
the round trip does not reproduce the message field. -/
theorem toJSON_quote_message_not_roundtrip :
    (MarkowitzResult.fromJSONChars (MarkowitzResult.toJSONChars
      ⟨[], 0, 0, 0, true, "\""⟩)).map MarkowitzResult.message ≠ Except.ok "\"" := by
  have hj : MarkowitzResult.toJSONChars ⟨[], 0, 0, 0, true, "\""⟩ =
      ("\x7b\n  \"converged\": true,\n  \"message\": \"\"\",\n  \"expectedReturn\": 0.00000000,\n  \"risk\": 0.00000000,\n  \"sharpeRatio\": 0.00000000,\n  \"weights\": []\n\x7d" : String).toList := by
    simp only [MarkowitzResult.toJSONChars, renderFixed8_zero, weightsChars]
    decide
  rw [hj]
  have hfull : MarkowitzResult.fromJSONChars
      (("\x7b\n  \"converged\": true,\n  \"message\": \"\"\",\n  \"expectedReturn\": 0.00000000,\n  \"risk\": 0.00000000,\n  \"sharpeRatio\": 0.00000000,\n  \"weights\": []\n\x7d" : String).toList) =
      Except.ok ⟨[], ((0 : ℕ) : ℝ) + ((0 : ℕ) : ℝ) / 10 ^ (8 : ℕ),
        ((0 : ℕ) : ℝ) + ((0 : ℕ) : ℝ) / 10 ^ (8 : ℕ),
        ((0 : ℕ) : ℝ) + ((0 : ℕ) : ℝ) / 10 ^ (8 : ℕ), true, String.mk []⟩ := rfl
  rw [hfull]
  intro h
  simp only [Except.map] at h
  injection h with h2
  exact absurd h2 (by decide)

end

end Orbat
